import Mathlib

/-!
# Chat server and client: command parser, roster and sessions

A shallow embedding of the chat server of this repository (`commands.c`,
`lineList.c`, `clientThread.c`, `clientList.c`, `serverUtils.c`) and of its
client (`clientData.c`, `clientUtils.c`), and the properties proved about
them.

Conventions of the embedding.

* A C string is the list of its bytes before the terminating NUL; a byte is a
  `Char` whose code is the byte value.
* A `FILE *` opened for reading is the list of bytes still to be read (the end
  of the list is end-of-stream); a `FILE *` opened for writing is the list of
  bytes written so far.
* A pointer to a `ClientThread` is a natural number (`ClientThread.id`); the
  linked list of `ClientNode`s is the list of the clients met when following
  `next` from `head`.
* A `NULL` pointer is `none`. Dereferencing `NULL` is a fault, and so is a
  read past the end of the array `lines` of a `LineList`; a function that can
  fault returns an `Option`, with `none` for the fault (`Outcome` for
  `spawn_client_thread` and `Negotiated` for `name_negotiate`, which keep the
  state at the fault).
* The counters are C `int`s that only ever grow by one; they are natural
  numbers here (no run reaches `INT_MAX`).
* The functions run to completion on their own, without their mutexes. The
  mutexes are modelled apart, for the calls that write to a peer: there each
  call of a thread on a mutex or on a stream is one step, and the threads take
  their steps in any order (`Sched`, `step`, `run`).
* The nodes of the list are also modelled in memory, with their pointers
  `prev` and `next`, for `remove_client` (`Nodes`).
* A `sprintf` that writes past its buffer is a fault, for the two stat lines
  (`client_stat_line`, `server_stat_line`). The buffer of `get_name` of the
  client, which has room for nine digits, is not modelled.
-/

namespace Chat

/-! ## lineList.h, commands.h: strings and line lists -/

/-- A C string: its bytes before the terminating NUL. -/
abbrev CString := List Char

/-- The `LineList` struct: `lines`, with `numLines` the length of the list. -/
abbrev LineList := List CString

/-- The enum `CmdSentTo`. -/
inductive CmdSentTo where
  | CLIENT
  | SERVER
  deriving DecidableEq, Repr

open CmdSentTo

/-! ## C library functions used by the sources -/

/-- C library `strcmp`: negative, zero or positive as the first string is
less than, equal to or greater than the second, bytes compared as unsigned
values. The C standard fixes only the sign of the result, so the result is
`-1`, `0` or `1`. -/
def strcmp : CString → CString → Int
  | [], [] => 0
  | [], _ :: _ => -1
  | _ :: _, [] => 1
  | a :: s, b :: t => if a = b then strcmp s t else if a.toNat < b.toNat then -1 else 1

/-- C library `strtok_r` on the string at `s` (for a first call the string
itself, for a later call the saved pointer): skips leading delimiters, then
returns the token up to the next delimiter and the new saved pointer (just
past that delimiter, or the end of the string). `none` is `NULL`. -/
def strtok_r (s : CString) (delim : List Char) : Option CString × CString :=
  match s.dropWhile (fun c => decide (c ∈ delim)) with
  | [] => (none, [])
  | c :: s1 =>
    let token := (c :: s1).takeWhile (fun d => !decide (d ∈ delim))
    match (c :: s1).dropWhile (fun d => !decide (d ∈ delim)) with
    | [] => (some token, [])
    | _ :: rest => (some token, rest)

/-- C library `strncasecmp(s1, s2, n) == 0`: the first `n` bytes agree up to
ASCII case, a string that ends earlier counting as ended by its NUL. -/
def strncasecmp_eq (s1 s2 : CString) (n : Nat) : Bool :=
  (s1.take n).map Char.toLower == (s2.take n).map Char.toLower

/-- C library `vfprintf` and `fprintf` for a call that passes no argument after the format:
the bytes written. The second argument says whether the byte before was a
`%` that starts a conversion. `%%` writes one `%`; any other conversion reads
an argument that was not passed, and a `%` at the end is an incomplete
conversion: both are undefined behaviour, `none`. -/
def vfprintf_no_args : CString → Bool → Option CString
  | [], false => some []
  | [], true => none
  | c :: format, false =>
    if c = '%' then vfprintf_no_args format true
    else (vfprintf_no_args format false).map fun out => c :: out
  | c :: format, true =>
    if c = '%' then (vfprintf_no_args format false).map fun out => '%' :: out
    else none

/-! ## lineList.c -/

/-- `MIN_PRINTABLE`. -/
def MIN_PRINTABLE : Int := 32

/-- The conversion `(int) line[i]` of a `char`: where plain `char` is signed
(`signedChar = true`) the bytes 128..255 are the negative values -128..-1. -/
def char_to_int (signedChar : Bool) (c : Char) : Int :=
  if signedChar && decide (128 ≤ c.toNat) then (c.toNat : Int) - 256 else (c.toNat : Int)

/-- `get_printable`: a copy of `line` with every byte whose `int` value is
below `MIN_PRINTABLE` replaced by a question mark. -/
def get_printable (signedChar : Bool) (line : CString) : CString :=
  line.map fun c => if char_to_int signedChar c < MIN_PRINTABLE then '?' else c

/-- `pattern_match_string`: whether `pattern` occurs in `target` at some
offset below `strlen(target)`, compared case-insensitively. -/
def pattern_match_string (pattern target : CString) : Bool :=
  (List.range target.length).any fun offset =>
    strncasecmp_eq pattern (target.drop offset) pattern.length

/-- `add_to_string`: the target string with `wordsToAdd` appended. -/
def add_to_string (target wordsToAdd : CString) : CString :=
  target ++ wordsToAdd

/-- The `while` loop of `get_line`: `nextChar` is the byte just read (not
end-of-stream) and `doc` the bytes after it. Returns the bytes stored in
`line`, `isLastLine`, and the bytes left in the stream. -/
def get_line_loop : Char → List Char → List Char × Bool × List Char
  | nextChar, doc =>
    if nextChar = '\n' then ([], false, doc)
    else
      match doc with
      | [] => ([nextChar], true, [])
      | c :: doc1 =>
        let r := get_line_loop c doc1
        (nextChar :: r.1, r.2.1, r.2.2)

/-- `get_line`: the bytes stored in `line`, `isLastLine`, whether
`*isLineEmpty` was set, and the bytes left in the stream. -/
def get_line (doc : List Char) : List Char × Bool × Bool × List Char :=
  match doc with
  | [] => ([], true, true, [])
  | c :: doc1 =>
    let r := get_line_loop c doc1
    (r.1, r.2.1, false, r.2.2)

/-- The C string held by a buffer: its bytes before the first NUL. -/
def c_str (buf : List Char) : CString :=
  buf.takeWhile fun c => c != Char.ofNat 0

/-- `read_file_line`: the line read (as the C string the caller sees),
whether `*isLineEmpty` was set, and the bytes left in the stream. -/
def read_file_line (doc : List Char) : CString × Bool × List Char :=
  let r := get_line doc
  (c_str r.1, r.2.2.1, r.2.2.2)

/-! ## commands.c -/

/-- `SAY`: the command number of `SAY` for the server. -/
def SAY : Nat := 2

/-- `MSG`: the command number of `MSG` for the client. -/
def MSG : Nat := 6

/-- `clientCmdWords`. -/
def clientCmdWords : List CString :=
  ["WHO".toList, "NAME_TAKEN".toList, "AUTH".toList, "OK".toList, "KICK".toList,
   "LIST".toList, "MSG".toList, "ENTER".toList, "LEAVE".toList]

/-- `maxClientCmdLengths`. -/
def maxClientCmdLengths : List Nat := [1, 1, 1, 1, 1, 2, 3, 2, 2]

/-- `minClientCmdLengths`. -/
def minClientCmdLengths : List Nat := [1, 1, 1, 1, 1, 1, 2, 2, 2]

/-- `serverCmdWords`. -/
def serverCmdWords : List CString :=
  ["NAME".toList, "AUTH".toList, "SAY".toList, "KICK".toList, "LIST".toList,
   "LEAVE".toList]

/-- `maxServerCmdLengths`. -/
def maxServerCmdLengths : List Nat := [2, 2, 2, 2, 1, 1]

/-- `minServerCmdLengths`. -/
def minServerCmdLengths : List Nat := [1, 1, 1, 2, 1, 1]

/-- `cmdCount`. -/
def cmdCount : CmdSentTo → Nat
  | CLIENT => 9
  | SERVER => 6

/-- `cmdWords`. -/
def cmdWords : CmdSentTo → List CString
  | CLIENT => clientCmdWords
  | SERVER => serverCmdWords

/-- `maxCmdLengths[sentTo][cmdNo]`. -/
def maxCmdLengths (sentTo : CmdSentTo) (cmdNo : Nat) : Nat :=
  match sentTo with
  | CLIENT => maxClientCmdLengths.getD cmdNo 0
  | SERVER => maxServerCmdLengths.getD cmdNo 0

/-- `minCmdLengths[sentTo][cmdNo]`. -/
def minCmdLengths (sentTo : CmdSentTo) (cmdNo : Nat) : Nat :=
  match sentTo with
  | CLIENT => minClientCmdLengths.getD cmdNo 0
  | SERVER => minServerCmdLengths.getD cmdNo 0

/-- `get_cmd_no`: the index of `cmd` among the first `cmdCount[sentTo]` words
of `cmdWords[sentTo]`; `none` is the C result `-1` (a `NULL` or empty `cmd`,
or no match). -/
def get_cmd_no (cmd : Option CString) (sentTo : CmdSentTo) : Option Nat :=
  match cmd with
  | none => none
  | some w =>
    if w.length = 0 then none
    else ((cmdWords sentTo).take (cmdCount sentTo)).findIdx? fun word => strcmp w word == 0

/-- The `while (token != NULL)` loop of `get_cmd_args`. The first argument is
`maxCmdArgs - argCount`, so that the test `++argCount >= maxCmdArgs` is the
test that it is at most one. Returns `cmdLines`, the last `token` and the
saved pointer of `strtok_r`. -/
def get_cmd_args_loop : Nat → Option CString → CString → LineList →
    LineList × Option CString × CString
  | _, none, reference, cmdLines => (cmdLines, none, reference)
  | room + 2, some token, reference, cmdLines =>
    let next := strtok_r reference [':']
    get_cmd_args_loop (room + 1) next.1 next.2 (cmdLines ++ [token])
  | _, some token, reference, cmdLines => (cmdLines ++ [token], some token, reference)

/-- `get_cmd_args`: the arguments of `cmd`, and whether `*invalidCmd` was set
to true. -/
def get_cmd_args (cmd : CString) (sentTo : CmdSentTo) : LineList × Bool :=
  let first := strtok_r cmd [':']
  match get_cmd_no first.1 sentTo with
  | none => ([], false)
  | some cmdNo =>
    let maxCmdArgs := maxCmdLengths sentTo cmdNo
    let looped := get_cmd_args_loop (maxCmdArgs - 1) first.1 first.2 []
    let cmdLines :=
      match (strtok_r looped.2.2 []).1 with
      | some token => looped.1 ++ [token]
      | none => looped.1
    (cmdLines,
      decide (cmdLines.length < maxCmdLengths sentTo cmdNo) && (cmd.getLast? != some ':'))

/-- `cmd_to_lines`: the `LineList` of a valid command, `none` (`NULL`) for an
invalid one. -/
def cmd_to_lines (cmd : CString) (sentTo : CmdSentTo) : Option LineList :=
  if cmd.length < 1 then none
  else
    let parsed := get_cmd_args cmd sentTo
    let parsedCmd := parsed.1
    if parsedCmd.length < 1 then none
    else
      match get_cmd_no parsedCmd.head? sentTo with
      | none => none
      | some cmdNo =>
        let invalidCmd :=
          if (sentTo = SERVER ∧ cmdNo ≠ SAY) ∨ (sentTo = CLIENT ∧ cmdNo ≠ MSG) then
            parsed.2 ||
              (pattern_match_string [':'] (parsedCmd.getLast?.getD []) ||
                decide (parsedCmd.length > maxCmdLengths sentTo cmdNo))
          else parsed.2
        if invalidCmd || decide (parsedCmd.length < minCmdLengths sentTo cmdNo) then none
        else some parsedCmd

/-! ## clientThread.h, clientThread.c -/

/-- The entries `SAY_COUNT`, `KICK_COUNT`, `LIST_COUNT` of the `stats` array
of a `ClientThread`. -/
structure ClientStats where
  say : Nat
  kick : Nat
  list : Nat
  deriving DecidableEq, Repr

/-- The `ClientThread` struct. `id` is the address of the struct; `readFrom`
holds the bytes the peer has sent and the server has not read yet, `writeTo`
the bytes written to the peer so far. -/
structure ClientThread where
  id : Nat
  isActive : Bool
  name : Option CString
  stats : ClientStats
  readFrom : List Char
  writeTo : List Char
  deriving DecidableEq, Repr

/-- `init_client_thread`: a new `ClientThread` at address `id`. -/
def init_client_thread (id : Nat) (readFrom : List Char) : ClientThread :=
  { id := id, isActive := true, name := none, stats := ⟨0, 0, 0⟩,
    readFrom := readFrom, writeTo := [] }

/-- `set_client_name`. -/
def set_client_name (client : ClientThread) (name : CString) : ClientThread :=
  { client with name := some name }

/-- `get_active_status`. -/
def get_active_status (client : ClientThread) : Bool :=
  client.isActive

/-- `disable_client`. -/
def disable_client (client : ClientThread) : ClientThread :=
  { client with isActive := false }

/-- `send_client`, for a format without conversions: the line and a newline
are written to the client. -/
def send_client (client : ClientThread) (line : CString) : ClientThread :=
  { client with writeTo := client.writeTo ++ line ++ ['\n'] }

/-- `read_client_line`: the line, whether `*isLineEmpty` was set, and the
client with the line consumed. -/
def read_client_line (client : ClientThread) : CString × Bool × ClientThread :=
  let r := read_file_line client.readFrom
  (r.1, r.2.1, { client with readFrom := r.2.2 })

/-! ## clientList.h, clientList.c -/

/-- The `stats` array of a `ClientList`, by `StatIndices`. -/
structure ServerStats where
  say : Nat
  kick : Nat
  list : Nat
  auth : Nat
  name : Nat
  leave : Nat
  deriving DecidableEq, Repr

/-- A `ClientNode` of the linked list, known by the `ClientThread` it holds. -/
abbrev ClientNode := ClientThread

/-- The `ClientList` struct; `head` is the list of the nodes in `next` order. -/
structure ClientList where
  password : Option CString
  stats : ServerStats
  head : List ClientNode
  deriving DecidableEq, Repr

/-- `init_node`. -/
def init_node (client : ClientThread) : ClientNode :=
  client

/-- `compare_node_names`: `strcmp` of the two names; `none` is the fault of
passing a `NULL` name to `strcmp`. -/
def compare_node_names (node1 node2 : ClientNode) : Option Int :=
  match node1.name, node2.name with
  | some name1, some name2 => some (strcmp name1 name2)
  | _, _ => none

/-- The `while (currentNode->next != NULL)` loop of `add_node`: the list from
`currentNode` on, with `node` put in. -/
def add_node_loop (node : ClientNode) : ClientNode → List ClientNode → Option (List ClientNode)
  | currentNode, [] => some [currentNode, node]
  | currentNode, next :: rest =>
    match compare_node_names node next with
    | none => none
    | some cmp =>
      if cmp < 0 then some (currentNode :: node :: next :: rest)
      else (add_node_loop node next rest).map fun l => currentNode :: l

/-- `add_node`; `none` is a fault (a `NULL` name compared). -/
def add_node (clients : ClientList) (node : ClientNode) : Option ClientList :=
  match clients.head with
  | [] => some { clients with head := [node] }
  | currentNode :: rest =>
    match compare_node_names node currentNode with
    | none => none
    | some cmp =>
      if cmp < 0 then some { clients with head := node :: currentNode :: rest }
      else (add_node_loop node currentNode rest).map fun l => { clients with head := l }

/-- `add_client`. -/
def add_client (clients : ClientList) (client : ClientThread) : Option ClientList :=
  add_node clients (init_node client)

/-- The loop of `remove_client` with `remove_node`: the list without the first
node whose client is at address `client`. -/
def remove_client_loop (client : Nat) : List ClientNode → List ClientNode
  | [] => []
  | currentNode :: rest =>
    if currentNode.id = client then rest else currentNode :: remove_client_loop client rest

/-- `remove_client`. -/
def remove_client (clients : ClientList) (client : Nat) : ClientList :=
  { clients with head := remove_client_loop client clients.head }

/-- `init_client_list`. -/
def init_client_list : ClientList :=
  { password := none, stats := ⟨0, 0, 0, 0, 0, 0⟩, head := [] }

/-- `set_password`. -/
def set_password (clients : ClientList) (password : Option CString) : ClientList :=
  { clients with password := password }

/-- The loop of `get_names`; `none` is the fault of copying a `NULL` name. -/
def get_names_loop : List ClientNode → Option LineList
  | [] => some []
  | currentNode :: rest =>
    match currentNode.name with
    | none => none
    | some name => (get_names_loop rest).map fun names => name :: names

/-- `get_names`. -/
def get_names (clients : ClientList) : Option LineList :=
  get_names_loop clients.head

/-- `get_client_by_name`: the first client with a name equal to `name`. -/
def get_client_by_name (clients : ClientList) (name : CString) : Option ClientThread :=
  clients.head.find? fun currentNode =>
    match currentNode.name with
    | some currentName => strcmp currentName name == 0
    | none => false

/-- `send_all_clients`, with the formatted line as argument: the line and a
newline are written to each client that is active and has a name. -/
def send_all_clients (clients : ClientList) (line : CString) : ClientList :=
  { clients with
    head := clients.head.map fun client =>
      if client.isActive && client.name.isSome then
        { client with writeTo := client.writeTo ++ line ++ ['\n'] }
      else client }

/-! ## serverUtils.c -/

/-- The server process: the `ClientList` and the bytes printed to standard
output. -/
structure Server where
  clients : ClientList
  stdout : List Char
  deriving DecidableEq, Repr

/-- `NAME` of `ServerCmdNumbers`. -/
def NAME : Nat := 0

/-- `AUTH` of `ServerCmdNumbers`. -/
def AUTH : Nat := 1

/-- `KICK` of `ServerCmdNumbers`. -/
def KICK : Nat := 3

/-- `LIST` of `ServerCmdNumbers`. -/
def LIST : Nat := 4

/-- `LEAVE` of `ServerCmdNumbers`. -/
def LEAVE : Nat := 5

/-- The struct a pointer of the roster points to: the first client of the
list at address `client`. -/
def client_at (clients : ClientList) (client : Nat) : Option ClientThread :=
  clients.head.find? fun c => c.id == client

/-- An assignment through a pointer of the roster: `f` applied to the client
at address `client`. -/
def modify_client (clients : ClientList) (client : Nat) (f : ClientThread → ClientThread) :
    ClientList :=
  { clients with head := clients.head.map fun c => if c.id = client then f c else c }

/-- `authenticate_client`. -/
def authenticate_client (clients : ClientList) (client : ClientThread) :
    ClientList × ClientThread :=
  match clients.password with
  | none => (clients, send_client client "OK:".toList)
  | some password =>
    let client := send_client client "AUTH:".toList
    let read := read_client_line client
    let clientReply := read.1
    let client := read.2.2
    match cmd_to_lines clientReply SERVER with
    | some (cmd :: arg :: _) =>
      if get_cmd_no (some cmd) SERVER = some AUTH then
        let clients := { clients with stats := { clients.stats with auth := clients.stats.auth + 1 } }
        if strcmp password arg = 0 then (clients, send_client client "OK:".toList)
        else (clients, disable_client client)
      else (clients, disable_client client)
    | _ => (clients, disable_client client)

/-- What a call of `name_negotiate` leaves: the list, the client, and whether
the call has read `cmdArgs->lines[1]` of a reply with a single field, which is
a read past the end of the array `lines` (a fault: what the run does after it
is not defined, and the list and the client are those at the read). -/
structure Negotiated where
  clients : ClientList
  client : ClientThread
  fault : Bool
  deriving DecidableEq, Repr

/-- The `while (1)` loop of `name_negotiate`. The first argument bounds the
number of rounds; `name_negotiate` passes a bound that is never reached (see
`name_negotiate_loop_fuel`). For a `NAME` reply the function reads
`cmdArgs->lines[1]` first, then counts the reply, then tests
`cmdArgs->numLines > 1`: with a single field the read is the fault, and with
more the test holds. -/
def name_negotiate_loop : Nat → ClientList → ClientThread → Negotiated
  | 0, clients, client => ⟨clients, client, false⟩
  | fuel + 1, clients, client =>
    let client := send_client client "WHO:".toList
    let read := read_client_line client
    let clientReply := read.1
    let isLineEmpty := read.2.1
    let client := read.2.2
    if isLineEmpty then ⟨clients, disable_client client, false⟩
    else
      match cmd_to_lines clientReply SERVER with
      | none => ⟨clients, disable_client client, false⟩
      | some cmdArgs =>
        if get_cmd_no cmdArgs.head? SERVER = some NAME then
          match cmdArgs with
          | _ :: name :: _ =>
            let clients :=
              { clients with stats := { clients.stats with name := clients.stats.name + 1 } }
            if get_client_by_name clients name = none then
              ⟨clients, send_client (set_client_name client name) "OK:".toList, false⟩
            else name_negotiate_loop fuel clients (send_client client "NAME_TAKEN:".toList)
          | _ => ⟨clients, client, true⟩
        else ⟨clients, disable_client client, false⟩

/-- `name_negotiate`: every round but the last reads at least one byte, so
one round more than there are bytes to read is enough. -/
def name_negotiate (clients : ClientList) (client : ClientThread) : Negotiated :=
  name_negotiate_loop (client.readFrom.length + 1) clients client

/-- `handle_say`; `none` is the fault of passing a `NULL` name to
`get_printable`. The client of a serving thread is in the list. -/
def handle_say (signedChar : Bool) (s : Server) (client : Nat) (cmdArgs : LineList) :
    Option Server :=
  let clients := { s.clients with stats := { s.clients.stats with say := s.clients.stats.say + 1 } }
  let clients := modify_client clients client fun c =>
    { c with stats := { c.stats with say := c.stats.say + 1 } }
  match (client_at clients client).bind fun c => c.name with
  | none => none
  | some clientName =>
    let name := get_printable signedChar clientName
    match cmdArgs with
    | _ :: arg :: _ =>
      let msg := get_printable signedChar arg
      some { clients := send_all_clients clients ("MSG:".toList ++ name ++ ":".toList ++ msg),
             stdout := s.stdout ++ (name ++ ": ".toList ++ msg ++ "\n".toList) }
    | _ =>
      some { clients := send_all_clients clients ("MSG:".toList ++ name),
             stdout := s.stdout ++ (name ++ ":\n".toList) }

/-- `handle_kick`; `none` is the fault of reading a field that is not there. -/
def handle_kick (s : Server) (client : Nat) (cmdArgs : LineList) : Option Server :=
  match cmdArgs with
  | _ :: name :: _ =>
    let clients :=
      { s.clients with stats := { s.clients.stats with kick := s.clients.stats.kick + 1 } }
    let clients := modify_client clients client fun c =>
      { c with stats := { c.stats with kick := c.stats.kick + 1 } }
    match get_client_by_name clients name with
    | some target =>
      some { s with clients := modify_client clients target.id fun c => send_client c "KICK:".toList }
    | none => some { s with clients := clients }
  | _ => none

/-- The `for` loop of `handle_list` from index `i` on, `names` being the
names from `i` on and `namesLine` the string built so far: each printable name
is appended, and a comma after each but the last. -/
def handle_list_loop (signedChar : Bool) : LineList → CString → CString
  | [], namesLine => namesLine
  | [name], namesLine => add_to_string namesLine (get_printable signedChar name)
  | name :: rest, namesLine =>
    handle_list_loop signedChar rest
      (add_to_string (add_to_string namesLine (get_printable signedChar name)) ",".toList)

/-- `handle_list`; `none` is the fault of `get_names` on a `NULL` name. -/
def handle_list (signedChar : Bool) (s : Server) (client : Nat) (_cmdArgs : LineList) :
    Option Server :=
  let clients :=
    { s.clients with stats := { s.clients.stats with list := s.clients.stats.list + 1 } }
  let clients := modify_client clients client fun c =>
    { c with stats := { c.stats with list := c.stats.list + 1 } }
  match get_names clients with
  | none => none
  | some names =>
    let namesLine := handle_list_loop signedChar names []
    some { clients := send_all_clients clients ("LIST:".toList ++ namesLine),
           stdout := s.stdout ++ ("(current chatters: ".toList ++ namesLine ++ ")\n".toList) }

/-- `handle_leave`. -/
def handle_leave (s : Server) (client : Nat) (_cmdArgs : LineList) : Option Server :=
  let clients :=
    { s.clients with stats := { s.clients.stats with leave := s.clients.stats.leave + 1 } }
  some { s with clients := modify_client clients client disable_client }

/-- The array `handlers`; the two `NULL` entries and an index past the end
are faults. -/
def handlers (signedChar : Bool) (cmdNo : Nat) (s : Server) (client : Nat) (cmdArgs : LineList) :
    Option Server :=
  match cmdNo with
  | 2 => handle_say signedChar s client cmdArgs
  | 3 => handle_kick s client cmdArgs
  | 4 => handle_list signedChar s client cmdArgs
  | 5 => handle_leave s client cmdArgs
  | _ => none

/-- `handle_cmd`, run by the thread that serves the client at address
`client`; `none` is a fault. -/
def handle_cmd (signedChar : Bool) (s : Server) (client : Nat) (cmd : CString) : Option Server :=
  match cmd_to_lines cmd SERVER with
  | none => some s
  | some cmdArgs =>
    match get_cmd_no cmdArgs.head? SERVER with
    | none => some s
    | some cmdNo => if cmdNo > AUTH then handlers signedChar cmdNo s client cmdArgs else some s

/-- How a call of `spawn_client_thread` ends: it returns, or the process
faults (a `NULL` name is dereferenced, or `name_negotiate` reads past the
fields of a reply) in the state given. -/
inductive Outcome where
  | returned (s : Server)
  | fault (s : Server)
  deriving DecidableEq, Repr

/-- `spawn_client_thread`, for a peer whose `ClientThread` is allocated at
`id` and that sends the bytes `readFrom`. The thread started for the client
is not run here. -/
def spawn_client_thread (signedChar : Bool) (s : Server) (id : Nat) (readFrom : List Char) :
    Outcome :=
  let client := init_client_thread id readFrom
  let auth := authenticate_client s.clients client
  if get_active_status auth.2 then
    let named := name_negotiate auth.1 auth.2
    let client := named.2
    if named.fault then Outcome.fault { s with clients := named.1 }
    else
      match add_client named.1 client with
      | none => Outcome.fault { s with clients := named.1 }
      | some clients =>
        match client.name with
        | none => Outcome.fault { s with clients := clients }
        | some clientName =>
          let name := get_printable signedChar clientName
          Outcome.returned
            { clients := send_all_clients clients ("ENTER:".toList ++ name),
              stdout := s.stdout ++ ("(".toList ++ name ++ " has entered the chat)\n".toList) }
  else Outcome.returned { s with clients := auth.1 }

/-- The `while (get_active_status(client))` loop of `client_thread_handler`
for the client at address `client` of the roster. The first argument bounds
the number of rounds; `none` is a fault, or the bound reached, which does not
happen with the bound `client_thread_handler` passes (see
`client_thread_handler_loop_fuel`). -/
def client_thread_handler_loop (signedChar : Bool) : Nat → Server → Nat → Option Server
  | 0, _, _ => none
  | fuel + 1, s, client =>
    match client_at s.clients client with
    | none => none
    | some c =>
      if get_active_status c then
        let read := read_client_line c
        let s1 := { s with
          clients := modify_client s.clients client fun d =>
            { d with readFrom := read.2.2.readFrom } }
        if read.2.1 then
          client_thread_handler_loop signedChar fuel
            { s1 with clients := modify_client s1.clients client disable_client } client
        else
          match handle_cmd signedChar s1 client read.1 with
          | none => none
          | some s2 => client_thread_handler_loop signedChar fuel s2 client
      else some s

/-- `client_thread_handler`, run to its end for the client at address
`client`: the loop, the `LEAVE:` line and message for a client with a name,
and `remove_client`. A round of the loop that does not end it reads at least
one byte, so two rounds more than there are bytes to read are enough. -/
def client_thread_handler (signedChar : Bool) (s : Server) (client : Nat) : Option Server :=
  match client_at s.clients client with
  | none => none
  | some c0 =>
    match client_thread_handler_loop signedChar (c0.readFrom.length + 2) s client with
    | none => none
    | some s1 =>
      match client_at s1.clients client with
      | none => none
      | some c =>
        match c.name with
        | some clientName =>
          let name := get_printable signedChar clientName
          some
            { clients :=
                remove_client (send_all_clients s1.clients ("LEAVE:".toList ++ name)) client,
              stdout := s1.stdout ++ ("(".toList ++ name ++ " has left the chat)\n".toList) }
        | none => some { s1 with clients := remove_client s1.clients client }

/-- C library `sprintf` conversion `%d` of a counter: its decimal digits. -/
def sprintf_d (n : Nat) : CString :=
  (Nat.repr n).toList

/-- `MAX_DIGS` of clientThread.c and clientList.c. -/
def MAX_DIGS : Nat := 5

/-- `client_stat_line` (clientThread.c); `none` is a fault: a `NULL` name
given to `strlen`, or a `sprintf` that writes past the buffer of
`strlen(name) + strlen(":SAY::KICK::LIST:\n") + MAX_DIGS * 3 + 1` bytes (the
line and its NUL are longer when the three counters have more than 15 digits
between them). -/
def client_stat_line (client : ClientThread) : Option CString :=
  match client.name with
  | none => none
  | some name =>
    let size := name.length + ":SAY::KICK::LIST:\n".toList.length + MAX_DIGS * 3 + 1
    let statLine := name ++ ":SAY:".toList ++ sprintf_d client.stats.say ++ ":KICK:".toList ++
      sprintf_d client.stats.kick ++ ":LIST:".toList ++ sprintf_d client.stats.list ++
      "\n".toList
    if statLine.length + 1 ≤ size then some statLine else none

/-- `server_stat_line` (clientList.c); `none` is the fault of a `sprintf`
that writes past the buffer of
`strlen("server:AUTH::NAME::SAY::KICK::LIST::LEAVE:\n") + MAX_DIGS * 6 + 1`
bytes (the line and its NUL are longer when the six counters have more than 30
digits between them). -/
def server_stat_line (clients : ClientList) : Option CString :=
  let size := "server:AUTH::NAME::SAY::KICK::LIST::LEAVE:\n".toList.length + MAX_DIGS * 6 + 1
  let statLine := "server:AUTH:".toList ++ sprintf_d clients.stats.auth ++ ":NAME:".toList ++
    sprintf_d clients.stats.name ++ ":SAY:".toList ++ sprintf_d clients.stats.say ++
    ":KICK:".toList ++ sprintf_d clients.stats.kick ++ ":LIST:".toList ++
    sprintf_d clients.stats.list ++ ":LEAVE:".toList ++ sprintf_d clients.stats.leave ++
    "\n".toList
  if statLine.length + 1 ≤ size then some statLine else none

/-- The `while (currentNode != NULL)` loop of `sighup_stats_handler`: the
stat line of each client is appended to `stats`. -/
def sighup_stats_loop : List ClientNode → CString → Option CString
  | [], stats => some stats
  | currentNode :: rest, stats =>
    match client_stat_line currentNode with
    | none => none
    | some clientStats => sighup_stats_loop rest (add_to_string stats clientStats)

/-- `sighup_stats_handler`, one round: the bytes written to standard error
when a `SIGHUP` arrives. The string `stats` that was built is handed to
`fprintf` as its format, with no argument after it. `none` is a fault, or the
undefined behaviour of a conversion in that format. -/
def sighup_stats_handler (clients : ClientList) : Option CString :=
  match sighup_stats_loop clients.head (add_to_string [] "@CLIENTS@\n".toList) with
  | none => none
  | some stats =>
    let stats := add_to_string stats "@SERVER@\n".toList
    match server_stat_line clients with
    | none => none
    | some serverStats => vfprintf_no_args (add_to_string stats serverStats) false

/-! ## clientData.h, clientData.c, clientUtils.c, errors.h: the client program -/

namespace Client

/-- `NORMAL` of `ExitCodes`. -/
def NORMAL : Int := 0

/-- `USAGE` of `ExitCodes`. -/
def USAGE : Int := 1

/-- `COMMS` of `ExitCodes`. -/
def COMMS : Int := 2

/-- `KICKED` of `ExitCodes`. -/
def KICKED : Int := 3

/-- `FAILED_AUTH` of `ExitCodes`. -/
def FAILED_AUTH : Int := 4

/-- The `ClientData` struct (without its thread ids and its mutex). -/
structure ClientData where
  isActive : Bool
  authenticated : Bool
  name : CString
  password : Option CString
  exitCode : Int
  clientNo : Int
  writeTo : List Char
  readFrom : List Char
  deriving DecidableEq, Repr

/-- The client process: its `ClientData` and the bytes printed to standard
output. -/
structure ClientProcess where
  data : ClientData
  stdout : List Char
  deriving DecidableEq, Repr

/-- `disable_client` (clientData.c). -/
def disable_client (data : ClientData) (exitCode : Int) : ClientData :=
  { data with
    isActive := false,
    exitCode := if data.exitCode < 0 then exitCode else data.exitCode }

/-- `handle_unused`. -/
def handle_unused (p : ClientProcess) (_cmdArgs : LineList) : Option ClientProcess :=
  some p

/-- `handle_kick`. -/
def handle_kick (p : ClientProcess) (_cmdArgs : LineList) : Option ClientProcess :=
  some { p with data := disable_client p.data KICKED }

/-- `handle_list`; `none` is the fault of reading a field that is not
there. -/
def handle_list (p : ClientProcess) (cmdArgs : LineList) : Option ClientProcess :=
  match cmdArgs[1]? with
  | some names =>
    some { p with stdout := p.stdout ++ ("(current chatters: ".toList ++ names ++ ")\n".toList) }
  | none => none

/-- `handle_msg`; `none` is the fault of reading a field that is not
there. -/
def handle_msg (p : ClientProcess) (cmdArgs : LineList) : Option ClientProcess :=
  let name := cmdArgs[1]?
  if cmdArgs.length > 1 then
    match name, cmdArgs[2]? with
    | some name, some msg =>
      some { p with stdout := p.stdout ++ (name ++ ": ".toList ++ msg ++ "\n".toList) }
    | _, _ => none
  else
    match name with
    | some name => some { p with stdout := p.stdout ++ (name ++ ":\n".toList) }
    | none => none

/-- `handle_enter`; `none` is the fault of reading a field that is not
there. -/
def handle_enter (p : ClientProcess) (cmdArgs : LineList) : Option ClientProcess :=
  match cmdArgs[1]? with
  | some name =>
    some { p with stdout := p.stdout ++ ("(".toList ++ name ++ " has entered the chat)\n".toList) }
  | none => none

/-- `handle_leave`; `none` is the fault of reading a field that is not
there. -/
def handle_leave (p : ClientProcess) (cmdArgs : LineList) : Option ClientProcess :=
  match cmdArgs[1]? with
  | some name =>
    some { p with stdout := p.stdout ++ ("(".toList ++ name ++ " has left the chat)\n".toList) }
  | none => none

/-- The array `handlers` of the client; an index past the end is a fault. -/
def handlers (cmdNo : Nat) (p : ClientProcess) (cmdArgs : LineList) : Option ClientProcess :=
  match cmdNo with
  | 0 => handle_unused p cmdArgs
  | 1 => handle_unused p cmdArgs
  | 2 => handle_unused p cmdArgs
  | 3 => handle_unused p cmdArgs
  | 4 => handle_kick p cmdArgs
  | 5 => handle_list p cmdArgs
  | 6 => handle_msg p cmdArgs
  | 7 => handle_enter p cmdArgs
  | 8 => handle_leave p cmdArgs
  | _ => none

/-- `handle_cmd` of the client; `none` is a fault. -/
def handle_cmd (p : ClientProcess) (cmd : CString) : Option ClientProcess :=
  match cmd_to_lines cmd CLIENT with
  | none => some p
  | some cmdArgs =>
    match get_cmd_no cmdArgs.head? CLIENT with
    | none => none
    | some cmdNo => handlers cmdNo p cmdArgs

end Client

/-! ## lineList.c, commands.c: the authfile -/

/-- The `while (1)` loop of `file_to_lines`: `nextLine` is the result of the
last `get_line` and `lines` the lines stored so far. The first argument bounds
the number of rounds; every round but the last takes at least one byte from
the stream. -/
def file_to_lines_loop : Nat → List Char × Bool × Bool × List Char → LineList → LineList
  | 0, _, lines => lines
  | fuel + 1, nextLine, lines =>
    let lines := lines ++ [c_str nextLine.1]
    if nextLine.2.1 then lines
    else file_to_lines_loop fuel (get_line nextLine.2.2.2) lines

/-- `file_to_lines`: the lines of the file, the last one dropped if its first
byte is NUL (it is empty) or compares equal to `EOF` (the byte 255 where plain
`char` is signed). -/
def file_to_lines (signedChar : Bool) (doc : List Char) : LineList :=
  let lines := file_to_lines_loop (doc.length + 1) (get_line doc) []
  match lines.getLast? with
  | none => lines
  | some last =>
    match last with
    | [] => lines.dropLast
    | c :: _ => if char_to_int signedChar c = -1 then lines.dropLast else lines

/-- `get_password`, for the content of the file at `authPath` (`none`: the
file could not be opened): the password returned (`none` is `NULL`) and
whether `*invalidAuthFile` was set to true. -/
def get_password (signedChar : Bool) (auth : Option (List Char)) : Option CString × Bool :=
  match auth with
  | some doc =>
    match file_to_lines signedChar doc with
    | [] => (none, false)
    | line :: _ => (some line, false)
  | none => (none, true)

/-! ## clientData.c, clientUtils.c: the sessions of the client -/

namespace Client

/-- `WHO` of `ClientCmdNumbers`. -/
def WHO : Nat := 0

/-- `NAME_TAKEN` of `ClientCmdNumbers`. -/
def NAME_TAKEN : Nat := 1

/-- `AUTH` of `ClientCmdNumbers`. -/
def AUTH : Nat := 2

/-- `OK` of `ClientCmdNumbers`. -/
def OK : Nat := 3

/-- `init_client_data`, for a server that sends the bytes `readFrom`. -/
def init_client_data (name : CString) (password : Option CString) (readFrom : List Char) :
    ClientData :=
  { isActive := true, authenticated := false, name := name, password := password,
    exitCode := -1, clientNo := -1, writeTo := [], readFrom := readFrom }

/-- `next_client_no`. -/
def next_client_no (data : ClientData) : ClientData :=
  { data with clientNo := data.clientNo + 1 }

/-- `send_to_server`, with the formatted line as argument: the line and a
newline are written to the server. -/
def send_to_server (data : ClientData) (line : CString) : ClientData :=
  { data with writeTo := data.writeTo ++ line ++ ['\n'] }

/-- `read_server_line`, for a socket without an error: the line, whether the
flag was set to true, and the client with the line consumed. -/
def read_server_line (data : ClientData) : CString × Bool × ClientData :=
  let r := read_file_line data.readFrom
  (r.1, r.2.1, { data with readFrom := r.2.2 })

/-- `get_name`: the base name, followed by `clientNo` in decimal if it is not
negative. The size of the buffer (nine digits) is not modelled. -/
def get_name (data : ClientData) : CString :=
  if data.clientNo < 0 then data.name
  else data.name ++ sprintf_d data.clientNo.toNat

/-- The `while (!authorized)` loop of `authenticate_client` (clientUtils.c).
The first argument bounds the number of rounds; `none` is that bound reached
(which does not happen with the bound `authenticate_client` passes) or the
fault of passing a `NULL` password for `%s`. -/
def authenticate_client_loop : Nat → ClientData → Option ClientData
  | 0, _ => none
  | fuel + 1, data =>
    let read := read_server_line data
    let isLastLine := read.2.1
    let data := read.2.2
    if isLastLine then some (disable_client data COMMS)
    else
      match cmd_to_lines read.1 CLIENT with
      | none => authenticate_client_loop fuel data
      | some cmdArgs =>
        if get_cmd_no cmdArgs.head? CLIENT ≠ some AUTH then authenticate_client_loop fuel data
        else
          match data.password with
          | none => none
          | some password =>
            let data := send_to_server data ("AUTH:".toList ++ password)
            let read2 := read_server_line data
            let data := read2.2.2
            if strcmp read2.1 "OK:".toList ≠ 0 ∨ (isLastLine || read2.2.1) = true then
              some (disable_client data FAILED_AUTH)
            else some data

/-- `authenticate_client` (clientUtils.c): a round that does not end the loop
reads at least one byte, so one round more than there are bytes to read is
enough. -/
def authenticate_client (data : ClientData) : Option ClientData :=
  authenticate_client_loop (data.readFrom.length + 1) data

/-- The `while (!data->authenticated && !isLineEmpty)` loop of
`name_negotiate` (clientUtils.c): the client and `isLineEmpty` when the loop
ends. The first argument bounds the number of rounds. -/
def name_negotiate_loop : Nat → ClientData → Bool → ClientData × Bool
  | 0, data, isLineEmpty => (data, isLineEmpty)
  | fuel + 1, data, isLineEmpty =>
    if !data.authenticated && !isLineEmpty then
      let read := read_server_line data
      let isLineEmpty := isLineEmpty || read.2.1
      let data := read.2.2
      match cmd_to_lines read.1 CLIENT with
      | none => name_negotiate_loop fuel data isLineEmpty
      | some cmdArgs =>
        if get_cmd_no cmdArgs.head? CLIENT = some WHO then
          let data := send_to_server data ("NAME:".toList ++ get_name data)
          let read2 := read_server_line data
          let isLineEmpty := isLineEmpty || read2.2.1
          let data := read2.2.2
          match cmd_to_lines read2.1 CLIENT with
          | none => name_negotiate_loop fuel data isLineEmpty
          | some cmdArgs2 =>
            let data :=
              if get_cmd_no cmdArgs2.head? CLIENT = some OK then
                { data with authenticated := true }
              else if get_cmd_no cmdArgs2.head? CLIENT = some NAME_TAKEN then
                next_client_no data
              else data
            name_negotiate_loop fuel data isLineEmpty
        else name_negotiate_loop fuel data isLineEmpty
    else (data, isLineEmpty)

/-- `name_negotiate` (clientUtils.c): a round that is not the last reads at
least one byte, so two rounds more than there are bytes to read are enough. -/
def name_negotiate (data : ClientData) : ClientData :=
  let r := name_negotiate_loop (data.readFrom.length + 2) data false
  if r.2 then disable_client r.1 COMMS else r.1

/-- `send_user_msg`; `none` is the undefined behaviour of `vfprintf` on a
format that has a conversion and no argument. -/
def send_user_msg (p : ClientProcess) (msg : CString) : Option ClientProcess :=
  let isLeave := strcmp msg "*LEAVE:".toList
  let sent :=
    if msg.head? = some '*' then
      (vfprintf_no_args msg.tail false).map fun line => send_to_server p.data line
    else some (send_to_server p.data ("SAY:".toList ++ msg))
  match sent with
  | none => none
  | some data =>
    if isLeave = 0 then
      some { data := disable_client data NORMAL,
             stdout := p.stdout ++ ("(".toList ++ data.name ++ " has left the chat)\n".toList) }
    else some { p with data := data }

end Client

/-! ## clientList.c: the nodes of the list in memory -/

namespace Nodes

/-- A `ClientNode` struct in memory: the address of its client, and the
pointers `prev` and `next` (`none` is `NULL`). -/
structure ClientNode where
  client : Nat
  prev : Option Nat
  next : Option Nat
  deriving DecidableEq, Repr

/-- The memory of the nodes: at each address a node, or `none` where no node
is allocated (never allocated, or freed). -/
abbrev Memory := List (Option ClientNode)

/-- The node at an address; `none` if no node is allocated there. -/
def node_at (mem : Memory) (a : Nat) : Option ClientNode :=
  match mem[a]? with
  | some (some node) => some node
  | _ => none

/-- The part of a `ClientList` that `remove_client` works on: the pointer
`head`, and the memory of the nodes. -/
structure ClientList where
  head : Option Nat
  mem : Memory
  deriving DecidableEq, Repr

/-- `free_node`, as far as the memory of the nodes goes. -/
def free_node (mem : Memory) (node : Nat) : Memory :=
  mem.set node none

/-- `remove_node`; `none` is a fault (a pointer that is `NULL` or points to
no node is dereferenced). -/
def remove_node (clients : ClientList) (node : Nat) : Option ClientList :=
  match node_at clients.mem node with
  | none => none
  | some n =>
    if clients.head = some node then
      some { head := n.next, mem := free_node clients.mem node }
    else
      match n.prev with
      | none => none
      | some prev =>
        match node_at clients.mem prev with
        | none => none
        | some p =>
          let mem := clients.mem.set prev (some { p with next := n.next })
          match n.next with
          | none => some { clients with mem := free_node mem node }
          | some next =>
            match node_at mem next with
            | none => none
            | some q =>
              some { clients with
                mem := free_node (mem.set next (some { q with prev := n.prev })) node }

/-- The `while (currentNode != NULL)` loop of `remove_client`, with the
pointers as they are in memory. The first argument bounds the number of
rounds; `none` is a fault or that bound reached. -/
def remove_client_loop : Nat → ClientList → Option Nat → Nat → Option ClientList
  | 0, _, _, _ => none
  | _ + 1, clients, none, _ => some clients
  | fuel + 1, clients, some currentNode, client =>
    match node_at clients.mem currentNode with
    | none => none
    | some n =>
      if n.client = client then remove_node clients currentNode
      else remove_client_loop fuel clients n.next client

/-- `remove_client`, with the pointers as they are in memory: a list
without a cycle has at most as many nodes as the memory has places. -/
def remove_client (clients : ClientList) (client : Nat) : Option ClientList :=
  remove_client_loop (clients.mem.length + 1) clients clients.head client

end Nodes

/-! ## The threads of the server: mutexes and calls on the stream of a peer -/

/-- A mutex of the server: the `lock` of the `ClientList`, or the `lock` of
the `ClientThread` at an address. -/
inductive Mutex where
  | list
  | client (id : Nat)
  deriving DecidableEq, Repr

/-- One call a thread makes, as far as the locks and the streams go:
`pthread_mutex_lock`, `pthread_mutex_unlock`, a call of `vfprintf` or
`fprintf` on the stream `writeTo` of the client at an address (with the bytes
it writes), or `fflush` on that stream. Each is one step: the C library locks
the stream for the time of one call. -/
inductive Call where
  | lock (m : Mutex)
  | unlock (m : Mutex)
  | write (client : Nat) (bytes : List Char)
  | flush (client : Nat)
  deriving DecidableEq, Repr

/-- The calls of `send_client` (clientThread.c), with the formatted line as
argument, in the order of the source: no mutex is taken. -/
def send_client_calls (client : Nat) (line : CString) : List Call :=
  [Call.write client line, Call.write client ['\n'], Call.flush client]

/-- The calls of `send_all_clients` (clientList.c) on a roster that does not
change meanwhile, with the formatted line as argument, in the order of the
source: the lock of the list around the loop, and the lock of each client
around the test and the three calls on its stream. -/
def send_all_clients_calls (clients : ClientList) (line : CString) : List Call :=
  [Call.lock Mutex.list] ++
    (clients.head.flatMap fun client =>
      [Call.lock (Mutex.client client.id)] ++
        (if client.isActive && client.name.isSome then
          [Call.write client.id line, Call.write client.id ['\n'], Call.flush client.id]
        else []) ++
        [Call.unlock (Mutex.client client.id)]) ++
    [Call.unlock Mutex.list]

/-- The calls of `handle_kick` (serverUtils.c): `get_client_by_name` takes
and releases the lock of the list, then `send_client` writes `KICK:` to the
client found. -/
def handle_kick_calls (clients : ClientList) (name : CString) : List Call :=
  [Call.lock Mutex.list, Call.unlock Mutex.list] ++
    match get_client_by_name clients name with
    | some client => send_client_calls client.id "KICK:".toList
    | none => []

/-- The threads of the server at one moment: the mutexes held (with the
thread that holds each), the writes made so far on the streams of the peers
(in the order they were made), and the calls each thread has still to make. -/
structure Sched where
  held : List (Mutex × Nat)
  written : List (Nat × List Char)
  threads : List (List Call)
  deriving DecidableEq, Repr

/-- The next call of thread `t`, made: `none` when the thread has no call
left, or waits for a mutex that is held. -/
def step (st : Sched) (t : Nat) : Option Sched :=
  match st.threads[t]? with
  | none => none
  | some [] => none
  | some (call :: rest) =>
    let threads := st.threads.set t rest
    match call with
    | Call.lock m =>
      if st.held.any (fun h => h.1 == m) then none
      else some { st with held := (m, t) :: st.held, threads := threads }
    | Call.unlock m =>
      some { st with held := st.held.filter (fun h => !(h.1 == m)), threads := threads }
    | Call.write client bytes =>
      some { st with written := st.written ++ [(client, bytes)], threads := threads }
    | Call.flush _ => some { st with threads := threads }

/-- The threads after they took steps in the order of `schedule` (the thread
that steps, each time); `none` when a thread of the schedule cannot step. -/
def run : List Nat → Sched → Option Sched
  | [], st => some st
  | t :: schedule, st =>
    match step st t with
    | none => none
    | some st1 => run schedule st1

/-! ## Predicates used to state the properties -/

/-- The memory holds, from the pointer `cur` on and following `next`, the
nodes at the addresses of `l` with the clients of `l` (pairs of the address of
the node and the address of its client), the last `next` being `NULL`; and
`prev` of each node is the node before it, the first node's being `prev` if
that is given (`none`: the first node is the head of the list, whose `prev` is
not read). -/
def Linked (mem : Nodes.Memory) : Option Nat → Option Nat → List (Nat × Nat) → Prop
  | _, cur, [] => cur = none
  | prev, cur, (a, c) :: rest =>
    cur = some a ∧ ∃ node, Nodes.node_at mem a = some node ∧ node.client = c ∧
      (∀ p, prev = some p → node.prev = some p) ∧ Linked mem (some a) node.next rest

/-- The bytes the peer at an address has been sent, in order. -/
def received (st : Sched) (client : Nat) : List Char :=
  (st.written.filter fun w => w.1 == client).flatMap fun w => w.2

/-- The number of calls the threads have still to make. -/
def remaining (st : Sched) : Nat :=
  (st.threads.map List.length).sum

/-- The states in which all threads are done, over all schedules (the first
argument bounds the number of steps). -/
def finals : Nat → Sched → List Sched
  | 0, st => if st.threads.all List.isEmpty then [st] else []
  | fuel + 1, st =>
    if st.threads.all List.isEmpty then [st]
    else
      (List.range st.threads.length).flatMap fun t =>
        match step st t with
        | none => []
        | some st1 => finals fuel st1


/-- Whether the name of `a` is below the name of `b` under `strcmp`. -/
def name_lt (a b : ClientNode) : Bool :=
  match a.name, b.name with
  | some x, some y => decide (strcmp x y < 0)
  | _, _ => false

/-- Whether every client of the list has a name and each name is below the
name of the next client under `strcmp`. -/
def ascending : List ClientNode → Bool
  | [] => true
  | [c] => c.name.isSome
  | a :: b :: rest => name_lt a b && ascending (b :: rest)

/-- The rosters the server reaches from an empty roster: by a join (as in
`spawn_client_thread`: `name_negotiate` on a client that has no name yet, then
`add_client`), one join at a time; by `remove_client`; by a change of the
counters; and by any change that keeps the names of the peers in their order
(what the serving threads do to the peers: bytes written and read, flags and
counters of the peers, the password). -/
inductive Reachable : ClientList → Prop where
  | empty (clients : ClientList) (h : clients.head = []) : Reachable clients
  | join (clients : ClientList) (client : ClientThread) (joined : ClientList)
      (h : Reachable clients) (hnew : client.name = none)
      (hadd : add_client (name_negotiate clients client).1 (name_negotiate clients client).2
        = some joined) : Reachable joined
  | leave (clients : ClientList) (client : Nat) (h : Reachable clients) :
      Reachable (remove_client clients client)
  | counters (clients : ClientList) (stats : ServerStats) (h : Reachable clients) :
      Reachable { clients with stats := stats }
  | serve (clients served : ClientList) (h : Reachable clients)
      (hnames : served.head.map (fun c => c.name) = clients.head.map (fun c => c.name)) :
      Reachable served

/-- A change of a client that keeps its address, its stream to read and its
name, and does not make an inactive client active. -/
def keeps_client (g : ClientThread → ClientThread) : Prop :=
  ∀ d, (g d).id = d.id ∧ (g d).readFrom = d.readFrom ∧ (g d).name = d.name ∧
    ((g d).isActive = true → d.isActive = true)

/-- The roster `b` is the roster `a` with each client changed by one function
that `keeps_client`, and the same password. -/
def roster_keeps (a b : ClientList) : Prop :=
  ∃ g, keeps_client g ∧ b.head = a.head.map g ∧ b.password = a.password

/-- The number of rounds the loop of `client_thread_handler` can still make
for the client at address `client`: one more than the bytes it has to read,
none if it is inactive or not in the roster. -/
def rounds_left (s : Server) (client : Nat) : Nat :=
  match client_at s.clients client with
  | some c => if c.isActive then c.readFrom.length + 1 else 0
  | none => 0

/-- Successive calls of `read_file_line` on a stream, as many as the first
argument says: the returned lines with their flags, and the bytes left in the
stream. -/
def read_file_lines : Nat → List Char → List (CString × Bool) × List Char
  | 0, doc => ([], doc)
  | k + 1, doc =>
    let r := read_file_line doc
    let more := read_file_lines k r.2.2
    ((r.1, r.2.1) :: more.1, more.2)

/-- The fields of a command joined again by colons. -/
def join_fields (fields : LineList) : CString :=
  [':'].intercalate fields

/-- The arities of the specification (section 4.B, to server): the least and
the greatest number of fields after each tag. -/
def spec_server_arity (tag : CString) : Option (Nat × Nat) :=
  if tag = "AUTH".toList then some (1, 1)
  else if tag = "NAME".toList then some (1, 1)
  else if tag = "SAY".toList then some (0, 1)
  else if tag = "KICK".toList then some (1, 1)
  else if tag = "LIST".toList then some (0, 0)
  else if tag = "LEAVE".toList then some (0, 0)
  else none

/-- Whether a field list has a tag of the specification and a number of
fields after it within the specification's range for that tag. -/
def within_spec_server_arity (fields : LineList) : Bool :=
  match fields with
  | [] => false
  | tag :: args =>
    match spec_server_arity tag with
    | some (lo, hi) => decide (lo ≤ args.length) && decide (args.length ≤ hi)
    | none => false

/-- Whether a line from the server is an `AUTH` command for the parser of
the client. -/
def is_auth_line (l : CString) : Bool :=
  match cmd_to_lines l CLIENT with
  | some cmdArgs => get_cmd_no cmdArgs.head? CLIENT == some Client.AUTH
  | none => false

/-- The bytes of a stream that holds the given lines, each followed by a
newline. -/
def stream_of_lines (lines : List CString) : List Char :=
  lines.flatMap fun l => l ++ ['\n']

/-- The sanitisation as the specification states it: every byte with a value
below 32 is replaced by a question mark and every other byte is kept
(`get_printable` is the function of the source). -/
def printable (line : CString) : CString :=
  line.map fun c => if c.toNat < 32 then '?' else c

/-- The statistics report as the specification states it, for a roster whose
peers have the names `names` (in roster order): `@CLIENTS@`, a line for each
peer with its counters in decimal, `@SERVER@`, and the line of the global
counters. -/
def stats_report (names : List CString) (clients : ClientList) : CString :=
  "@CLIENTS@\n".toList ++
    ((names.zip clients.head).flatMap fun nc =>
      nc.1 ++ ":SAY:".toList ++ sprintf_d nc.2.stats.say ++ ":KICK:".toList ++
        sprintf_d nc.2.stats.kick ++ ":LIST:".toList ++ sprintf_d nc.2.stats.list ++
        "\n".toList) ++
    "@SERVER@\n".toList ++
    ("server:AUTH:".toList ++ sprintf_d clients.stats.auth ++ ":NAME:".toList ++
      sprintf_d clients.stats.name ++ ":SAY:".toList ++ sprintf_d clients.stats.say ++
      ":KICK:".toList ++ sprintf_d clients.stats.kick ++ ":LIST:".toList ++
      sprintf_d clients.stats.list ++ ":LEAVE:".toList ++ sprintf_d clients.stats.leave ++
      "\n".toList)

/-! ## Lemmas: C library functions -/

theorem strcmp_eq_zero_iff (a b : CString) : strcmp a b = 0 ↔ a = b := by
  induction a generalizing b with
  | nil => cases b <;> simp [strcmp]
  | cons x s ih =>
    cases b with
    | nil => simp [strcmp]
    | cons y t =>
      by_cases hxy : x = y
      · simp [strcmp, hxy, ih]
      · by_cases hlt : x.toNat < y.toNat <;> simp [strcmp, hxy, hlt]

theorem strtok_r_no_delim (s : CString) :
    strtok_r s [] = (if s = [] then none else some s, []) := by
  cases s with
  | nil => simp [strtok_r]
  | cons c s =>
    have h1 : ∀ l : List Char, l.dropWhile (fun _ => false) = l := by
      intro l; cases l <;> simp [List.dropWhile]
    have h2 : ∀ l : List Char, l.takeWhile (fun _ => true) = l := by
      intro l; induction l with
      | nil => rfl
      | cons x l ih => simp [List.takeWhile, ih]
    have h3 : ∀ l : List Char, l.dropWhile (fun _ => true) = [] := by
      intro l; induction l with
      | nil => rfl
      | cons x l ih => simp [List.dropWhile, ih]
    simp [strtok_r, h1, h2, h3]

theorem takeWhile_append_stop (p : Char → Bool) (t : List Char) (a : Char) (rest : List Char)
    (ht : ∀ x ∈ t, p x = true) (ha : p a = false) : (t ++ a :: rest).takeWhile p = t := by
  induction t with
  | nil => simp [List.takeWhile, ha]
  | cons x t ih =>
    have hx : p x = true := ht x (by simp)
    have ih1 := ih (fun y hy => ht y (by simp [hy]))
    rw [List.cons_append, List.takeWhile_cons, if_pos hx, ih1]

theorem dropWhile_append_stop (p : Char → Bool) (t : List Char) (a : Char) (rest : List Char)
    (ht : ∀ x ∈ t, p x = true) (ha : p a = false) : (t ++ a :: rest).dropWhile p = a :: rest := by
  induction t with
  | nil => simp [List.dropWhile, ha]
  | cons x t ih =>
    have hx : p x = true := ht x (by simp)
    have ih1 := ih (fun y hy => ht y (by simp [hy]))
    rw [List.cons_append, List.dropWhile_cons, if_pos hx, ih1]

theorem takeWhile_all (p : Char → Bool) (t : List Char) (ht : ∀ x ∈ t, p x = true) :
    t.takeWhile p = t := by
  induction t with
  | nil => rfl
  | cons x t ih =>
    have hx : p x = true := ht x (by simp)
    have ih1 := ih (fun y hy => ht y (by simp [hy]))
    simp only [List.takeWhile, hx, ih1]

theorem dropWhile_all (p : Char → Bool) (t : List Char) (ht : ∀ x ∈ t, p x = true) :
    t.dropWhile p = [] := by
  induction t with
  | nil => rfl
  | cons x t ih =>
    have hx : p x = true := ht x (by simp)
    have ih1 := ih (fun y hy => ht y (by simp [hy]))
    simp only [List.dropWhile, hx, ih1]

theorem not_delim_of_not_mem (t : CString) (hc : ':' ∉ t) :
    ∀ x ∈ t, (fun d => !decide (d ∈ [':'])) x = true := by
  intro x hx
  have : x ≠ ':' := fun h => hc (h ▸ hx)
  simp [this]

theorem dropWhile_colon_of_head (c : Char) (s : CString) (hc : c ≠ ':') :
    (c :: s).dropWhile (fun d => decide (d ∈ [':'])) = c :: s := by
  simp [List.dropWhile, hc]

/-- A token followed by a colon: `strtok_r` returns the token and saves the
position just past the colon. -/
theorem strtok_r_token_colon (t rest : CString) (ht : t ≠ []) (hc : ':' ∉ t) :
    strtok_r (t ++ ':' :: rest) [':'] = (some t, rest) := by
  cases t with
  | nil => exact absurd rfl ht
  | cons x t =>
    have hx : x ≠ ':' := fun h => hc (by simp [h])
    have h1 := dropWhile_colon_of_head x (t ++ ':' :: rest) hx
    have h2 := takeWhile_append_stop _ (x :: t) ':' rest (not_delim_of_not_mem _ hc) (by simp)
    have h3 := dropWhile_append_stop _ (x :: t) ':' rest (not_delim_of_not_mem _ hc) (by simp)
    simp only [List.cons_append] at h1 h2 h3
    simp only [strtok_r, List.cons_append, h1, h2, h3]

/-- A token that ends the string: `strtok_r` returns it and saves the end. -/
theorem strtok_r_token_end (t : CString) (ht : t ≠ []) (hc : ':' ∉ t) :
    strtok_r t [':'] = (some t, []) := by
  cases t with
  | nil => exact absurd rfl ht
  | cons x t =>
    have hx : x ≠ ':' := fun h => hc (by simp [h])
    have h1 := dropWhile_colon_of_head x t hx
    have h2 := takeWhile_all _ (x :: t) (not_delim_of_not_mem _ hc)
    have h3 := dropWhile_all _ (x :: t) (not_delim_of_not_mem _ hc)
    simp only [strtok_r, h1, h2, h3]

theorem toLower_eq_colon_iff (c : Char) : c.toLower = ':' ↔ c = ':' := by
  constructor
  · intro h
    unfold Char.toLower at h
    by_cases hc : c.toNat ≥ 65 ∧ c.toNat ≤ 90
    · simp only [hc, and_self, if_true] at h
      obtain ⟨h1, h2⟩ := hc
      generalize c.toNat = n at h h1 h2
      exfalso
      interval_cases n <;> exact absurd h (by decide)
    · simpa [hc] using h
  · intro h
    subst h
    decide

/-- Matching the pattern `":"` is membership of a colon. -/
theorem pattern_match_colon_iff (t : CString) :
    pattern_match_string [':'] t = true ↔ ':' ∈ t := by
  unfold pattern_match_string
  rw [List.any_eq_true]
  constructor
  · rintro ⟨off, hoff, h⟩
    have hlt : off < t.length := List.mem_range.mp hoff
    rw [strncasecmp_eq, List.drop_eq_getElem_cons hlt] at h
    simp only [List.length_singleton, List.take_succ_cons, List.take_zero, List.map_cons,
      List.map_nil] at h
    have h1 : (':' : Char).toLower = (t[off]).toLower := by simpa using h
    have h2 : (t[off]).toLower = ':' := by rw [← h1]; decide
    have h3 := (toLower_eq_colon_iff _).mp h2
    exact h3 ▸ List.getElem_mem hlt
  · intro h
    obtain ⟨off, hlt, hoff⟩ := List.mem_iff_getElem.mp h
    refine ⟨off, List.mem_range.mpr hlt, ?_⟩
    rw [strncasecmp_eq, List.drop_eq_getElem_cons hlt, hoff]
    simp

theorem pattern_match_colon_false (t : CString) (h : ':' ∉ t) :
    pattern_match_string [':'] t = false := by
  cases hp : pattern_match_string [':'] t with
  | false => rfl
  | true => exact absurd ((pattern_match_colon_iff t).mp hp) h

/-! ## Lemmas: the command parser -/

/-- The number of a command word is its index in the table. -/
theorem get_cmd_no_server_iff (w : CString) (k : Nat) :
    get_cmd_no (some w) SERVER = some k ↔
      (w = "NAME".toList ∧ k = 0) ∨ (w = "AUTH".toList ∧ k = 1) ∨ (w = "SAY".toList ∧ k = 2) ∨
      (w = "KICK".toList ∧ k = 3) ∨ (w = "LIST".toList ∧ k = 4) ∨ (w = "LEAVE".toList ∧ k = 5) := by
  have hbeq : ∀ word : CString, (strcmp w word == 0) = decide (w = word) := by
    intro word
    by_cases h : w = word
    · simp [h, (strcmp_eq_zero_iff word word).mpr rfl]
    · have : strcmp w word ≠ 0 := fun h0 => h ((strcmp_eq_zero_iff w word).mp h0)
      simp [h, this]
  simp only [get_cmd_no, cmdWords, cmdCount, serverCmdWords, List.findIdx?_cons, hbeq,
    List.take, String.toList, List.findIdx?_nil, decide_eq_true_eq, List.length_eq_zero,
    Option.map_none', zero_add]
  split_ifs with h0 h1 h2 h3 h4 h5 h6
  all_goals first
    | (subst_vars; simp; done)
    | (subst_vars; simp; omega)
    | simp [*]

/-- A word with a command number is not empty and has no colon. -/
theorem get_cmd_no_server_word (w : CString) (k : Nat)
    (h : get_cmd_no (some w) SERVER = some k) : w ≠ [] ∧ ':' ∉ w ∧ k < 6 := by
  rcases (get_cmd_no_server_iff w k).mp h with h | h | h | h | h | h <;>
    (obtain ⟨hw, hk⟩ := h; subst hw; subst hk; decide)

/-- The shape of `get_cmd_args` for the server: nothing, or the first token
(a command word) followed by at most one more entry. -/
theorem get_cmd_args_server_shape (cmd : CString) :
    (get_cmd_args cmd SERVER).1 = [] ∨
    ∃ t k, (strtok_r cmd [':']).1 = some t ∧ get_cmd_no (some t) SERVER = some k ∧
      ((get_cmd_args cmd SERVER).1 = [t] ∨ ∃ r, (get_cmd_args cmd SERVER).1 = [t, r]) := by
  cases hno : get_cmd_no (strtok_r cmd [':']).1 SERVER with
  | none => left; simp [get_cmd_args, hno]
  | some k =>
    right
    cases htok : (strtok_r cmd [':']).1 with
    | none => rw [htok] at hno; simp [get_cmd_no] at hno
    | some t =>
      have hno1 := hno
      rw [htok] at hno1
      refine ⟨t, k, rfl, hno1, ?_⟩
      have hk := (get_cmd_no_server_word t k hno1).2.2
      have hloop : get_cmd_args_loop (maxCmdLengths SERVER k - 1) (some t)
          (strtok_r cmd [':']).2 [] = ([t], some t, (strtok_r cmd [':']).2) := by
        interval_cases k <;> rfl
      rw [htok] at hno
      cases hrest : (strtok_r (strtok_r cmd [':']).2 []).1 with
      | none => left; simp [get_cmd_args, hno, htok, hloop, hrest]
      | some r => right; exact ⟨r, by simp [get_cmd_args, hno, htok, hloop, hrest]⟩

theorem ite_none_eq_some {α : Type} (c : Prop) [Decidable c] (e : Option α) (v : α) :
    (if c then none else e) = some v ↔ ¬ c ∧ e = some v := by
  split_ifs with h <;> simp [h]

/-- What `cmd_to_lines` accepts for the server: a command word, followed by a
number of fields between the minimum and the maximum of the tables. -/
theorem cmd_to_lines_server_shape (cmd : CString) (fields : LineList)
    (h : cmd_to_lines cmd SERVER = some fields) :
    ∃ tag args k, fields = tag :: args ∧ (strtok_r cmd [':']).1 = some tag ∧
      get_cmd_no (some tag) SERVER = some k ∧
      minCmdLengths SERVER k ≤ args.length + 1 ∧ args.length + 1 ≤ maxCmdLengths SERVER k := by
  unfold cmd_to_lines at h
  simp only [ite_none_eq_some] at h
  obtain ⟨-, -, h⟩ := h
  rcases get_cmd_args_server_shape cmd with hnil | ⟨t, k, htok, hno, hshape⟩
  · simp [hnil, get_cmd_no] at h
  · have hk := (get_cmd_no_server_word t k hno).2.2
    have hlen : ∃ args, (get_cmd_args cmd SERVER).1 = t :: args ∧ args.length + 1 ≤ 2 := by
      rcases hshape with h1 | ⟨r, h2⟩
      · exact ⟨[], h1, by simp⟩
      · exact ⟨[r], h2, by simp⟩
    obtain ⟨args, hargs, hle⟩ := hlen
    simp only [hargs, List.head?_cons, hno, ite_none_eq_some, Bool.or_eq_true, decide_eq_true_eq,
      not_or, not_lt, List.length_cons, Option.some.injEq] at h
    obtain ⟨⟨hinv, hmin⟩, hfields⟩ := h
    refine ⟨t, args, k, hfields.symm, htok, hno, hmin, ?_⟩
    by_cases hsay : k = SAY
    · subst hsay
      exact hle
    · have hg : (True ∧ k ≠ SAY) ∨ (SERVER = CLIENT ∧ k ≠ MSG) := Or.inl ⟨trivial, hsay⟩
      rw [if_pos hg] at hinv
      simp only [Bool.or_eq_true, decide_eq_true_eq, not_or, not_lt, gt_iff_lt] at hinv
      exact hinv.2.2

/-- The first token of a line that does not begin with a colon is the part of
the line before its first colon. -/
theorem strtok_r_first_token (cmd t : CString) (hhead : cmd.head? ≠ some ':')
    (h : (strtok_r cmd [':']).1 = some t) : t = cmd.takeWhile (fun c => c != ':') := by
  cases cmd with
  | nil => simp [strtok_r] at h
  | cons c s =>
    have hc : c ≠ ':' := fun hc => hhead (by simp [hc])
    have hfun : (fun d : Char => !decide (d ∈ [':'])) = (fun c => c != ':') := by
      funext d; by_cases hd : d = ':' <;> simp [hd]
    have h1 := dropWhile_colon_of_head c s hc
    simp only [strtok_r, h1] at h
    rw [hfun] at h
    split at h <;> exact (Option.some.inj h).symm

/-- A server command with one field: tag, colon, and a non-empty remainder
(free of colons unless the command is `SAY`) parse as the tag and the
remainder. -/
theorem cmd_to_lines_server_field (T r : CString) (k : Nat)
    (hno : get_cmd_no (some T) SERVER = some k) (hmax : maxCmdLengths SERVER k = 2)
    (hr : r ≠ []) (hrc : k ≠ SAY → ':' ∉ r) :
    cmd_to_lines (T ++ ':' :: r) SERVER = some [T, r] := by
  obtain ⟨hT, hTc, hk⟩ := get_cmd_no_server_word T k hno
  have htok := strtok_r_token_colon T r hT hTc
  have hrest : strtok_r r [] = (some r, []) := by rw [strtok_r_no_delim]; simp [hr]
  have hargs : get_cmd_args (T ++ ':' :: r) SERVER = ([T, r], false) := by
    simp only [get_cmd_args, htok, hno, hmax]
    simp [get_cmd_args_loop, hrest]
  have hlen : ¬ (T ++ ':' :: r).length < 1 := by simp
  have hmin : minCmdLengths SERVER k ≤ 2 := by interval_cases k <;> decide
  simp only [cmd_to_lines, hlen, hargs, if_false, List.length_cons, List.length_singleton,
    List.head?_cons, hno, hmax]
  by_cases hsay : k = SAY
  · subst hsay
    simp [SAY]
    decide
  · have hpm := pattern_match_colon_false r (hrc hsay)
    simp [hsay, hpm, hmin]

/-- A `MSG` line for the client with a name and a non-empty payload parses as
the tag, the name and the payload. -/
theorem cmd_to_lines_client_msg (n p : CString) (hn : n ≠ []) (hnc : ':' ∉ n) (hp : p ≠ []) :
    cmd_to_lines ("MSG".toList ++ ':' :: (n ++ ':' :: p)) CLIENT = some ["MSG".toList, n, p] := by
  have htok := strtok_r_token_colon "MSG".toList (n ++ ':' :: p) (by decide) (by decide)
  have htok2 := strtok_r_token_colon n p hn hnc
  have hrest : strtok_r p [] = (some p, []) := by rw [strtok_r_no_delim]; simp [hp]
  have hno : get_cmd_no (some "MSG".toList) CLIENT = some 6 := by decide
  have hmax : maxCmdLengths CLIENT 6 = 3 := rfl
  have hmin : minCmdLengths CLIENT 6 = 2 := rfl
  have hargs : get_cmd_args ("MSG".toList ++ ':' :: (n ++ ':' :: p)) CLIENT
      = (["MSG".toList, n, p], false) := by
    simp only [get_cmd_args, htok, hno, hmax]
    simp [get_cmd_args_loop, htok2, hrest]
  have hlen : ¬ ("MSG".toList ++ ':' :: (n ++ ':' :: p)).length < 1 := by simp
  simp only [cmd_to_lines, hlen, hargs, if_false, List.length_cons, List.length_singleton,
    List.head?_cons, hno, hmax, hmin]
  simp [MSG]

/-! ## Lemmas: the roster -/

/-- After an assignment through a pointer that keeps addresses, the pointer
points to the assigned value. -/
theorem client_at_modify (clients : ClientList) (id : Nat) (f : ClientThread → ClientThread)
    (c : ClientThread) (hf : ∀ d, (f d).id = d.id) (h : client_at clients id = some c) :
    client_at (modify_client clients id f) id = some (f c) := by
  obtain ⟨password, stats, head⟩ := clients
  simp only [client_at, modify_client] at h ⊢
  induction head with
  | nil => simp at h
  | cons d rest ih =>
    simp only [List.map_cons, List.find?_cons] at h ⊢
    by_cases hd : d.id = id
    · have hb : (d.id == id) = true := by simp [hd]
      have hb1 : ((f d).id == id) = true := by simp [hf, hd]
      simp only [hb, Option.some.injEq] at h
      subst h
      simp only [if_pos hd, hb1]
    · have hb : (d.id == id) = false := by simp [hd]
      simp only [hb] at h
      simp only [if_neg hd, hb]
      exact ih h

theorem char_eq_of_toNat_eq (a b : Char) (h : a.toNat = b.toNat) : a = b :=
  Char.ext (UInt32.toNat.inj h)

/-- Swapping the arguments of `strcmp` negates the result. -/
theorem strcmp_swap (a b : CString) : strcmp b a = - strcmp a b := by
  induction a generalizing b with
  | nil => cases b <;> simp [strcmp]
  | cons x s ih =>
    cases b with
    | nil => simp [strcmp]
    | cons y t =>
      by_cases hxy : x = y
      · subst hxy
        simp [strcmp, ih]
      · have hyx : ¬ y = x := fun h => hxy h.symm
        have hne : x.toNat ≠ y.toNat := fun h => hxy (char_eq_of_toNat_eq x y h)
        by_cases hlt : x.toNat < y.toNat
        · have : ¬ y.toNat < x.toNat := by omega
          simp [strcmp, hxy, hyx, hlt, this]
        · have : y.toNat < x.toNat := by omega
          simp [strcmp, hxy, hyx, hlt, this]

/-- Of two different names, one is below the other. -/
theorem strcmp_lt_of_not_lt (a b : CString) (hne : a ≠ b) (h : ¬ strcmp a b < 0) :
    strcmp b a < 0 := by
  have h0 : strcmp a b ≠ 0 := fun h0 => hne ((strcmp_eq_zero_iff a b).mp h0)
  rw [strcmp_swap a b]
  omega

theorem ascending_cons_cons (a b : ClientNode) (rest : List ClientNode) :
    ascending (a :: b :: rest) = (name_lt a b && ascending (b :: rest)) := rfl

/-- A client put before an ascending list whose first name is above its own. -/
theorem ascending_cons (a : ClientNode) (l : List ClientNode) (b : ClientNode)
    (hhead : l.head? = some b) (hlt : name_lt a b = true) (hl : ascending l = true) :
    ascending (a :: l) = true := by
  cases l with
  | nil => simp at hhead
  | cons c rest =>
    simp only [List.head?_cons, Option.some.injEq] at hhead
    subst hhead
    simp [ascending_cons_cons, hlt, hl]

theorem ascending_tail (a : ClientNode) (l : List ClientNode) (h : ascending (a :: l) = true) :
    ascending l = true := by
  cases l with
  | nil => rfl
  | cons b rest =>
    rw [ascending_cons_cons, Bool.and_eq_true] at h
    exact h.2

theorem ascending_head_named (a : ClientNode) (l : List ClientNode)
    (h : ascending (a :: l) = true) : ∃ y, a.name = some y := by
  cases l with
  | nil =>
    simp only [ascending] at h
    exact Option.isSome_iff_exists.mp h
  | cons b rest =>
    rw [ascending_cons_cons, Bool.and_eq_true] at h
    have h1 := h.1
    unfold name_lt at h1
    cases ha : a.name with
    | none => simp [ha] at h1
    | some y => exact ⟨y, rfl⟩

/-- The loop of `add_node`, on an ascending list whose first name is below
the new name and that does not hold the new name: the new node is put in, the
first node stays first, the old nodes keep their order, and the list is
ascending again. -/
theorem add_node_loop_sorted (node : ClientNode) (x : CString) (hx : node.name = some x)
    (cur : ClientNode) (rest : List ClientNode)
    (hasc : ascending (cur :: rest) = true) (hcur : name_lt cur node = true)
    (hfree : ∀ c ∈ rest, c.name ≠ some x) :
    ∃ l before after, add_node_loop node cur rest = some l ∧ ascending l = true ∧
      l.head? = some cur ∧ cur :: rest = before ++ after ∧ l = before ++ node :: after := by
  induction rest generalizing cur with
  | nil =>
    refine ⟨[cur, node], [cur], [], rfl, ?_, rfl, rfl, rfl⟩
    simp [ascending, hcur, hx]
  | cons nxt rest ih =>
    have hasc1 := ascending_tail cur (nxt :: rest) hasc
    obtain ⟨y, hy⟩ := ascending_head_named nxt rest hasc1
    have hcn : name_lt cur nxt = true := by
      rw [ascending_cons_cons, Bool.and_eq_true] at hasc
      exact hasc.1
    have hcmp : compare_node_names node nxt = some (strcmp x y) := by
      simp [compare_node_names, hx, hy]
    by_cases hlt : strcmp x y < 0
    · refine ⟨cur :: node :: nxt :: rest, [cur], nxt :: rest, ?_, ?_, rfl, rfl, rfl⟩
      · simp [add_node_loop, hcmp, hlt]
      · have hnn : name_lt node nxt = true := by simp [name_lt, hx, hy, hlt]
        simp [ascending_cons_cons, hcur, hnn, hasc1]
    · have hne : x ≠ y := by
        intro hxy
        exact hfree nxt (by simp) (by rw [hy, hxy])
      have hnxt : name_lt nxt node = true := by
        simp [name_lt, hx, hy, strcmp_lt_of_not_lt x y hne hlt]
      obtain ⟨l, before, after, hl, hlasc, hlhead, hsplit, hleq⟩ :=
        ih nxt hasc1 hnxt (fun c hc => hfree c (by simp [hc]))
      refine ⟨cur :: l, cur :: before, after, ?_, ?_, rfl, ?_, ?_⟩
      · simp [add_node_loop, hcmp, hlt, hl]
      · exact ascending_cons cur l nxt hlhead hcn hlasc
      · simp [hsplit]
      · simp [hleq]

/-- The loop of `add_node`, when it does not fault, puts the node into the
list and loses nothing. -/
theorem add_node_loop_perm (node cur : ClientNode) (rest l : List ClientNode)
    (h : add_node_loop node cur rest = some l) : l.Perm (node :: cur :: rest) := by
  induction rest generalizing cur l with
  | nil =>
    simp only [add_node_loop, Option.some.injEq] at h
    subst h
    exact List.Perm.swap _ _ _
  | cons nxt rest ih =>
    simp only [add_node_loop] at h
    cases hcmp : compare_node_names node nxt with
    | none => simp [hcmp] at h
    | some cmp =>
      simp only [hcmp] at h
      by_cases hlt : cmp < 0
      · simp only [hlt, if_true, Option.some.injEq] at h
        subst h
        exact List.Perm.swap _ _ _
      · simp only [hlt, if_false, Option.map_eq_some'] at h
        obtain ⟨l1, hl1, hl⟩ := h
        subst hl
        exact ((ih nxt l1 hl1).cons cur).trans (List.Perm.swap _ _ _)

/-- `add_node`, when it does not fault, puts the node into the roster and
loses nothing; a node without a name is taken by the empty roster only. -/
theorem add_node_perm (clients added : ClientList) (node : ClientNode)
    (h : add_node clients node = some added) :
    added.head.Perm (node :: clients.head) ∧ (node.name = none → clients.head = []) := by
  obtain ⟨password, stats, head⟩ := clients
  cases head with
  | nil =>
    simp only [add_node, Option.some.injEq] at h
    subst h
    exact ⟨List.Perm.refl _, fun _ => rfl⟩
  | cons cur rest =>
    simp only [add_node] at h
    cases hcmp : compare_node_names node cur with
    | none => simp [hcmp] at h
    | some cmp =>
      have hnamed : node.name ≠ none := by
        intro hn
        simp [compare_node_names, hn] at hcmp
      simp only [hcmp] at h
      by_cases hlt : cmp < 0
      · simp only [hlt, if_true, Option.some.injEq] at h
        subst h
        exact ⟨List.Perm.refl _, fun hn => absurd hn hnamed⟩
      · simp only [hlt, if_false, Option.map_eq_some'] at h
        obtain ⟨l1, hl1, hl⟩ := h
        subst hl
        exact ⟨add_node_loop_perm node cur rest l1 hl1, fun hn => absurd hn hnamed⟩

/-- The list `remove_client` leaves is a sublist of the roster. -/
theorem remove_client_loop_sublist (client : Nat) (l : List ClientNode) :
    (remove_client_loop client l).Sublist l := by
  induction l with
  | nil => exact List.Sublist.refl _
  | cons c rest ih =>
    simp only [remove_client_loop]
    split_ifs
    · exact List.sublist_cons_self c rest
    · exact ih.cons₂ c

/-- `get_client_by_name` finds nothing exactly when no peer has the name. -/
theorem get_client_by_name_eq_none (clients : ClientList) (name : CString) :
    get_client_by_name clients name = none ↔ ∀ c ∈ clients.head, c.name ≠ some name := by
  simp only [get_client_by_name, List.find?_eq_none]
  constructor
  · intro h c hc hname
    have := h c hc
    simp [hname, (strcmp_eq_zero_iff name name).mpr rfl] at this
  · intro h c hc
    cases hname : c.name with
    | none => simp
    | some y =>
      have hne : y ≠ name := fun hy => h c hc (by rw [hname, hy])
      have : strcmp y name ≠ 0 := fun h0 => hne ((strcmp_eq_zero_iff y name).mp h0)
      simp [this]

/-- The loop of `name_negotiate` leaves the list of the roster as it is, and
gives a client without a name either no name or a name that no peer of the
roster has. -/
theorem name_negotiate_loop_name (fuel : Nat) (clients : ClientList) (client : ClientThread)
    (hnew : client.name = none) :
    (name_negotiate_loop fuel clients client).1.head = clients.head ∧
    (name_negotiate_loop fuel clients client).1.password = clients.password ∧
    ((name_negotiate_loop fuel clients client).2.name = none ∨
      ∃ x, (name_negotiate_loop fuel clients client).2.name = some x ∧
        get_client_by_name clients x = none) := by
  induction fuel generalizing clients client with
  | zero => exact ⟨rfl, rfl, Or.inl hnew⟩
  | succ fuel ih =>
    simp only [name_negotiate_loop]
    by_cases hempty : (read_client_line (send_client client "WHO:".toList)).2.1 = true
    · rw [if_pos hempty]
      exact ⟨rfl, rfl, Or.inl hnew⟩
    · rw [if_neg hempty]
      cases hparse : cmd_to_lines (read_client_line (send_client client "WHO:".toList)).1 SERVER with
      | none => exact ⟨rfl, rfl, Or.inl hnew⟩
      | some cmdArgs =>
        simp only []
        by_cases hno : get_cmd_no cmdArgs.head? SERVER = some NAME
        · rw [if_pos hno]
          rcases cmdArgs with _ | ⟨cmd, _ | ⟨name, rest⟩⟩
          · exact ⟨rfl, rfl, Or.inl hnew⟩
          · exact ⟨rfl, rfl, Or.inl hnew⟩
          · simp only []
            split_ifs with hfree
            · exact ⟨rfl, rfl, Or.inr ⟨name, rfl, hfree⟩⟩
            · exact ih _ _ hnew
        · rw [if_neg hno]
          exact ⟨rfl, rfl, Or.inl hnew⟩

/-! ## Lemmas: reading lines and the loop of `name_negotiate` -/

theorem get_line_loop_length (c : Char) (doc : List Char) :
    (get_line_loop c doc).2.2.length ≤ doc.length := by
  induction doc generalizing c with
  | nil =>
    unfold get_line_loop
    split_ifs <;> simp
  | cons d doc1 ih =>
    unfold get_line_loop
    split_ifs
    · simp
    · have := ih d
      simp only [List.length_cons]
      omega

/-- A read that does not meet the end of the stream at once takes at least one
byte from the stream. -/
theorem read_file_line_length (doc : List Char) (h : (read_file_line doc).2.1 = false) :
    (read_file_line doc).2.2.length < doc.length := by
  cases doc with
  | nil => simp [read_file_line, get_line] at h
  | cons c doc1 =>
    have := get_line_loop_length c doc1
    simp only [read_file_line, get_line, List.length_cons]
    omega

/-- The client that goes into the next round of `name_negotiate` has fewer
bytes to read. -/
theorem name_negotiate_round_length (client : ClientThread) (line : CString)
    (h : ¬ (read_client_line (send_client client line)).2.1 = true) :
    (send_client (read_client_line (send_client client line)).2.2
      "NAME_TAKEN:".toList).readFrom.length < client.readFrom.length := by
  have h1 : (read_file_line client.readFrom).2.1 = false := by
    simpa [read_client_line, send_client] using h
  exact read_file_line_length client.readFrom h1

/-- The bound on the rounds of `name_negotiate` is never reached: any two
bounds above the number of bytes to read give the same result. -/
theorem name_negotiate_loop_fuel (fuel1 fuel2 : Nat) (clients : ClientList)
    (client : ClientThread) (h1 : client.readFrom.length < fuel1)
    (h2 : client.readFrom.length < fuel2) :
    name_negotiate_loop fuel1 clients client = name_negotiate_loop fuel2 clients client := by
  induction fuel1 generalizing fuel2 clients client with
  | zero => omega
  | succ fuel1 ih =>
    cases fuel2 with
    | zero => omega
    | succ fuel2 =>
      simp only [name_negotiate_loop]
      by_cases hempty : (read_client_line (send_client client "WHO:".toList)).2.1 = true
      · rw [if_pos hempty, if_pos hempty]
      · rw [if_neg hempty, if_neg hempty]
        have hlen := name_negotiate_round_length client "WHO:".toList hempty
        have hrec : ∀ cl : ClientList,
            name_negotiate_loop fuel1 cl
              (send_client (read_client_line (send_client client "WHO:".toList)).2.2
                "NAME_TAKEN:".toList) =
            name_negotiate_loop fuel2 cl
              (send_client (read_client_line (send_client client "WHO:".toList)).2.2
                "NAME_TAKEN:".toList) :=
          fun cl => ih fuel2 cl _ (by omega) (by omega)
        cases hparse :
          cmd_to_lines (read_client_line (send_client client "WHO:".toList)).1 SERVER with
        | none => rfl
        | some cmdArgs =>
          simp only []
          by_cases hno : get_cmd_no cmdArgs.head? SERVER = some NAME
          · rw [if_pos hno, if_pos hno]
            rcases cmdArgs with _ | ⟨cmd, _ | ⟨name, rest⟩⟩
            · rfl
            · rfl
            · simp only []
              split_ifs with hfree
              · rfl
              · exact hrec _
          · rw [if_neg hno, if_neg hno]

/-- The loop of `name_negotiate` only appends to what was written to the
client, and a round begins by asking `WHO:`. -/
theorem name_negotiate_loop_writes (fuel : Nat) (clients : ClientList) (client : ClientThread) :
    ∃ later, (name_negotiate_loop fuel clients client).2.writeTo = client.writeTo ++ later ∧
      (fuel ≠ 0 → ∃ more, later = "WHO:\n".toList ++ more) := by
  induction fuel generalizing clients client with
  | zero => exact ⟨[], by simp [name_negotiate_loop], fun h => absurd rfl h⟩
  | succ fuel ih =>
    simp only [name_negotiate_loop]
    have hrec : ∀ cl : ClientList, ∃ later,
        (name_negotiate_loop fuel cl
          (send_client (read_client_line (send_client client "WHO:".toList)).2.2
            "NAME_TAKEN:".toList)).2.writeTo = client.writeTo ++ later ∧
        (fuel + 1 ≠ 0 → ∃ more, later = "WHO:\n".toList ++ more) := by
      intro cl
      obtain ⟨later, h, -⟩ := ih cl
        (send_client (read_client_line (send_client client "WHO:".toList)).2.2
          "NAME_TAKEN:".toList)
      refine ⟨"WHO:\n".toList ++ ("NAME_TAKEN:\n".toList ++ later), ?_, fun _ => ⟨_, rfl⟩⟩
      rw [h]
      simp [send_client, read_client_line, List.append_assoc]
    by_cases hempty : (read_client_line (send_client client "WHO:".toList)).2.1 = true
    · rw [if_pos hempty]
      refine ⟨"WHO:\n".toList ++ [], ?_, fun _ => ⟨_, rfl⟩⟩
      simp [send_client, read_client_line, disable_client, List.append_assoc]
    · rw [if_neg hempty]
      cases hparse :
        cmd_to_lines (read_client_line (send_client client "WHO:".toList)).1 SERVER with
      | none =>
        refine ⟨"WHO:\n".toList ++ [], ?_, fun _ => ⟨_, rfl⟩⟩
        simp [send_client, read_client_line, disable_client, List.append_assoc]
      | some cmdArgs =>
        simp only []
        by_cases hno : get_cmd_no cmdArgs.head? SERVER = some NAME
        · rw [if_pos hno]
          rcases cmdArgs with _ | ⟨cmd, _ | ⟨name, rest⟩⟩
          · refine ⟨"WHO:\n".toList ++ [], ?_, fun _ => ⟨_, rfl⟩⟩
            simp [send_client, read_client_line, List.append_assoc]
          · refine ⟨"WHO:\n".toList ++ [], ?_, fun _ => ⟨_, rfl⟩⟩
            simp [send_client, read_client_line, List.append_assoc]
          · simp only []
            split_ifs with hfree
            · refine ⟨"WHO:\n".toList ++ "OK:\n".toList, ?_, fun _ => ⟨_, rfl⟩⟩
              simp [send_client, read_client_line, set_client_name, List.append_assoc]
            · exact hrec _
        · rw [if_neg hno]
          refine ⟨"WHO:\n".toList ++ [], ?_, fun _ => ⟨_, rfl⟩⟩
          simp [send_client, read_client_line, disable_client, List.append_assoc]

/-- `name_negotiate` begins by asking `WHO:`. -/
theorem name_negotiate_asks_who (clients : ClientList) (client : ClientThread) :
    ∃ more, (name_negotiate clients client).2.writeTo
      = client.writeTo ++ "WHO:\n".toList ++ more := by
  obtain ⟨later, h, hwho⟩ :=
    name_negotiate_loop_writes (client.readFrom.length + 1) clients client
  obtain ⟨more, hmore⟩ := hwho (by omega)
  exact ⟨more, by rw [name_negotiate, h, hmore, List.append_assoc]⟩

/-- One round of `name_negotiate`: the equation of the `while (1)` loop. -/
theorem name_negotiate_unfold (clients : ClientList) (client : ClientThread) :
    name_negotiate clients client =
      if (read_client_line (send_client client "WHO:".toList)).2.1 = true then
        ⟨clients, disable_client (read_client_line (send_client client "WHO:".toList)).2.2, false⟩
      else
        match cmd_to_lines (read_client_line (send_client client "WHO:".toList)).1 SERVER with
        | none =>
          ⟨clients, disable_client (read_client_line (send_client client "WHO:".toList)).2.2,
            false⟩
        | some cmdArgs =>
          if get_cmd_no cmdArgs.head? SERVER = some NAME then
            match cmdArgs with
            | _ :: name :: _ =>
              if get_client_by_name
                  { clients with stats := { clients.stats with name := clients.stats.name + 1 } }
                  name = none then
                ⟨{ clients with stats := { clients.stats with name := clients.stats.name + 1 } },
                  send_client
                    (set_client_name (read_client_line (send_client client "WHO:".toList)).2.2 name)
                    "OK:".toList, false⟩
              else
                name_negotiate
                  { clients with stats := { clients.stats with name := clients.stats.name + 1 } }
                  (send_client (read_client_line (send_client client "WHO:".toList)).2.2
                    "NAME_TAKEN:".toList)
            | _ => ⟨clients, (read_client_line (send_client client "WHO:".toList)).2.2, true⟩
          else
            ⟨clients, disable_client (read_client_line (send_client client "WHO:".toList)).2.2,
              false⟩ := by
  rw [name_negotiate]
  simp only [name_negotiate_loop]
  by_cases hempty : (read_client_line (send_client client "WHO:".toList)).2.1 = true
  · rw [if_pos hempty, if_pos hempty]
  · rw [if_neg hempty, if_neg hempty]
    have hlen := name_negotiate_round_length client "WHO:".toList hempty
    have hrec : ∀ cl : ClientList,
        name_negotiate_loop client.readFrom.length cl
          (send_client (read_client_line (send_client client "WHO:".toList)).2.2
            "NAME_TAKEN:".toList) =
        name_negotiate cl
          (send_client (read_client_line (send_client client "WHO:".toList)).2.2
            "NAME_TAKEN:".toList) :=
      fun cl => name_negotiate_loop_fuel _ _ cl _ hlen (by omega)
    cases hparse :
      cmd_to_lines (read_client_line (send_client client "WHO:".toList)).1 SERVER with
    | none => rfl
    | some cmdArgs =>
      simp only []
      by_cases hno : get_cmd_no cmdArgs.head? SERVER = some NAME
      · rw [if_pos hno, if_pos hno]
        rcases cmdArgs with _ | ⟨cmd, _ | ⟨name, rest⟩⟩
        · rfl
        · rfl
        · simp only []
          split_ifs with hfree
          · rfl
          · exact hrec _
      · rw [if_neg hno, if_neg hno]

/-! ## Lemmas: `authenticate_client` -/

/-- `authenticate_client` with a password set, by the shape of the reply:
a reply that parses as `AUTH` with one field is counted and compared with the
password; any other reply closes the peer. -/
theorem authenticate_client_cases (clients : ClientList) (client : ClientThread) (pw : CString)
    (hpw : clients.password = some pw) :
    (∀ f, cmd_to_lines (read_file_line client.readFrom).1 SERVER = some ["AUTH".toList, f] →
      authenticate_client clients client =
        ({ clients with stats := { clients.stats with auth := clients.stats.auth + 1 } },
         if pw = f then
           { client with
             readFrom := (read_file_line client.readFrom).2.2,
             writeTo := client.writeTo ++ "AUTH:\n".toList ++ "OK:\n".toList }
         else
           { client with
             isActive := false, readFrom := (read_file_line client.readFrom).2.2,
             writeTo := client.writeTo ++ "AUTH:\n".toList })) ∧
    ((∀ f, cmd_to_lines (read_file_line client.readFrom).1 SERVER ≠ some ["AUTH".toList, f]) →
      authenticate_client clients client =
        (clients,
         { client with
           isActive := false, readFrom := (read_file_line client.readFrom).2.2,
           writeTo := client.writeTo ++ "AUTH:\n".toList })) := by
  have hline : read_client_line (send_client client "AUTH:".toList) =
      ((read_file_line client.readFrom).1, (read_file_line client.readFrom).2.1,
        { client with
          readFrom := (read_file_line client.readFrom).2.2,
          writeTo := client.writeTo ++ "AUTH:\n".toList }) := by
    simp [read_client_line, send_client]
  have hauth : get_cmd_no (some "AUTH".toList) SERVER = some AUTH := by decide
  constructor
  · intro f hparse
    simp only [authenticate_client, hpw, hline, hparse, hauth, if_true]
    by_cases hf : pw = f
    · subst hf
      simp [(strcmp_eq_zero_iff pw pw).mpr rfl, send_client]
    · have : strcmp pw f ≠ 0 := fun h0 => hf ((strcmp_eq_zero_iff pw f).mp h0)
      simp [this, hf, disable_client]
  · intro hnot
    simp only [authenticate_client, hpw, hline]
    cases hparse : cmd_to_lines (read_file_line client.readFrom).1 SERVER with
    | none => simp [disable_client]
    | some fields =>
      obtain ⟨tag, args, k, hfields, -, hno, -, hmax⟩ :=
        cmd_to_lines_server_shape _ fields hparse
      have hk := (get_cmd_no_server_word tag k hno).2.2
      have hmax2 : maxCmdLengths SERVER k ≤ 2 := by interval_cases k <;> decide
      subst hfields
      rcases args with _ | ⟨arg, _ | ⟨arg2, more⟩⟩
      · simp [disable_client]
      · have htag : get_cmd_no (some tag) SERVER ≠ some AUTH := by
          intro h
          rcases (get_cmd_no_server_iff tag AUTH).mp h with h | h | h | h | h | h
          · exact absurd h.2 (by decide)
          · exact hnot arg (by rw [hparse, h.1])
          · exact absurd h.2 (by decide)
          · exact absurd h.2 (by decide)
          · exact absurd h.2 (by decide)
          · exact absurd h.2 (by decide)
        simp [htag, disable_client]
      · simp only [List.length_cons] at hmax
        omega

/-! ## Claims C2, C3, C4: the command parser -/

/-- C2: for every non-empty payload `p`, `cmd_to_lines` of `SAY:` followed by
`p` for the server is exactly the two fields `SAY` and `p`, and for every
non-empty name `n` without a colon `cmd_to_lines` of `MSG:n:p` for the client
is exactly `MSG`, `n`, `p`; the payload may contain or begin with colons. -/
theorem cmd_to_lines_payload_verbatim (p : CString) (hp : p ≠ []) :
    cmd_to_lines ("SAY:".toList ++ p) SERVER = some ["SAY".toList, p] ∧
    ∀ n : CString, n ≠ [] → ':' ∉ n →
      cmd_to_lines ("MSG:".toList ++ n ++ ":".toList ++ p) CLIENT = some ["MSG".toList, n, p] := by
  constructor
  · exact cmd_to_lines_server_field "SAY".toList p 2 (by decide) rfl hp (fun h => absurd rfl h)
  · intro n hn hnc
    have h := cmd_to_lines_client_msg n p hn hnc hp
    have heq : "MSG:".toList ++ n ++ ":".toList ++ p = "MSG".toList ++ ':' :: (n ++ ':' :: p) := by
      simp [String.toList]
    rw [heq]
    exact h

/-- C2, at the payload `:hi` (which begins with a colon) and the name `alice`. -/
theorem cmd_to_lines_payload_verbatim_witness :
    ":hi".toList ≠ [] ∧
    cmd_to_lines ("SAY:".toList ++ ":hi".toList) SERVER = some ["SAY".toList, ":hi".toList] ∧
    cmd_to_lines ("MSG:".toList ++ "alice".toList ++ ":".toList ++ ":hi".toList) CLIENT
      = some ["MSG".toList, "alice".toList, ":hi".toList] :=
  ⟨by decide, (cmd_to_lines_payload_verbatim ":hi".toList (by decide)).1,
    (cmd_to_lines_payload_verbatim ":hi".toList (by decide)).2 "alice".toList (by decide)
      (by decide)⟩

/-- C3, as stated, fails: the line `AUTH:a:b` is not parsed into the fields
`AUTH` and `a:b`; `cmd_to_lines` rejects it (for a command other than `SAY`
the last field may not contain a colon). -/
theorem cmd_to_lines_auth_colon_rejected :
    cmd_to_lines ("AUTH".toList ++ ":".toList ++ "a:b".toList) SERVER = none ∧
    cmd_to_lines ("AUTH".toList ++ ":".toList ++ "a:b".toList) SERVER
      ≠ some ["AUTH".toList, "a:b".toList] := by
  decide

/-- C3 (amended): for each tag `T` among `AUTH`, `NAME`, `KICK` and every
non-empty remainder `r` without a colon, `cmd_to_lines` of `T:r` for the
server is exactly the two fields `T` and `r`. -/
theorem cmd_to_lines_single_field (T r : CString)
    (hT : T = "AUTH".toList ∨ T = "NAME".toList ∨ T = "KICK".toList)
    (hr : r ≠ []) (hrc : ':' ∉ r) :
    cmd_to_lines (T ++ ":".toList ++ r) SERVER = some [T, r] := by
  have heq : T ++ ":".toList ++ r = T ++ ':' :: r := by simp [String.toList]
  rw [heq]
  rcases hT with h | h | h <;> subst h
  · exact cmd_to_lines_server_field _ r 1 (by decide) rfl hr (fun _ => hrc)
  · exact cmd_to_lines_server_field _ r 0 (by decide) rfl hr (fun _ => hrc)
  · exact cmd_to_lines_server_field _ r 3 (by decide) rfl hr (fun _ => hrc)

/-- C3 (amended), at the line `KICK:bob`. -/
theorem cmd_to_lines_single_field_witness :
    cmd_to_lines ("KICK".toList ++ ":".toList ++ "bob".toList) SERVER
      = some ["KICK".toList, "bob".toList] :=
  cmd_to_lines_single_field "KICK".toList "bob".toList (Or.inr (Or.inr rfl)) (by decide)
    (by decide)

/-- C4, as stated, fails: the line `AUTH:` is accepted with no field after
the tag, outside the range 1..1 of the specification (and so is `NAME:`). -/
theorem cmd_to_lines_accepts_bare_auth :
    cmd_to_lines "AUTH:".toList SERVER = some ["AUTH".toList] ∧
    within_spec_server_arity ["AUTH".toList] = false ∧
    cmd_to_lines "NAME:".toList SERVER = some ["NAME".toList] ∧
    within_spec_server_arity ["NAME".toList] = false := by
  decide

/-- C4 (amended): if `cmd_to_lines` returns a field list for a line sent to
the server, the list is a tag among `AUTH`, `NAME`, `SAY`, `KICK`, `LIST`,
`LEAVE` followed by a number of fields in the range of that tag: `AUTH` 0..1,
`NAME` 0..1, `SAY` 0..1, `KICK` 1..1, `LIST` 0..0, `LEAVE` 0..0; and when the
line does not begin with a colon the tag is the part of the line before its
first colon. Every other line yields `NULL`. -/
theorem cmd_to_lines_server_arity (L : CString) (fields : LineList)
    (h : cmd_to_lines L SERVER = some fields) :
    ∃ tag args, fields = tag :: args ∧
      ((tag = "AUTH".toList ∧ args.length ≤ 1) ∨ (tag = "NAME".toList ∧ args.length ≤ 1) ∨
       (tag = "SAY".toList ∧ args.length ≤ 1) ∨ (tag = "KICK".toList ∧ args.length = 1) ∨
       (tag = "LIST".toList ∧ args.length = 0) ∨ (tag = "LEAVE".toList ∧ args.length = 0)) ∧
      (L.head? ≠ some ':' → tag = L.takeWhile (fun c => c != ':')) := by
  obtain ⟨tag, args, k, hfields, htok, hno, hmin, hmax⟩ := cmd_to_lines_server_shape L fields h
  refine ⟨tag, args, hfields, ?_, fun hhead => strtok_r_first_token L tag hhead htok⟩
  rcases (get_cmd_no_server_iff tag k).mp hno with h | h | h | h | h | h <;>
    obtain ⟨hw, hk⟩ := h <;> subst hk <;>
    simp only [minCmdLengths, maxCmdLengths, minServerCmdLengths, maxServerCmdLengths,
      List.getD_cons_zero, List.getD_cons_succ] at hmin hmax
  · exact Or.inr (Or.inl ⟨hw, by omega⟩)
  · exact Or.inl ⟨hw, by omega⟩
  · exact Or.inr (Or.inr (Or.inl ⟨hw, by omega⟩))
  · exact Or.inr (Or.inr (Or.inr (Or.inl ⟨hw, by omega⟩)))
  · exact Or.inr (Or.inr (Or.inr (Or.inr (Or.inl ⟨hw, by omega⟩))))
  · exact Or.inr (Or.inr (Or.inr (Or.inr (Or.inr ⟨hw, by omega⟩))))

/-- C4 (amended), at the line `KICK:bob`: one field after the tag `KICK`. -/
theorem cmd_to_lines_server_arity_witness :
    cmd_to_lines "KICK:bob".toList SERVER = some ["KICK".toList, "bob".toList] ∧
    "KICK".toList = "KICK:bob".toList.takeWhile (fun c => c != ':') := by
  have hparse : cmd_to_lines "KICK:bob".toList SERVER = some ["KICK".toList, "bob".toList] := by
    decide
  obtain ⟨tag, args, hfields, -, htag⟩ :=
    cmd_to_lines_server_arity "KICK:bob".toList ["KICK".toList, "bob".toList] hparse
  have h1 : "KICK".toList = tag := (List.cons.inj hfields).1
  exact ⟨hparse, h1 ▸ htag (by decide)⟩

/-! ## A `SAY` with a payload -/

/-- The closed form of `handle_cmd` on a `SAY` with a payload, in terms of
`get_printable`. For the serving peer at address `client`, named `n`, and
every line `SAY:` followed by a non-empty payload `p`, `handle_cmd` writes
`MSG:`, what `get_printable` makes of `n`, a colon, what `get_printable` makes
of `p`, and a newline to every roster peer that is active and named (the
sender included) and to no other, prints the same two strings with `: `
between them and a newline to standard output, adds one to the global `SAY`
counter and to the `SAY` counter of the sender (the peer at address `client`),
and changes nothing else: no other counter, no name, no active flag, no
membership. -/
theorem handle_cmd_say_broadcast (signedChar : Bool) (s : Server) (client : Nat)
    (self : ClientThread) (n p : CString)
    (hself : client_at s.clients client = some self) (hname : self.name = some n)
    (hp : p ≠ []) :
    handle_cmd signedChar s client ("SAY:".toList ++ p) = some
      { clients :=
          { password := s.clients.password,
            stats := { s.clients.stats with say := s.clients.stats.say + 1 },
            head := s.clients.head.map fun c =>
              { c with
                stats := if c.id = client then { c.stats with say := c.stats.say + 1 } else c.stats,
                writeTo :=
                  if c.isActive && c.name.isSome then
                    c.writeTo ++ ("MSG:".toList ++ get_printable signedChar n ++ ":".toList ++
                      get_printable signedChar p) ++ ['\n']
                  else c.writeTo } },
        stdout := s.stdout ++ (get_printable signedChar n ++ ": ".toList ++
          get_printable signedChar p ++ "\n".toList) } := by
  have hparse : cmd_to_lines ("SAY:".toList ++ p) SERVER = some ["SAY".toList, p] :=
    cmd_to_lines_server_field "SAY".toList p 2 (by decide) rfl hp (fun h => absurd rfl h)
  have hno : get_cmd_no (some "SAY".toList) SERVER = some 2 := by decide
  have hat := client_at_modify
    { s.clients with stats := { s.clients.stats with say := s.clients.stats.say + 1 } } client
    (fun c => { c with stats := { c.stats with say := c.stats.say + 1 } }) self (fun _ => rfl) hself
  simp only [handle_cmd, hparse, List.head?_cons, hno, AUTH, handlers, handle_say, hat,
    Option.bind, hname]
  simp only [show (2 : Nat) > 1 from by decide, if_true, send_all_clients, modify_client,
    List.map_map, Option.some.injEq]
  congr 2
  apply List.map_congr_left
  intro c _
  by_cases hc : c.id = client <;> by_cases ha : (c.isActive && c.name.isSome) = true <;>
    simp [Function.comp, hc, ha]

/-- Scenario 3 of the specification: `alice` sends `SAY:hi: there` in a
roster of `alice` and `bob`; both receive `MSG:alice:hi: there`. -/
theorem handle_cmd_say_broadcast_witness :
    handle_cmd false
      { clients :=
          { password := none, stats := ⟨0, 0, 0, 0, 2, 0⟩,
            head := [⟨1, true, some "alice".toList, ⟨0, 0, 0⟩, [], []⟩,
                     ⟨2, true, some "bob".toList, ⟨0, 0, 0⟩, [], []⟩] },
        stdout := [] } 1 ("SAY:".toList ++ "hi: there".toList)
      = some
      { clients :=
          { password := none, stats := ⟨1, 0, 0, 0, 2, 0⟩,
            head := [⟨1, true, some "alice".toList, ⟨1, 0, 0⟩, [], "MSG:alice:hi: there\n".toList⟩,
                     ⟨2, true, some "bob".toList, ⟨0, 0, 0⟩, [], "MSG:alice:hi: there\n".toList⟩] },
        stdout := "alice: hi: there\n".toList } :=
  (handle_cmd_say_broadcast false _ 1 ⟨1, true, some "alice".toList, ⟨0, 0, 0⟩, [], []⟩
    "alice".toList "hi: there".toList (by decide) rfl (by decide)).trans (by decide)

/-! ## Claim C6: sorted insertion -/

/-- C6: for every roster that is strictly ascending by name under `strcmp` and
every client with a name that no peer of the roster has, `add_client` returns
a roster that is again strictly ascending by name and that consists of the old
peers, in their old order, with the new client put in at one place (nothing
lost, nothing duplicated); the password and the counters are unchanged. -/
theorem add_client_sorted (clients : ClientList) (client : ClientThread) (x : CString)
    (hasc : ascending clients.head = true) (hname : client.name = some x)
    (hfree : ∀ c ∈ clients.head, c.name ≠ some x) :
    ∃ added before after, add_client clients client = some added ∧
      ascending added.head = true ∧
      clients.head = before ++ after ∧ added.head = before ++ client :: after ∧
      added.head.Perm (client :: clients.head) ∧
      added.password = clients.password ∧ added.stats = clients.stats := by
  obtain ⟨password, stats, head⟩ := clients
  simp only at hasc hfree
  cases head with
  | nil =>
    refine ⟨⟨password, stats, [client]⟩, [], [], rfl, ?_, rfl, rfl, List.Perm.refl _, rfl, rfl⟩
    simp [ascending, hname]
  | cons cur rest =>
    obtain ⟨y, hy⟩ := ascending_head_named cur rest hasc
    have hcmp : compare_node_names client cur = some (strcmp x y) := by
      simp [compare_node_names, hname, hy]
    by_cases hlt : strcmp x y < 0
    · refine ⟨⟨password, stats, client :: cur :: rest⟩, [], cur :: rest, ?_, ?_, rfl, rfl,
        List.Perm.refl _, rfl, rfl⟩
      · simp [add_client, add_node, hcmp, hlt, init_node]
      · have : name_lt client cur = true := by simp [name_lt, hname, hy, hlt]
        simp [ascending_cons_cons, this, hasc]
    · have hne : x ≠ y := by
        intro hxy
        exact hfree cur (by simp) (by rw [hy, hxy])
      have hcur : name_lt cur client = true := by
        simp [name_lt, hname, hy, strcmp_lt_of_not_lt x y hne hlt]
      obtain ⟨l, before, after, hl, hlasc, -, hsplit, hleq⟩ :=
        add_node_loop_sorted client x hname cur rest hasc hcur
          (fun c hc => hfree c (by simp [hc]))
      refine ⟨⟨password, stats, l⟩, before, after, ?_, hlasc, hsplit, hleq, ?_, rfl, rfl⟩
      · simp [add_client, add_node, hcmp, hlt, init_node, hl]
      · simp only [hleq, hsplit]
        exact List.perm_middle

/-- C6, for `bob` joining the roster of `alice` and `carol`: he is put
between them. -/
theorem add_client_sorted_witness :
    add_client ⟨none, ⟨0, 0, 0, 0, 0, 0⟩,
        [⟨1, true, some "alice".toList, ⟨0, 0, 0⟩, [], []⟩,
         ⟨2, true, some "carol".toList, ⟨0, 0, 0⟩, [], []⟩]⟩
        ⟨3, true, some "bob".toList, ⟨0, 0, 0⟩, [], []⟩
      = some ⟨none, ⟨0, 0, 0, 0, 0, 0⟩,
        [⟨1, true, some "alice".toList, ⟨0, 0, 0⟩, [], []⟩,
         ⟨3, true, some "bob".toList, ⟨0, 0, 0⟩, [], []⟩,
         ⟨2, true, some "carol".toList, ⟨0, 0, 0⟩, [], []⟩]⟩ ∧
    ascending
        [⟨1, true, some "alice".toList, ⟨0, 0, 0⟩, [], []⟩,
         ⟨3, true, some "bob".toList, ⟨0, 0, 0⟩, [], []⟩,
         ⟨2, true, some "carol".toList, ⟨0, 0, 0⟩, [], []⟩] = true := by
  obtain ⟨added, before, after, hadd, hasc, -, -, -, -, -⟩ :=
    add_client_sorted ⟨none, ⟨0, 0, 0, 0, 0, 0⟩,
        [⟨1, true, some "alice".toList, ⟨0, 0, 0⟩, [], []⟩,
         ⟨2, true, some "carol".toList, ⟨0, 0, 0⟩, [], []⟩]⟩
      ⟨3, true, some "bob".toList, ⟨0, 0, 0⟩, [], []⟩ "bob".toList (by decide) rfl (by decide)
  have hval : add_client ⟨none, ⟨0, 0, 0, 0, 0, 0⟩,
        [⟨1, true, some "alice".toList, ⟨0, 0, 0⟩, [], []⟩,
         ⟨2, true, some "carol".toList, ⟨0, 0, 0⟩, [], []⟩]⟩
        ⟨3, true, some "bob".toList, ⟨0, 0, 0⟩, [], []⟩
      = some ⟨none, ⟨0, 0, 0, 0, 0, 0⟩,
        [⟨1, true, some "alice".toList, ⟨0, 0, 0⟩, [], []⟩,
         ⟨3, true, some "bob".toList, ⟨0, 0, 0⟩, [], []⟩,
         ⟨2, true, some "carol".toList, ⟨0, 0, 0⟩, [], []⟩]⟩ := by decide
  have heq := Option.some.inj (hadd.symm.trans hval)
  subst heq
  exact ⟨hval, hasc⟩

/-! ## Claim C5: no two peers of the roster share a name -/

/-- C5: in every roster reachable from the empty roster by joins
(`name_negotiate` and then `add_client`, one join at a time), by
`remove_client`, by changes of the counters and by changes that keep the
names of the peers, no two peers share a name;
and `name_negotiate` gives a joining client a name only when
`get_client_by_name` finds no peer of the roster with that name. -/
theorem roster_names_unique (clients : ClientList) (h : Reachable clients) :
    clients.head.Pairwise (fun a b => a.name ≠ b.name) ∧
    ∀ (client : ClientThread) (x : CString), client.name = none →
      (name_negotiate clients client).2.name = some x →
      get_client_by_name clients x = none ∧ ∀ c ∈ clients.head, c.name ≠ some x := by
  constructor
  · induction h with
    | empty clients h => rw [h]; exact List.Pairwise.nil
    | join clients client joined _ hnew hadd ih =>
      obtain ⟨hhead, -, hname⟩ :=
        name_negotiate_loop_name (client.readFrom.length + 1) clients client hnew
      obtain ⟨hperm, hunnamed⟩ := add_node_perm _ joined _ hadd
      have hsymm : ∀ a b : ClientNode, a.name ≠ b.name → b.name ≠ a.name :=
        fun _ _ hab hba => hab hba.symm
      refine (hperm.pairwise_iff (fun {a b} hab => hsymm a b hab)).mpr ?_
      change (name_negotiate clients client).1.head = clients.head at hhead
      rw [init_node, hhead]
      refine List.Pairwise.cons ?_ ih
      intro c hc
      rcases hname with hnone | ⟨x, hx, hfree⟩
      · have hnil := hunnamed hnone
        rw [hhead] at hnil
        rw [hnil] at hc
        simp at hc
      · change (name_negotiate clients client).2.name = some x at hx
        rw [hx]
        exact fun heq => (get_client_by_name_eq_none clients x).mp hfree c hc heq.symm
    | leave clients client _ ih =>
      exact ih.sublist (remove_client_loop_sublist client clients.head)
    | counters clients stats _ ih => exact ih
    | serve clients served _ hnames ih =>
      have h1 : (clients.head.map fun c => c.name).Pairwise (fun a b => a ≠ b) :=
        List.pairwise_map.mpr ih
      rw [← hnames] at h1
      exact List.pairwise_map.mp h1
  · intro client x hnew hx
    have hname : (name_negotiate clients client).2.name = none ∨
        ∃ y, (name_negotiate clients client).2.name = some y ∧
          get_client_by_name clients y = none :=
      (name_negotiate_loop_name (client.readFrom.length + 1) clients client hnew).2.2
    rcases hname with hnone | ⟨y, hy, hfree⟩
    · rw [hnone] at hx
      exact absurd hx (by simp)
    · rw [hy] at hx
      cases hx
      exact ⟨hfree, (get_client_by_name_eq_none clients _).mp hfree⟩

/-- C5, for the roster reached when `alice` joins the empty roster and then a
second peer asks for `alice` and, refused, for `alice0`. -/
theorem roster_names_unique_witness :
    Reachable ⟨none, ⟨0, 0, 0, 0, 3, 0⟩,
      [⟨1, true, some "alice".toList, ⟨0, 0, 0⟩, [], "WHO:\nOK:\n".toList⟩,
       ⟨2, true, some "alice0".toList, ⟨0, 0, 0⟩, [],
         "WHO:\nNAME_TAKEN:\nWHO:\nOK:\n".toList⟩]⟩ ∧
    List.Pairwise (fun a b : ClientThread => a.name ≠ b.name)
      [⟨1, true, some "alice".toList, ⟨0, 0, 0⟩, [], "WHO:\nOK:\n".toList⟩,
       ⟨2, true, some "alice0".toList, ⟨0, 0, 0⟩, [],
         "WHO:\nNAME_TAKEN:\nWHO:\nOK:\n".toList⟩] := by
  have h1 : Reachable ⟨none, ⟨0, 0, 0, 0, 1, 0⟩,
      [⟨1, true, some "alice".toList, ⟨0, 0, 0⟩, [], "WHO:\nOK:\n".toList⟩]⟩ :=
    Reachable.join ⟨none, ⟨0, 0, 0, 0, 0, 0⟩, []⟩ (init_client_thread 1 "NAME:alice\n".toList) _
      (Reachable.empty _ rfl) rfl (by decide)
  have h2 : Reachable ⟨none, ⟨0, 0, 0, 0, 3, 0⟩,
      [⟨1, true, some "alice".toList, ⟨0, 0, 0⟩, [], "WHO:\nOK:\n".toList⟩,
       ⟨2, true, some "alice0".toList, ⟨0, 0, 0⟩, [],
         "WHO:\nNAME_TAKEN:\nWHO:\nOK:\n".toList⟩]⟩ :=
    Reachable.join _ (init_client_thread 2 "NAME:alice\nNAME:alice0\n".toList) _ h1 rfl
      (by decide)
  exact ⟨h2, (roster_names_unique _ h2).1⟩

/-! ## A `NAME` reply in `name_negotiate` -/

/-- A `NAME` reply in `name_negotiate`, by its fields: the reply to `WHO:` is
a valid `NAME` command (`cmd_to_lines` returns the tag `NAME` and the fields
`args`). If the reply has a name that no roster peer holds, the global `NAME`
counter grows by exactly one, no other counter changes, the name is stored
unmodified as the name of the peer, `OK:` is sent, and the negotiation ends
with the peer as active as before. If the reply has a name that a roster peer
holds, the global `NAME` counter grows by exactly one, `NAME_TAKEN:` is sent,
the peer keeps its (absent) name and its active flag, and the negotiation goes
on from there, asking `WHO:` again. If the reply has no name (`NAME:`), the
function reads `cmdArgs->lines[1]` past the one field of the reply: the call
ends in the fault, with nothing counted and nothing sent after `WHO:`. -/
theorem name_negotiate_name_reply (clients : ClientList) (client : ClientThread)
    (reply : CString) (rest : List Char) (tag : CString) (args : LineList)
    (hread : read_file_line client.readFrom = (reply, false, rest))
    (hparse : cmd_to_lines reply SERVER = some (tag :: args))
    (htag : get_cmd_no (some tag) SERVER = some NAME) :
    (∀ x more, args = x :: more → get_client_by_name clients x = none →
      name_negotiate clients client =
        ⟨{ clients with stats := { clients.stats with name := clients.stats.name + 1 } },
         { client with
           name := some x, readFrom := rest,
           writeTo := client.writeTo ++ "WHO:\n".toList ++ "OK:\n".toList }, false⟩) ∧
    (∀ x more, args = x :: more → get_client_by_name clients x ≠ none →
      name_negotiate clients client =
        name_negotiate
          { clients with stats := { clients.stats with name := clients.stats.name + 1 } }
          { client with
            readFrom := rest,
            writeTo := client.writeTo ++ "WHO:\n".toList ++ "NAME_TAKEN:\n".toList } ∧
      ∃ later, (name_negotiate clients client).2.writeTo =
        client.writeTo ++ "WHO:\n".toList ++ "NAME_TAKEN:\n".toList ++ "WHO:\n".toList ++
          later) ∧
    (args = [] →
      name_negotiate clients client =
        ⟨clients,
         { client with readFrom := rest, writeTo := client.writeTo ++ "WHO:\n".toList },
         true⟩) := by
  have hline : read_client_line (send_client client "WHO:".toList) =
      (reply, false, { client with readFrom := rest, writeTo := client.writeTo ++ "WHO:\n".toList }) := by
    simp [read_client_line, send_client, hread]
  have hstep : name_negotiate clients client =
      match args with
      | name :: _ =>
        if get_client_by_name clients name = none then
          ⟨{ clients with stats := { clients.stats with name := clients.stats.name + 1 } },
           { client with
             name := some name, readFrom := rest,
             writeTo := client.writeTo ++ "WHO:\n".toList ++ "OK:\n".toList }, false⟩
        else
          name_negotiate
            { clients with stats := { clients.stats with name := clients.stats.name + 1 } }
            { client with
              readFrom := rest,
              writeTo := client.writeTo ++ "WHO:\n".toList ++ "NAME_TAKEN:\n".toList }
      | [] =>
        ⟨clients,
         { client with readFrom := rest, writeTo := client.writeTo ++ "WHO:\n".toList },
         true⟩ := by
    rw [name_negotiate_unfold, hline]
    simp only [Bool.false_eq_true, if_false, hparse, List.head?_cons, htag, if_true]
    cases args with
    | nil => rfl
    | cons name more =>
      simp only [get_client_by_name, send_client, set_client_name]
      split_ifs <;> simp
  refine ⟨?_, ?_, ?_⟩
  · intro x more hargs hfree
    subst hargs
    rw [hstep]
    simp [hfree]
  · intro x more hargs hheld
    have hgo : name_negotiate clients client =
        name_negotiate
          { clients with stats := { clients.stats with name := clients.stats.name + 1 } }
          { client with
            readFrom := rest,
            writeTo := client.writeTo ++ "WHO:\n".toList ++ "NAME_TAKEN:\n".toList } := by
      subst hargs
      rw [hstep]
      simp [hheld]
    refine ⟨hgo, ?_⟩
    obtain ⟨later, hlater⟩ := name_negotiate_asks_who
      { clients with stats := { clients.stats with name := clients.stats.name + 1 } }
      { client with
        readFrom := rest,
        writeTo := client.writeTo ++ "WHO:\n".toList ++ "NAME_TAKEN:\n".toList }
    exact ⟨later, by rw [hgo, hlater]⟩
  · intro hargs
    subst hargs
    rw [hstep]

/-- A peer answers `NAME:alice` while `alice` is in the roster: the `NAME`
counter goes from 1 to 2, `NAME_TAKEN:` is sent and the negotiation goes
on. -/
theorem name_negotiate_name_reply_witness :
    name_negotiate
        ⟨none, ⟨0, 0, 0, 0, 1, 0⟩, [⟨1, true, some "alice".toList, ⟨0, 0, 0⟩, [], []⟩]⟩
        ⟨2, true, none, ⟨0, 0, 0⟩, "NAME:alice\nNAME:al\n".toList, []⟩
      = name_negotiate
        ⟨none, ⟨0, 0, 0, 0, 2, 0⟩, [⟨1, true, some "alice".toList, ⟨0, 0, 0⟩, [], []⟩]⟩
        ⟨2, true, none, ⟨0, 0, 0⟩, "NAME:al\n".toList, "WHO:\nNAME_TAKEN:\n".toList⟩ :=
  ((name_negotiate_name_reply
      ⟨none, ⟨0, 0, 0, 0, 1, 0⟩, [⟨1, true, some "alice".toList, ⟨0, 0, 0⟩, [], []⟩]⟩
      ⟨2, true, none, ⟨0, 0, 0⟩, "NAME:alice\nNAME:al\n".toList, []⟩
      "NAME:alice".toList "NAME:al\n".toList "NAME".toList ["alice".toList]
      (by decide) (by decide) (by decide)).2.1
    "alice".toList [] rfl (by decide)).1

/-! ## Claims C9, C10: `authenticate_client` -/

/-- C9: when the roster has a password `pw`, `authenticate_client` writes
`AUTH:` once and reads exactly one line; if that line parses as the command
`AUTH` with the single field `pw`, `OK:` is written and the active flag is
left as it was, and on every other outcome (a line that does not parse,
another tag, no field, another password, end of stream) the peer is made
inactive and nothing more is written to it. The roster and the password do
not change. -/
theorem authenticate_client_password (clients : ClientList) (client : ClientThread)
    (pw : CString) (hpw : clients.password = some pw) :
    (authenticate_client clients client).2 =
      (if cmd_to_lines (read_file_line client.readFrom).1 SERVER = some ["AUTH".toList, pw] then
        { client with
          readFrom := (read_file_line client.readFrom).2.2,
          writeTo := client.writeTo ++ "AUTH:\n".toList ++ "OK:\n".toList }
      else
        { client with
          isActive := false, readFrom := (read_file_line client.readFrom).2.2,
          writeTo := client.writeTo ++ "AUTH:\n".toList }) ∧
    (authenticate_client clients client).1.head = clients.head ∧
    (authenticate_client clients client).1.password = clients.password := by
  obtain ⟨hyes, hno⟩ := authenticate_client_cases clients client pw hpw
  by_cases hex : ∃ f, cmd_to_lines (read_file_line client.readFrom).1 SERVER
      = some ["AUTH".toList, f]
  · obtain ⟨f, hf⟩ := hex
    rw [hyes f hf, hf]
    by_cases hpf : pw = f
    · subst hpf
      simp
    · have hne : ¬ f = pw := fun h => hpf h.symm
      simp [hpf, hne]
  · have hall : ∀ f, cmd_to_lines (read_file_line client.readFrom).1 SERVER
        ≠ some ["AUTH".toList, f] := fun f hf => hex ⟨f, hf⟩
    rw [hno hall, if_neg (hall pw)]
    exact ⟨rfl, rfl, rfl⟩

/-- C9, in scenario 1 of the specification: the password is `hunter2` and the
peer answers `AUTH:hunter2`. -/
theorem authenticate_client_password_witness :
    (authenticate_client ⟨some "hunter2".toList, ⟨0, 0, 0, 0, 0, 0⟩, []⟩
        ⟨1, true, none, ⟨0, 0, 0⟩, "AUTH:hunter2\nNAME:alice\n".toList, []⟩).2
      = ⟨1, true, none, ⟨0, 0, 0⟩, "NAME:alice\n".toList, "AUTH:\nOK:\n".toList⟩ :=
  (authenticate_client_password ⟨some "hunter2".toList, ⟨0, 0, 0, 0, 0, 0⟩, []⟩
    ⟨1, true, none, ⟨0, 0, 0⟩, "AUTH:hunter2\nNAME:alice\n".toList, []⟩
    "hunter2".toList rfl).1.trans (by decide)

/-- C10, as stated, fails: with the password `hunter2`, the reply
`AUTH:wrong` closes the peer and yet the global `AUTH` counter goes from 0
to 1. -/
theorem authenticate_client_counts_wrong_password :
    (authenticate_client ⟨some "hunter2".toList, ⟨0, 0, 0, 0, 0, 0⟩, []⟩
        ⟨1, true, none, ⟨0, 0, 0⟩, "AUTH:wrong\n".toList, []⟩).1.stats.auth = 1 ∧
    (authenticate_client ⟨some "hunter2".toList, ⟨0, 0, 0, 0, 0, 0⟩, []⟩
        ⟨1, true, none, ⟨0, 0, 0⟩, "AUTH:wrong\n".toList, []⟩).2.isActive = false := by
  decide

/-- C10 (amended): `authenticate_client` adds one to the global `AUTH` counter
exactly when a password is set and the reply parses as the command `AUTH` with
a field, whether or not the field equals the password; a reply `AUTH:P` with
`P` different from the password closes the peer and is counted all the same.
No other counter, and nothing else of the roster, changes. -/
theorem authenticate_client_auth_counter (clients : ClientList) (client : ClientThread) :
    (clients.password = none → (authenticate_client clients client).1 = clients) ∧
    (∀ pw, clients.password = some pw →
      (∀ f, cmd_to_lines (read_file_line client.readFrom).1 SERVER = some ["AUTH".toList, f] →
        (authenticate_client clients client).1 =
          { clients with stats := { clients.stats with auth := clients.stats.auth + 1 } } ∧
        (f ≠ pw → (authenticate_client clients client).2.isActive = false)) ∧
      ((∀ f, cmd_to_lines (read_file_line client.readFrom).1 SERVER
          ≠ some ["AUTH".toList, f]) →
        (authenticate_client clients client).1 = clients)) := by
  constructor
  · intro hnone
    simp [authenticate_client, hnone]
  · intro pw hpw
    obtain ⟨hyes, hno⟩ := authenticate_client_cases clients client pw hpw
    constructor
    · intro f hf
      rw [hyes f hf]
      refine ⟨rfl, fun hne => ?_⟩
      have : ¬ pw = f := fun h => hne h.symm
      simp [this]
    · intro hall
      rw [hno hall]

/-- C10 (amended), for the password `hunter2` and the reply `AUTH:wrong`. -/
theorem authenticate_client_auth_counter_witness :
    (authenticate_client ⟨some "hunter2".toList, ⟨0, 0, 0, 0, 0, 0⟩, []⟩
        ⟨1, true, none, ⟨0, 0, 0⟩, "AUTH:wrong\n".toList, []⟩).1
      = ⟨some "hunter2".toList, ⟨0, 0, 0, 1, 0, 0⟩, []⟩ :=
  (((authenticate_client_auth_counter ⟨some "hunter2".toList, ⟨0, 0, 0, 0, 0, 0⟩, []⟩
    ⟨1, true, none, ⟨0, 0, 0⟩, "AUTH:wrong\n".toList, []⟩).2 "hunter2".toList rfl).1
    "wrong".toList (by decide)).1

/-! ## Claim C7: a peer that ends name negotiation without a name -/

/-- C7: what `spawn_client_thread` does when name negotiation ends without a
name. With an empty roster and no password, for a peer that closes its
stream without a reply (and likewise for one that replies `LIST:`), the
unnamed, inactive peer is put into the roster by `add_client`, and the
process then faults on its `NULL` name, before any `ENTER` line is written.
With `alice` in the roster, the fault is in `add_client` itself. -/
theorem spawn_client_thread_unnamed_joins :
    spawn_client_thread false ⟨⟨none, ⟨0, 0, 0, 0, 0, 0⟩, []⟩, []⟩ 1 []
      = Outcome.fault
        ⟨⟨none, ⟨0, 0, 0, 0, 0, 0⟩,
          [⟨1, false, none, ⟨0, 0, 0⟩, [], "OK:\nWHO:\n".toList⟩]⟩, []⟩ ∧
    spawn_client_thread false ⟨⟨none, ⟨0, 0, 0, 0, 0, 0⟩, []⟩, []⟩ 1 "LIST:\n".toList
      = Outcome.fault
        ⟨⟨none, ⟨0, 0, 0, 0, 0, 0⟩,
          [⟨1, false, none, ⟨0, 0, 0⟩, [], "OK:\nWHO:\n".toList⟩]⟩, []⟩ ∧
    spawn_client_thread false
        ⟨⟨none, ⟨0, 0, 0, 0, 1, 0⟩, [⟨1, true, some "alice".toList, ⟨0, 0, 0⟩, [], []⟩]⟩, []⟩
        2 []
      = Outcome.fault
        ⟨⟨none, ⟨0, 0, 0, 0, 1, 0⟩, [⟨1, true, some "alice".toList, ⟨0, 0, 0⟩, [], []⟩]⟩, []⟩ := by
  decide

/-! ## Claim C11: authentication without a password -/

/-- C11: what `authenticate_client` does when the roster has no password: the
peer stays active, but `OK:` is written to it, so that the first line a peer
receives from `spawn_client_thread` is `OK:` and `WHO:` is the second. -/
theorem authenticate_client_no_password_writes_ok :
    authenticate_client ⟨none, ⟨0, 0, 0, 0, 0, 0⟩, []⟩ (init_client_thread 1 "NAME:alice\n".toList)
      = (⟨none, ⟨0, 0, 0, 0, 0, 0⟩, []⟩,
         ⟨1, true, none, ⟨0, 0, 0⟩, "NAME:alice\n".toList, "OK:\n".toList⟩) ∧
    spawn_client_thread false ⟨⟨none, ⟨0, 0, 0, 0, 0, 0⟩, []⟩, []⟩ 1 "NAME:alice\n".toList
      = Outcome.returned
        ⟨⟨none, ⟨0, 0, 0, 0, 1, 0⟩,
          [⟨1, true, some "alice".toList, ⟨0, 0, 0⟩, [],
            "OK:\nWHO:\nOK:\nENTER:alice\n".toList⟩]⟩,
         "(alice has entered the chat)\n".toList⟩ := by
  decide

/-! ## Claim C12: `KICK` -/

/-- The peer `get_client_by_name` finds after an assignment that keeps names
is the assigned value of the peer it found before. -/
theorem get_client_by_name_modify (clients : ClientList) (id : Nat)
    (f : ClientThread → ClientThread) (hf : ∀ d, (f d).name = d.name) (t : CString) :
    get_client_by_name (modify_client clients id f) t =
      (get_client_by_name clients t).map fun c => if c.id = id then f c else c := by
  obtain ⟨password, stats, head⟩ := clients
  simp only [get_client_by_name, modify_client]
  induction head with
  | nil => rfl
  | cons d rest ih =>
    simp only [List.map_cons, List.find?_cons]
    have hname : (if d.id = id then f d else d).name = d.name := by
      split_ifs
      · exact hf d
      · rfl
    rw [hname]
    cases hd : (match d.name with
      | some currentName => strcmp currentName t == 0
      | none => false) with
    | true => rfl
    | false => exact ih

/-- C12: for the serving peer at address `client` and every line `KICK:`
followed by a non-empty `t` without a colon, `handle_cmd` adds one to the
global `KICK` counter and to the `KICK` counter of the peer at `client`,
writes `KICK:` and a newline to the roster peer `get_client_by_name` finds
for `t` if there is one, and changes nothing else: no other counter (the
global `LEAVE` counter included), no membership, no name, no active flag, no
other stream, nothing on standard output. If no roster peer is named `t`
nothing is written to any peer. -/
theorem handle_cmd_kick (signedChar : Bool) (s : Server) (client : Nat) (t : CString)
    (ht : t ≠ []) (htc : ':' ∉ t) :
    handle_cmd signedChar s client ("KICK:".toList ++ t) = some
      { s with
        clients :=
          { password := s.clients.password,
            stats := { s.clients.stats with kick := s.clients.stats.kick + 1 },
            head := s.clients.head.map fun c =>
              { c with
                stats :=
                  if c.id = client then { c.stats with kick := c.stats.kick + 1 } else c.stats,
                writeTo :=
                  match get_client_by_name s.clients t with
                  | some target =>
                    if c.id = target.id then c.writeTo ++ "KICK:\n".toList else c.writeTo
                  | none => c.writeTo } } } := by
  have hparse : cmd_to_lines ("KICK:".toList ++ t) SERVER = some ["KICK".toList, t] :=
    cmd_to_lines_server_field "KICK".toList t 3 (by decide) rfl ht (fun _ => htc)
  have hno : get_cmd_no (some "KICK".toList) SERVER = some 3 := by decide
  have hfind := get_client_by_name_modify
    { s.clients with stats := { s.clients.stats with kick := s.clients.stats.kick + 1 } } client
    (fun c => { c with stats := { c.stats with kick := c.stats.kick + 1 } }) (fun _ => rfl) t
  have hsame : get_client_by_name
      { s.clients with stats := { s.clients.stats with kick := s.clients.stats.kick + 1 } } t
      = get_client_by_name s.clients t := rfl
  rw [hsame] at hfind
  simp only [handle_cmd, hparse, List.head?_cons, hno, AUTH, handlers, handle_kick, hfind,
    show (3 : Nat) > 1 from by decide, if_true]
  cases htarget : get_client_by_name s.clients t with
  | none =>
    simp only [Option.map_none', modify_client, Option.some.injEq]
    congr 2
    apply List.map_congr_left
    intro c _
    by_cases hc : c.id = client <;> simp [hc]
  | some target =>
    have hid : (if target.id = client then
        ({ target with stats := { target.stats with kick := target.stats.kick + 1 } } : ClientThread)
        else target).id = target.id := by
      split_ifs <;> rfl
    simp only [Option.map_some', modify_client, hid, List.map_map, Option.some.injEq]
    congr 2
    apply List.map_congr_left
    intro c _
    by_cases hc : c.id = client <;> by_cases hct : c.id = target.id
    · simp only [Function.comp_apply, if_pos hc, if_pos hct, send_client]
      simp [String.toList]
    · simp only [Function.comp_apply, if_pos hc, if_neg hct, send_client]
    · simp only [Function.comp_apply, if_neg hc, if_pos hct, send_client]
      simp [String.toList]
    · simp only [Function.comp_apply, if_neg hc, if_neg hct, send_client]

/-- C12, in scenario 4 of the specification: `alice` sends `KICK:bob`. -/
theorem handle_cmd_kick_witness :
    handle_cmd false
      { clients :=
          { password := none, stats := ⟨1, 0, 0, 2, 2, 0⟩,
            head := [⟨1, true, some "alice".toList, ⟨1, 0, 0⟩, [], []⟩,
                     ⟨2, true, some "bob".toList, ⟨0, 0, 0⟩, [], []⟩] },
        stdout := [] } 1 ("KICK:".toList ++ "bob".toList)
      = some
      { clients :=
          { password := none, stats := ⟨1, 1, 0, 2, 2, 0⟩,
            head := [⟨1, true, some "alice".toList, ⟨1, 1, 0⟩, [], []⟩,
                     ⟨2, true, some "bob".toList, ⟨0, 0, 0⟩, [], "KICK:\n".toList⟩] },
        stdout := [] } :=
  (handle_cmd_kick false _ 1 "bob".toList (by decide) (by decide)).trans (by decide)

/-! ## `LIST` -/

/-- `get_names` on a roster whose peers all have names. -/
theorem get_names_loop_of_names (l : List ClientNode) (names : List CString)
    (h : l.map (fun c => c.name) = names.map some) : get_names_loop l = some names := by
  induction l generalizing names with
  | nil =>
    cases names with
    | nil => rfl
    | cons n rest => simp at h
  | cons c l ih =>
    cases names with
    | nil => simp at h
    | cons n rest =>
      simp only [List.map_cons, List.cons.injEq] at h
      simp [get_names_loop, h.1, ih rest h.2]

/-- The loop of `handle_list` appends the printable names joined by commas. -/
theorem handle_list_loop_eq (signedChar : Bool) (names : LineList) (namesLine : CString) :
    handle_list_loop signedChar names namesLine =
      namesLine ++ [','].intercalate (names.map (get_printable signedChar)) := by
  induction names generalizing namesLine with
  | nil => simp [handle_list_loop, List.intercalate]
  | cons n rest ih =>
    cases rest with
    | nil => simp [handle_list_loop, add_to_string, List.intercalate]
    | cons m rest =>
      rw [handle_list_loop, ih]
      · simp [add_to_string, List.intercalate, String.toList, List.append_assoc]
      · simp

/-- The closed form of `handle_list`, in terms of `get_printable`. For every
roster whose peers have the names `names` (in roster order), `handle_list`
writes `LIST:` followed by `L` and a newline to every roster peer that is
active and named, prints `(current chatters: L)` and a newline to standard
output, where `L` is what `get_printable` makes of the names, in roster order,
joined by single commas (no comma before the first or after the last), adds
one to the global `LIST` counter and to the `LIST` counter of the peer at
address `client`, and changes nothing else. -/
theorem handle_list_broadcast (signedChar : Bool) (s : Server) (client : Nat)
    (cmdArgs : LineList) (names : List CString)
    (hnames : s.clients.head.map (fun c => c.name) = names.map some) :
    handle_list signedChar s client cmdArgs = some
      { clients :=
          { password := s.clients.password,
            stats := { s.clients.stats with list := s.clients.stats.list + 1 },
            head := s.clients.head.map fun c =>
              { c with
                stats := if c.id = client then { c.stats with list := c.stats.list + 1 } else c.stats,
                writeTo :=
                  if c.isActive && c.name.isSome then
                    c.writeTo ++ ("LIST:".toList ++
                      [','].intercalate (names.map (get_printable signedChar))) ++ ['\n']
                  else c.writeTo } },
        stdout := s.stdout ++ ("(current chatters: ".toList ++
          [','].intercalate (names.map (get_printable signedChar)) ++ ")\n".toList) } := by
  have hget : get_names (modify_client
      { s.clients with stats := { s.clients.stats with list := s.clients.stats.list + 1 } } client
      (fun c => { c with stats := { c.stats with list := c.stats.list + 1 } })) = some names := by
    apply get_names_loop_of_names
    rw [← hnames]
    simp only [modify_client, List.map_map]
    apply List.map_congr_left
    intro c _
    simp only [Function.comp_apply]
    split_ifs <;> rfl
  simp only [handle_list, hget]
  simp only [handle_list_loop_eq, List.nil_append, send_all_clients,
    modify_client, List.map_map, Option.some.injEq]
  congr 2
  apply List.map_congr_left
  intro c _
  by_cases hc : c.id = client <;> by_cases ha : (c.isActive && c.name.isSome) = true <;>
    simp [Function.comp, hc, ha]

/-- The list for `bob` asking in a roster of `alice` and `bob`. -/
theorem handle_list_broadcast_witness :
    handle_list false
      { clients :=
          { password := none, stats := ⟨0, 0, 0, 0, 2, 0⟩,
            head := [⟨1, true, some "alice".toList, ⟨0, 0, 0⟩, [], []⟩,
                     ⟨2, true, some "bob".toList, ⟨0, 0, 0⟩, [], []⟩] },
        stdout := [] } 2 ["LIST".toList]
      = some
      { clients :=
          { password := none, stats := ⟨0, 0, 1, 0, 2, 0⟩,
            head := [⟨1, true, some "alice".toList, ⟨0, 0, 0⟩, [], "LIST:alice,bob\n".toList⟩,
                     ⟨2, true, some "bob".toList, ⟨0, 0, 1⟩, [], "LIST:alice,bob\n".toList⟩] },
        stdout := "(current chatters: alice,bob)\n".toList } :=
  (handle_list_broadcast false
      { clients :=
          { password := none, stats := ⟨0, 0, 0, 0, 2, 0⟩,
            head := [⟨1, true, some "alice".toList, ⟨0, 0, 0⟩, [], []⟩,
                     ⟨2, true, some "bob".toList, ⟨0, 0, 0⟩, [], []⟩] },
        stdout := [] } 2 ["LIST".toList] ["alice".toList, "bob".toList] (by decide)).trans
    (by decide)

/-! ## Claim C14: `LEAVE` and a departure by end of stream -/

/-- The struct at an address after every struct of the roster was changed by
a function that keeps addresses. -/
theorem client_at_map (clients : ClientList) (g : ClientThread → ClientThread)
    (hg : ∀ d, (g d).id = d.id) (id : Nat) :
    client_at { clients with head := clients.head.map g } id = (client_at clients id).map g := by
  obtain ⟨password, stats, head⟩ := clients
  simp only [client_at]
  induction head with
  | nil => rfl
  | cons d rest ih =>
    simp only [List.map_cons, List.find?_cons, hg]
    cases hd : (d.id == id) with
    | true => rfl
    | false => exact ih

/-- The loop of `client_thread_handler` for an active client whose stream is
at its end: the client is disabled and nothing else changes. -/
theorem client_thread_handler_loop_eof (signedChar : Bool) (fuel : Nat) (s : Server)
    (client : Nat) (c : ClientThread) (hc : client_at s.clients client = some c)
    (hactive : c.isActive = true) (hread : c.readFrom = []) :
    client_thread_handler_loop signedChar (fuel + 2) s client = some
      { s with
        clients :=
          { s.clients with
            head := s.clients.head.map fun d =>
              if d.id = client then { d with isActive := false, readFrom := [] } else d } } := by
  have hmap : ∀ l : List ClientNode,
      (l.map fun d => if d.id = client then
          ({ d with readFrom := ([] : List Char) } : ClientThread) else d).map
        (fun d => if d.id = client then disable_client d else d)
      = l.map fun d => if d.id = client then { d with isActive := false, readFrom := [] } else d := by
    intro l
    rw [List.map_map]
    apply List.map_congr_left
    intro d _
    by_cases hd : d.id = client
    · simp only [Function.comp_apply, if_pos hd, disable_client]
    · simp only [Function.comp_apply, if_neg hd]
  have hline : read_client_line c = ([], true, { c with readFrom := [] }) := by
    simp [read_client_line, read_file_line, get_line, hread, c_str]
  have hat := client_at_map s.clients
    (fun d => if d.id = client then { d with isActive := false, readFrom := [] } else d)
    (fun d => by dsimp only; split_ifs <;> rfl) client
  rw [hc] at hat
  have hcid : c.id = client := by
    have := List.find?_some hc
    simpa using this
  simp only [Option.map_some', if_pos hcid] at hat
  rw [client_thread_handler_loop]
  simp only [hc, get_active_status, hactive, if_true, hline, modify_client, hmap]
  rw [client_thread_handler_loop]
  simp only [hat, get_active_status, Bool.false_eq_true, if_false]

/-- C14: `handle_cmd` on the line `LEAVE:` adds one to the global `LEAVE`
counter and makes the peer at address `client` inactive, and changes nothing
else: no counter of a peer, no other global counter, no stream, no name. When
instead the stream of an active peer is at its end, the loop of
`client_thread_handler` makes the peer inactive and changes no counter, and
`client_thread_handler` ends with all global counters, the `LEAVE` counter
included, as they were. -/
theorem handle_leave_counter (signedChar : Bool) (s : Server) (client : Nat) :
    handle_cmd signedChar s client "LEAVE:".toList = some
      { s with
        clients :=
          { password := s.clients.password,
            stats := { s.clients.stats with leave := s.clients.stats.leave + 1 },
            head := s.clients.head.map fun c =>
              if c.id = client then { c with isActive := false } else c } } ∧
    ∀ c : ClientThread, client_at s.clients client = some c → c.isActive = true →
      c.readFrom = [] →
      client_thread_handler_loop signedChar (c.readFrom.length + 2) s client = some
        { s with
          clients :=
            { s.clients with
              head := s.clients.head.map fun d =>
                if d.id = client then { d with isActive := false, readFrom := [] } else d } } ∧
      (client_thread_handler signedChar s client).map (fun r => r.clients.stats)
        = some s.clients.stats := by
  constructor
  · have hparse : cmd_to_lines "LEAVE:".toList SERVER = some ["LEAVE".toList] := by decide
    have hno : get_cmd_no (some "LEAVE".toList) SERVER = some 5 := by decide
    simp only [handle_cmd, hparse, List.head?_cons, hno, AUTH, handlers, handle_leave,
      show (5 : Nat) > 1 from by decide, if_true, modify_client, disable_client]
  · intro c hc hactive hread
    have hloop := client_thread_handler_loop_eof signedChar c.readFrom.length s client c hc
      hactive hread
    refine ⟨hloop, ?_⟩
    have hat := client_at_map s.clients
      (fun d => if d.id = client then { d with isActive := false, readFrom := [] } else d)
      (fun d => by dsimp only; split_ifs <;> rfl) client
    rw [hc] at hat
    simp only [client_thread_handler, hc, hloop, hat, Option.map_some']
    split <;> rfl

/-- C14, for `alice` whose stream ends while `bob` stays: the loop makes her
inactive, and the counters (here `LEAVE` 0) are as they were. -/
theorem handle_leave_counter_witness :
    client_thread_handler_loop false 2
      { clients :=
          { password := none, stats := ⟨0, 0, 0, 0, 2, 0⟩,
            head := [⟨1, true, some "alice".toList, ⟨0, 0, 0⟩, [], []⟩,
                     ⟨2, true, some "bob".toList, ⟨0, 0, 0⟩, [], []⟩] },
        stdout := [] } 1
      = some
      { clients :=
          { password := none, stats := ⟨0, 0, 0, 0, 2, 0⟩,
            head := [⟨1, false, some "alice".toList, ⟨0, 0, 0⟩, [], []⟩,
                     ⟨2, true, some "bob".toList, ⟨0, 0, 0⟩, [], []⟩] },
        stdout := [] } ∧
    (client_thread_handler false
      { clients :=
          { password := none, stats := ⟨0, 0, 0, 0, 2, 0⟩,
            head := [⟨1, true, some "alice".toList, ⟨0, 0, 0⟩, [], []⟩,
                     ⟨2, true, some "bob".toList, ⟨0, 0, 0⟩, [], []⟩] },
        stdout := [] } 1).map (fun r => r.clients.stats) = some ⟨0, 0, 0, 0, 2, 0⟩ :=
  (handle_leave_counter false
      { clients :=
          { password := none, stats := ⟨0, 0, 0, 0, 2, 0⟩,
            head := [⟨1, true, some "alice".toList, ⟨0, 0, 0⟩, [], []⟩,
                     ⟨2, true, some "bob".toList, ⟨0, 0, 0⟩, [], []⟩] },
        stdout := [] } 1).2
    ⟨1, true, some "alice".toList, ⟨0, 0, 0⟩, [], []⟩ (by decide) rfl rfl

/-! ## Claim C15: `send_all_clients` -/

/-- C15: for every roster and line, `send_all_clients` keeps the password,
the counters and the number and order of the roster peers, and the peer at
each place of the roster is the peer that was there with the line and exactly
one newline appended to what was written to it if it is active and has a
name, and unchanged if it is inactive or has no name; no name, active flag,
counter or stream to read changes. So a peer that has just been disabled is
written nothing by the broadcast, and an active, named peer that has just
been added by `add_client` is written the line. -/
theorem send_all_clients_recipients (clients : ClientList) (line : CString) :
    (send_all_clients clients line).password = clients.password ∧
    (send_all_clients clients line).stats = clients.stats ∧
    (send_all_clients clients line).head.length = clients.head.length ∧
    (∀ (i : Nat) (c : ClientThread), clients.head[i]? = some c →
      (send_all_clients clients line).head[i]? = some
        (if c.isActive = true ∧ c.name ≠ none then
          { c with writeTo := c.writeTo ++ line ++ "\n".toList }
        else c)) ∧
    (∀ id : Nat,
      (send_all_clients (modify_client clients id disable_client) line).head.filter
          (fun c => c.id == id)
        = (clients.head.filter (fun c => c.id == id)).map disable_client) ∧
    (∀ (c : ClientThread) (added : ClientList), add_client clients c = some added →
      c.isActive = true → c.name ≠ none →
      { c with writeTo := c.writeTo ++ line ++ "\n".toList } ∈
        (send_all_clients added line).head) := by
  refine ⟨rfl, rfl, by simp [send_all_clients], ?_, ?_, ?_⟩
  · intro i c hc
    simp only [send_all_clients, List.getElem?_map, hc, Option.map_some', Option.some.injEq]
    cases hname : c.name <;> cases hact : c.isActive <;> simp [String.toList]
  · intro id
    obtain ⟨password, stats, head⟩ := clients
    simp only [send_all_clients, modify_client, List.map_map]
    induction head with
    | nil => rfl
    | cons d rest ih =>
      by_cases hd : d.id = id
      · have hb : (d.id == id) = true := by simp [hd]
        have hb1 : ((disable_client d).id == id) = true := hb
        have hdis : (if ((disable_client d).isActive && (disable_client d).name.isSome) = true then
            ({ disable_client d with
              writeTo := (disable_client d).writeTo ++ line ++ ['\n'] } : ClientThread)
            else disable_client d) = disable_client d := by
          simp [disable_client]
        simp only [List.map_cons, Function.comp_apply, if_pos hd, hdis, List.filter_cons, hb,
          hb1, if_true, ih]
      · have hb : (d.id == id) = false := by simp [hd]
        have hb2 : ((if (d.isActive && d.name.isSome) = true then
            ({ d with writeTo := d.writeTo ++ line ++ ['\n'] } : ClientThread) else d).id == id)
            = false := by
          split_ifs <;> exact hb
        simp only [List.map_cons, Function.comp_apply, if_neg hd, List.filter_cons, hb, hb2,
          Bool.false_eq_true, if_false, ih]
  · intro c added hadd hact hname
    have hperm := (add_node_perm clients added (init_node c) hadd).1
    have hmem : c ∈ added.head := hperm.symm.subset (by simp [init_node])
    have hsome : c.name.isSome = true := by
      cases hn : c.name with
      | none => exact absurd hn hname
      | some _ => rfl
    have hcond : (c.isActive && c.name.isSome) = true := by rw [hact, hsome]; rfl
    have himg : (if (c.isActive && c.name.isSome) = true then
        ({ c with writeTo := c.writeTo ++ line ++ ['\n'] } : ClientThread) else c) ∈
        added.head.map (fun client : ClientThread =>
          if (client.isActive && client.name.isSome) = true then
            ({ client with writeTo := client.writeTo ++ line ++ ['\n'] } : ClientThread)
          else client) :=
      List.mem_map_of_mem _ hmem
    rw [if_pos hcond] at himg
    exact himg

/-- C15, for the line `LEAVE:bob` in a roster where `bob` has just been
disabled: `alice` is written the line and `bob` is not. -/
theorem send_all_clients_recipients_witness :
    (send_all_clients
      ⟨none, ⟨0, 0, 0, 0, 2, 0⟩,
        [⟨1, true, some "alice".toList, ⟨0, 0, 0⟩, [], []⟩,
         ⟨2, false, some "bob".toList, ⟨0, 0, 0⟩, [], []⟩]⟩ "LEAVE:bob".toList).head[0]?
      = some ⟨1, true, some "alice".toList, ⟨0, 0, 0⟩, [], "LEAVE:bob\n".toList⟩ ∧
    (send_all_clients
      ⟨none, ⟨0, 0, 0, 0, 2, 0⟩,
        [⟨1, true, some "alice".toList, ⟨0, 0, 0⟩, [], []⟩,
         ⟨2, false, some "bob".toList, ⟨0, 0, 0⟩, [], []⟩]⟩ "LEAVE:bob".toList).head[1]?
      = some ⟨2, false, some "bob".toList, ⟨0, 0, 0⟩, [], []⟩ :=
  ⟨((send_all_clients_recipients
      ⟨none, ⟨0, 0, 0, 0, 2, 0⟩,
        [⟨1, true, some "alice".toList, ⟨0, 0, 0⟩, [], []⟩,
         ⟨2, false, some "bob".toList, ⟨0, 0, 0⟩, [], []⟩]⟩ "LEAVE:bob".toList).2.2.2.1 0
      ⟨1, true, some "alice".toList, ⟨0, 0, 0⟩, [], []⟩ rfl).trans (by decide),
   ((send_all_clients_recipients
      ⟨none, ⟨0, 0, 0, 0, 2, 0⟩,
        [⟨1, true, some "alice".toList, ⟨0, 0, 0⟩, [], []⟩,
         ⟨2, false, some "bob".toList, ⟨0, 0, 0⟩, [], []⟩]⟩ "LEAVE:bob".toList).2.2.2.1 1
      ⟨2, false, some "bob".toList, ⟨0, 0, 0⟩, [], []⟩ rfl).trans (by decide)⟩

/-! ## Claim C16: a `SAY` without a payload -/

/-- A `MSG` line with a name and no colon after it is not a valid command for
the client: it has fewer fields than `MSG` can have and does not end in a
colon. -/
theorem cmd_to_lines_client_msg_bare (n : CString) (hn : n ≠ []) (hnc : ':' ∉ n) :
    cmd_to_lines ("MSG".toList ++ ':' :: n) CLIENT = none := by
  have htok := strtok_r_token_colon "MSG".toList n (by decide) (by decide)
  have htok2 := strtok_r_token_end n hn hnc
  have hrest : strtok_r [] [] = (none, ([] : CString)) := rfl
  have hno : get_cmd_no (some "MSG".toList) CLIENT = some 6 := by decide
  have hmax : maxCmdLengths CLIENT 6 = 3 := rfl
  have hlast : ¬ (':' :: n).getLast? = some ':' := by
    intro h
    cases n with
    | nil => exact hn rfl
    | cons x t =>
      rw [List.getLast?_cons_cons] at h
      exact hnc (List.mem_of_getLast?_eq_some h)
  have hargs : get_cmd_args ("MSG".toList ++ ':' :: n) CLIENT = (["MSG".toList, n], true) := by
    simp only [get_cmd_args, htok, hno, hmax]
    simp [get_cmd_args_loop, htok2, hrest, hlast]
  have hlen : ¬ ("MSG".toList ++ ':' :: n).length < 1 := by simp
  simp only [cmd_to_lines, hlen, hargs, if_false, List.length_cons, List.length_singleton,
    List.head?_cons, hno]
  simp [MSG]

/-- C16: what the code does for a `SAY` without a payload. `alice` sends
`SAY:`: the server broadcasts exactly `MSG:alice` (to `alice` and `bob`) and
prints `alice:`. Given the line `MSG:alice`, `cmd_to_lines` of the client
returns `NULL`, so the client's `handle_cmd` prints nothing and leaves the
client as it was. -/
theorem handle_cmd_say_without_payload_dropped :
    handle_cmd false
      { clients :=
          { password := none, stats := ⟨0, 0, 0, 0, 2, 0⟩,
            head := [⟨1, true, some "alice".toList, ⟨0, 0, 0⟩, [], []⟩,
                     ⟨2, true, some "bob".toList, ⟨0, 0, 0⟩, [], []⟩] },
        stdout := [] } 1 "SAY:".toList
      = some
      { clients :=
          { password := none, stats := ⟨1, 0, 0, 0, 2, 0⟩,
            head := [⟨1, true, some "alice".toList, ⟨1, 0, 0⟩, [], "MSG:alice\n".toList⟩,
                     ⟨2, true, some "bob".toList, ⟨0, 0, 0⟩, [], "MSG:alice\n".toList⟩] },
        stdout := "alice:\n".toList } ∧
    cmd_to_lines "MSG:alice".toList CLIENT = none ∧
    Client.handle_cmd ⟨⟨true, true, "bob".toList, none, -1, -1, [], []⟩, []⟩ "MSG:alice".toList
      = some ⟨⟨true, true, "bob".toList, none, -1, -1, [], []⟩, []⟩ := by
  decide

/-! ## Claim C17: `get_printable` -/

/-- `get_printable` keeps the length of the string. -/
theorem get_printable_length (signedChar : Bool) (line : CString) :
    (get_printable signedChar line).length = line.length := by
  simp [get_printable]

/-- Where plain `char` is unsigned, and for the bytes below 128 everywhere,
`get_printable` replaces exactly the bytes below 32. -/
theorem get_printable_of_small (signedChar : Bool) (line : CString)
    (h : signedChar = false ∨ ∀ c ∈ line, c.toNat < 128) :
    get_printable signedChar line = line.map fun c => if c.toNat < 32 then '?' else c := by
  unfold get_printable
  apply List.map_congr_left
  intro c hc
  have hint : char_to_int signedChar c = (c.toNat : Int) := by
    unfold char_to_int
    rcases h with h | h
    · simp [h]
    · have := h c hc
      have hnot : ¬ 128 ≤ c.toNat := by omega
      simp [hnot]
  rw [hint]
  simp only [MIN_PRINTABLE]
  by_cases hlt : c.toNat < 32
  · have : (c.toNat : Int) < 32 := by exact_mod_cast hlt
    simp [hlt, this]
  · have : ¬ (c.toNat : Int) < 32 := by
      intro h32
      exact hlt (by exact_mod_cast h32)
    simp [hlt, this]

/-- C17: what `get_printable` does where plain `char` is signed: the byte
233 (and so every byte from 128 to 255, which is a negative `char`) is
replaced by a question mark, although its value is not below 32; the bytes
127 and 32 are kept and the byte 31 is replaced. -/
theorem get_printable_signed_high_byte :
    (Char.ofNat 233).toNat = 233 ∧
    get_printable true [Char.ofNat 233] = ['?'] ∧
    get_printable true [Char.ofNat 128, Char.ofNat 255, Char.ofNat 127, ' ', Char.ofNat 31]
      = ['?', '?', Char.ofNat 127, ' ', '?'] ∧
    get_printable false [Char.ofNat 233] = [Char.ofNat 233] := by
  decide

/-! ## Claim C19: reading a line -/

/-- The loop of `get_line`: the bytes before the first newline, whether
there is no newline, and the bytes after the first newline. -/
theorem get_line_loop_eq (c : Char) (doc : List Char) :
    get_line_loop c doc =
      ((c :: doc).takeWhile (fun d => d != '\n'), !(c :: doc).contains '\n',
        ((c :: doc).dropWhile (fun d => d != '\n')).tail) := by
  induction doc generalizing c with
  | nil =>
    unfold get_line_loop
    by_cases hc : c = '\n'
    · subst hc; rfl
    · have hne : (c != '\n') = true := by simp [hc]
      have hne2 : ('\n' == c) = false := by simp [Ne.symm hc]
      rw [if_neg hc]
      simp only [List.takeWhile_cons, List.dropWhile_cons, hne, if_true, List.takeWhile_nil,
        List.dropWhile_nil, List.contains_cons, hne2, Bool.false_or, List.tail_nil,
        List.contains_nil, Bool.not_false]
  | cons d doc ih =>
    unfold get_line_loop
    by_cases hc : c = '\n'
    · subst hc
      simp [List.takeWhile, List.dropWhile]
    · have hne : (c != '\n') = true := by simp [hc]
      have hne2 : ('\n' == c) = false := by simp [Ne.symm hc]
      rw [if_neg hc]
      simp only [ih d]
      have h1 : (c :: d :: doc).takeWhile (fun d => d != '\n')
          = c :: (d :: doc).takeWhile (fun d => d != '\n') := by
        rw [List.takeWhile_cons, if_pos hne]
      have h2 : (c :: d :: doc).dropWhile (fun d => d != '\n')
          = (d :: doc).dropWhile (fun d => d != '\n') := by
        rw [List.dropWhile_cons, if_pos hne]
      have h3 : (c :: d :: doc).contains '\n' = (d :: doc).contains '\n' := by
        rw [List.contains_cons, hne2, Bool.false_or]
      rw [h1, h2, h3]

/-- A buffer without a NUL holds the C string of all its bytes. -/
theorem c_str_of_no_nul (buf : List Char) (h : Char.ofNat 0 ∉ buf) : c_str buf = buf := by
  unfold c_str
  apply takeWhile_all
  intro x hx
  have : x ≠ Char.ofNat 0 := fun hx0 => h (hx0 ▸ hx)
  simp [this]

/-- One read of a stream that begins with a line without a newline or NUL,
followed by a newline. -/
theorem read_file_line_of_line (l rest : List Char) (hnl : '\n' ∉ l) (hnul : Char.ofNat 0 ∉ l) :
    read_file_line (l ++ '\n' :: rest) = (l, false, rest) := by
  have hall : ∀ x ∈ l, (fun d : Char => d != '\n') x = true := by
    intro x hx
    have : x ≠ '\n' := fun h => hnl (h ▸ hx)
    simp [this]
  have htake := takeWhile_append_stop (fun d => d != '\n') l '\n' rest hall (by simp)
  have hdrop := dropWhile_append_stop (fun d => d != '\n') l '\n' rest hall (by simp)
  cases l with
  | nil =>
    simp only [List.nil_append, read_file_line, get_line, get_line_loop_eq]
    simp [c_str]
  | cons c l =>
    simp only [List.cons_append] at htake hdrop
    simp only [read_file_line, get_line, List.cons_append, get_line_loop_eq, htake, hdrop,
      List.tail_cons, c_str_of_no_nul _ hnul]

/-- C19: `get_line` returns the bytes before the first newline of the stream
and leaves the stream just past that newline, or returns all the bytes left
when there is no newline (`isLastLine`); the flag `isLineEmpty` is set
exactly when the stream is at its end before any byte is read. So a final
line without a newline, if it is not empty (and has no NUL), is returned by
`read_file_line` with the flag unset, and the read after it returns the empty
line with the flag set. And for lines without newline or NUL, each followed
by a newline, as many reads as there are lines return the lines in order with
the flag unset, and leave what follows them in the stream. -/
theorem read_file_line_lines :
    (∀ doc : List Char,
      get_line doc = (doc.takeWhile (fun d => d != '\n'), !doc.contains '\n', doc.isEmpty,
        (doc.dropWhile (fun d => d != '\n')).tail)) ∧
    (∀ l : List Char, l ≠ [] → '\n' ∉ l → Char.ofNat 0 ∉ l →
      read_file_line l = (l, false, []) ∧ read_file_line [] = ([], true, [])) ∧
    (∀ (lines : List CString) (rest : List Char),
      (∀ l ∈ lines, '\n' ∉ l ∧ Char.ofNat 0 ∉ l) →
      read_file_lines lines.length ((lines.flatMap fun l => l ++ "\n".toList) ++ rest)
        = (lines.map (fun l => (l, false)), rest)) := by
  refine ⟨?_, ?_, ?_⟩
  · intro doc
    cases doc with
    | nil => rfl
    | cons c doc => simp only [get_line, get_line_loop_eq, List.isEmpty_cons]
  · intro l hl hnl hnul
    refine ⟨?_, rfl⟩
    have hall : ∀ x ∈ l, (fun d : Char => d != '\n') x = true := by
      intro x hx
      have : x ≠ '\n' := fun h => hnl (h ▸ hx)
      simp [this]
    cases l with
    | nil => exact absurd rfl hl
    | cons c l =>
      have hcontains : (c :: l).contains '\n' = false := by
        cases hcn : (c :: l).contains '\n' with
        | false => rfl
        | true => exact absurd (List.mem_of_elem_eq_true hcn) hnl
      simp only [read_file_line, get_line, get_line_loop_eq, takeWhile_all _ _ hall,
        dropWhile_all _ _ hall, c_str_of_no_nul _ hnul, hcontains, List.tail_nil, Bool.not_false]
  · intro lines rest hlines
    induction lines with
    | nil => rfl
    | cons l lines ih =>
      have hl := hlines l (by simp)
      have ih1 := ih (fun x hx => hlines x (by simp [hx]))
      have hread := read_file_line_of_line l
        ((lines.flatMap fun l => l ++ "\n".toList) ++ rest) hl.1 hl.2
      have hstream : ((l :: lines).flatMap fun l => l ++ "\n".toList) ++ rest
          = l ++ '\n' :: ((lines.flatMap fun l => l ++ "\n".toList) ++ rest) := by
        simp [List.flatMap_cons, String.toList, List.append_assoc]
      rw [hstream]
      simp only [List.length_cons, read_file_lines, hread, ih1, List.map_cons]

/-- C19, for the two lines `NAME:bob` and `SAY:hi`, and for the final line
`bye` without a newline. -/
theorem read_file_line_lines_witness :
    read_file_lines 2 "NAME:bob\nSAY:hi\n".toList
      = (["NAME:bob".toList, "SAY:hi".toList].map (fun l => (l, false)), []) ∧
    read_file_line "bye".toList = ("bye".toList, false, []) ∧
    read_file_line [] = ([], true, []) :=
  ⟨(read_file_line_lines.2.2 ["NAME:bob".toList, "SAY:hi".toList] [] (by decide)),
   (read_file_line_lines.2.1 "bye".toList (by decide) (by decide) (by decide))⟩

/-! ## Claim C20: parsing the joined fields again -/

/-- The index `findIdx?` returns holds an element that passes the test. -/
theorem findIdx?_some_getElem? {α : Type} (p : α → Bool) (l : List α) (i k : Nat)
    (h : l.findIdx? p i = some k) : i ≤ k ∧ ∃ x, l[k - i]? = some x ∧ p x = true := by
  induction l generalizing i with
  | nil => simp at h
  | cons a l ih =>
    rw [List.findIdx?_cons] at h
    by_cases ha : p a = true
    · simp only [ha, if_true, Option.some.injEq] at h
      subst h
      exact ⟨Nat.le_refl _, a, by simp, ha⟩
    · simp only [ha, Bool.false_eq_true, if_false] at h
      obtain ⟨hle, x, hx, hpx⟩ := ih (i + 1) h
      refine ⟨by omega, x, ?_, hpx⟩
      have hk : k - i = (k - (i + 1)) + 1 := by omega
      rw [hk, List.getElem?_cons_succ]
      exact hx

/-- A word with a command number is the word of the table at that number. -/
theorem get_cmd_no_lookup (sentTo : CmdSentTo) (w : CString) (k : Nat)
    (h : get_cmd_no (some w) sentTo = some k) :
    (cmdWords sentTo)[k]? = some w ∧ k < cmdCount sentTo := by
  unfold get_cmd_no at h
  simp only at h
  split_ifs at h with h0
  obtain ⟨-, x, hx, hpx⟩ := findIdx?_some_getElem? _ _ 0 _ h
  rw [Nat.sub_zero] at hx
  have hwx : w = x := (strcmp_eq_zero_iff w x).mp (by simpa using hpx)
  subst hwx
  have htake : (cmdWords sentTo).take (cmdCount sentTo) = cmdWords sentTo := by
    cases sentTo <;> rfl
  rw [htake] at hx
  refine ⟨hx, ?_⟩
  have hlt := (List.getElem?_eq_some_iff.mp hx).1
  have hlen : (cmdWords sentTo).length = cmdCount sentTo := by cases sentTo <;> rfl
  omega

/-- A word with a command number, for either role: it is not empty, has no
colon, and its number is below the number of commands. -/
theorem get_cmd_no_word (sentTo : CmdSentTo) (w : CString) (k : Nat)
    (h : get_cmd_no (some w) sentTo = some k) : w ≠ [] ∧ ':' ∉ w ∧ k < cmdCount sentTo := by
  obtain ⟨hx, hk⟩ := get_cmd_no_lookup sentTo w k h
  cases sentTo with
  | SERVER =>
    simp only [cmdCount] at hk
    interval_cases k <;>
      (simp only [cmdWords, serverCmdWords, List.getElem?_cons_zero, List.getElem?_cons_succ,
        Option.some.injEq] at hx; subst hx; decide)
  | CLIENT =>
    simp only [cmdCount] at hk
    interval_cases k <;>
      (simp only [cmdWords, clientCmdWords, List.getElem?_cons_zero, List.getElem?_cons_succ,
        Option.some.injEq] at hx; subst hx; decide)

/-- The greatest number of entries of a command is 1, 2 or 3, and it is 3 for
`MSG` only. -/
theorem maxCmdLengths_cases (sentTo : CmdSentTo) (k : Nat) (hk : k < cmdCount sentTo) :
    maxCmdLengths sentTo k = 1 ∨ maxCmdLengths sentTo k = 2 ∨
      (maxCmdLengths sentTo k = 3 ∧ sentTo = CLIENT ∧ k = MSG) := by
  cases sentTo with
  | SERVER =>
    simp only [cmdCount] at hk
    interval_cases k <;> decide
  | CLIENT =>
    simp only [cmdCount] at hk
    interval_cases k <;> decide

/-- A token of `strtok_r` is not empty and holds no delimiter. -/
theorem strtok_r_token_props (s : CString) (n ref : CString)
    (h : strtok_r s [':'] = (some n, ref)) : n ≠ [] ∧ ':' ∉ n := by
  unfold strtok_r at h
  split at h
  · simp at h
  · rename_i c s1 hdrop
    have hc : c ≠ ':' := by
      intro hc
      have hmem := List.head_dropWhile_not (fun c => decide (c ∈ [':'])) s
      simp only [hdrop] at hmem
      have := hmem (by simp)
      simp [hc] at this
    have hn : n = (c :: s1).takeWhile (fun d => !decide (d ∈ [':'])) := by
      split at h <;> simp only [Prod.mk.injEq, Option.some.injEq] at h <;> exact h.1.symm
    constructor
    · rw [hn, List.takeWhile_cons]
      simp [hc]
    · intro hmem
      rw [hn] at hmem
      have := List.mem_takeWhile_imp hmem
      simp at this

/-- When `strtok_r` finds no token it leaves nothing to read. -/
theorem strtok_r_none (s : CString) (delim : List Char) (h : (strtok_r s delim).1 = none) :
    (strtok_r s delim).2 = [] := by
  unfold strtok_r at h ⊢
  split
  · rfl
  · rename_i c s1 hdrop
    simp only [hdrop] at h
    split at h <;> simp at h

/-- The entries `get_cmd_args` returns, for either role: nothing, or the
command word alone, or the word and the rest of the line, or (for `MSG`) the
word, a name, and perhaps the rest of the line. -/
theorem get_cmd_args_shape (cmd : CString) (sentTo : CmdSentTo) :
    (get_cmd_args cmd sentTo).1 = [] ∨
    ∃ t k lines, get_cmd_no (some t) sentTo = some k ∧
      get_cmd_args cmd sentTo =
        (lines, decide (lines.length < maxCmdLengths sentTo k) && (cmd.getLast? != some ':')) ∧
      (lines = [t] ∨
       (∃ r, lines = [t, r] ∧ r ≠ [] ∧ maxCmdLengths sentTo k ≤ 2) ∨
       (∃ n, lines = [t, n] ∧ n ≠ [] ∧ ':' ∉ n ∧ maxCmdLengths sentTo k = 3) ∨
       (∃ n p, lines = [t, n, p] ∧ n ≠ [] ∧ ':' ∉ n ∧ p ≠ [] ∧
         maxCmdLengths sentTo k = 3)) := by
  cases hno : get_cmd_no (strtok_r cmd [':']).1 sentTo with
  | none => left; simp [get_cmd_args, hno]
  | some k =>
    right
    cases htok : (strtok_r cmd [':']).1 with
    | none => rw [htok] at hno; simp [get_cmd_no] at hno
    | some t =>
      have hno1 := hno
      rw [htok] at hno1
      have hk := (get_cmd_no_word sentTo t k hno1).2.2
      have hrest : ∀ ref : CString, (strtok_r ref []).1 = if ref = [] then none else some ref := by
        intro ref
        rw [strtok_r_no_delim]
      have hsmall : maxCmdLengths sentTo k ≤ 2 →
          ∃ lines, get_cmd_args cmd sentTo =
            (lines, decide (lines.length < maxCmdLengths sentTo k) && (cmd.getLast? != some ':')) ∧
            (lines = [t] ∨ ∃ r, lines = [t, r] ∧ r ≠ [] ∧ maxCmdLengths sentTo k ≤ 2) := by
        intro hmax
        have hloop : get_cmd_args_loop (maxCmdLengths sentTo k - 1) (some t)
            (strtok_r cmd [':']).2 [] = ([t], some t, (strtok_r cmd [':']).2) := by
          have h01 : maxCmdLengths sentTo k - 1 = 0 ∨ maxCmdLengths sentTo k - 1 = 1 := by omega
          rcases h01 with h0 | h1
          · rw [h0]; rfl
          · rw [h1]; rfl
        by_cases href : (strtok_r cmd [':']).2 = []
        · refine ⟨[t], ?_, Or.inl rfl⟩
          simp only [get_cmd_args, htok, hno1, hloop]
          simp [hrest, href]
        · refine ⟨[t, (strtok_r cmd [':']).2], ?_, Or.inr ⟨_, rfl, href, hmax⟩⟩
          simp only [get_cmd_args, htok, hno1, hloop]
          simp [hrest, href]
      rcases maxCmdLengths_cases sentTo k hk with h1 | h2 | ⟨h3, -, -⟩
      · obtain ⟨lines, hargs, hshape⟩ := hsmall (by omega)
        refine ⟨t, k, lines, hno1, hargs, ?_⟩
        rcases hshape with h | h
        · exact Or.inl h
        · exact Or.inr (Or.inl h)
      · obtain ⟨lines, hargs, hshape⟩ := hsmall (by omega)
        refine ⟨t, k, lines, hno1, hargs, ?_⟩
        rcases hshape with h | h
        · exact Or.inl h
        · exact Or.inr (Or.inl h)
      · have hloop : get_cmd_args_loop (maxCmdLengths sentTo k - 1) (some t)
            (strtok_r cmd [':']).2 [] =
            get_cmd_args_loop 1 (strtok_r (strtok_r cmd [':']).2 [':']).1
              (strtok_r (strtok_r cmd [':']).2 [':']).2 [t] := by
          rw [h3]; rfl
        cases htok2 : (strtok_r (strtok_r cmd [':']).2 [':']).1 with
        | none =>
          have href2 := strtok_r_none _ _ htok2
          refine ⟨t, k, [t], hno1, ?_, Or.inl rfl⟩
          simp only [get_cmd_args, htok, hno1, hloop, htok2, get_cmd_args_loop]
          simp [hrest, href2]
        | some n =>
          have hprops := strtok_r_token_props (strtok_r cmd [':']).2 n
            (strtok_r (strtok_r cmd [':']).2 [':']).2 (by rw [← htok2])
          by_cases href : (strtok_r (strtok_r cmd [':']).2 [':']).2 = []
          · refine ⟨t, k, [t, n], hno1, ?_, Or.inr (Or.inr (Or.inl ⟨n, rfl, hprops.1, hprops.2, h3⟩))⟩
            simp only [get_cmd_args, htok, hno1, hloop, htok2, get_cmd_args_loop]
            simp [hrest, href]
          · refine ⟨t, k, [t, n, (strtok_r (strtok_r cmd [':']).2 [':']).2], hno1, ?_,
              Or.inr (Or.inr (Or.inr ⟨n, _, rfl, hprops.1, hprops.2, href, h3⟩))⟩
            simp only [get_cmd_args, htok, hno1, hloop, htok2, get_cmd_args_loop]
            simp [hrest, href]

/-- `cmd_to_lines` in terms of what `get_cmd_args` returned: the entries are
accepted exactly when the flag is unset, there are at least the least number
of entries and, for a command other than `SAY` to the server and `MSG` to the
client, the last entry has no colon and there are at most the greatest number
of entries. -/
theorem cmd_to_lines_of_args (cmd : CString) (sentTo : CmdSentTo) (lines : LineList)
    (flag : Bool) (t : CString) (k : Nat) (hargs : get_cmd_args cmd sentTo = (lines, flag))
    (hhead : lines.head? = some t) (hno : get_cmd_no (some t) sentTo = some k) (hcmd : cmd ≠ []) :
    cmd_to_lines cmd sentTo =
      if flag = false ∧ minCmdLengths sentTo k ≤ lines.length ∧
          (((sentTo = SERVER ∧ k ≠ SAY) ∨ (sentTo = CLIENT ∧ k ≠ MSG)) →
            pattern_match_string [':'] (lines.getLast?.getD []) = false ∧
            lines.length ≤ maxCmdLengths sentTo k) then
        some lines
      else none := by
  have hlen : ¬ cmd.length < 1 := by
    cases cmd with
    | nil => exact absurd rfl hcmd
    | cons c cmd => simp
  have hlines : ¬ lines.length < 1 := by
    cases lines with
    | nil => simp at hhead
    | cons l lines => simp
  simp only [cmd_to_lines, hlen, if_false, hargs, hlines, hhead, hno]
  by_cases hguard : (sentTo = SERVER ∧ k ≠ SAY) ∨ (sentTo = CLIENT ∧ k ≠ MSG)
  · rw [if_pos hguard]
    cases flag <;> cases hp : pattern_match_string [':'] (lines.getLast?.getD []) <;>
      by_cases hmax : lines.length ≤ maxCmdLengths sentTo k <;>
      by_cases hmin : minCmdLengths sentTo k ≤ lines.length <;>
      simp [hguard, hmax, hmin, Nat.not_lt.mpr, Nat.lt_of_not_le]
  · rw [if_neg hguard]
    cases flag <;> by_cases hmin : minCmdLengths sentTo k ≤ lines.length <;>
      simp [hguard, hmin, Nat.not_lt.mpr, Nat.lt_of_not_le]

/-- `get_cmd_args` for a command of at most two entries: the word, and the
rest of the line if there is one. -/
theorem get_cmd_args_small (cmd : CString) (sentTo : CmdSentTo) (t ref : CString) (k : Nat)
    (htok : strtok_r cmd [':'] = (some t, ref)) (hno : get_cmd_no (some t) sentTo = some k)
    (hmax : maxCmdLengths sentTo k ≤ 2) :
    get_cmd_args cmd sentTo =
      ((if ref = [] then [t] else [t, ref]),
        decide ((if ref = [] then [t] else [t, ref]).length < maxCmdLengths sentTo k) &&
          (cmd.getLast? != some ':')) := by
  have hloop : get_cmd_args_loop (maxCmdLengths sentTo k - 1) (some t) ref [] =
      ([t], some t, ref) := by
    have h01 : maxCmdLengths sentTo k - 1 = 0 ∨ maxCmdLengths sentTo k - 1 = 1 := by omega
    rcases h01 with h0 | h1
    · rw [h0]; rfl
    · rw [h1]; rfl
  simp only [get_cmd_args, htok, hno, hloop, strtok_r_no_delim]
  by_cases href : ref = [] <;> simp [href]

/-- `get_cmd_args` for `MSG` with a name: the word, the name, and the rest of
the line if there is one. -/
theorem get_cmd_args_msg (cmd : CString) (sentTo : CmdSentTo) (t ref n ref2 : CString) (k : Nat)
    (htok : strtok_r cmd [':'] = (some t, ref)) (hno : get_cmd_no (some t) sentTo = some k)
    (hmax : maxCmdLengths sentTo k = 3) (htok2 : strtok_r ref [':'] = (some n, ref2)) :
    get_cmd_args cmd sentTo =
      ((if ref2 = [] then [t, n] else [t, n, ref2]),
        decide ((if ref2 = [] then [t, n] else [t, n, ref2]).length < maxCmdLengths sentTo k) &&
          (cmd.getLast? != some ':')) := by
  have hloop : get_cmd_args_loop (maxCmdLengths sentTo k - 1) (some t) ref [] =
      ([t, n], some n, ref2) := by
    rw [hmax]
    simp [get_cmd_args_loop, htok2]
  simp only [get_cmd_args, htok, hno, hloop, strtok_r_no_delim]
  by_cases href : ref2 = [] <;> simp [href]

theorem getLast?_ne_colon (t : CString) (h : ':' ∉ t) : t.getLast? ≠ some ':' :=
  fun hl => h (List.mem_of_getLast?_eq_some hl)

/-- The test that exempts `SAY` to the server and `MSG` to the client from
the check of the last entry fails for these two commands only. -/
theorem not_guard_cases (sentTo : CmdSentTo) (k : Nat)
    (h : ¬ ((sentTo = SERVER ∧ k ≠ SAY) ∨ (sentTo = CLIENT ∧ k ≠ MSG))) :
    (sentTo = SERVER ∧ k = SAY) ∨ (sentTo = CLIENT ∧ k = MSG) := by
  cases sentTo with
  | SERVER =>
    left
    refine ⟨rfl, ?_⟩
    by_contra hk
    exact h (Or.inl ⟨rfl, hk⟩)
  | CLIENT =>
    right
    refine ⟨rfl, ?_⟩
    by_contra hk
    exact h (Or.inr ⟨rfl, hk⟩)

/-- What `cmd_to_lines` accepts, for either role: the command word alone (for
a command of one entry, or on a line that ends in a colon), the word and one
field (without a colon unless the command is `SAY`), or for `MSG` the word
and a name (on a line that ends in a colon) or the word, a name and a
payload. -/
theorem cmd_to_lines_shape (cmd : CString) (sentTo : CmdSentTo) (fields : LineList)
    (h : cmd_to_lines cmd sentTo = some fields) :
    ∃ t k, get_cmd_no (some t) sentTo = some k ∧ minCmdLengths sentTo k ≤ fields.length ∧
      ((fields = [t] ∧ (maxCmdLengths sentTo k = 1 ∨ cmd.getLast? = some ':')) ∨
       (∃ r, fields = [t, r] ∧ r ≠ [] ∧ maxCmdLengths sentTo k = 2 ∧
         (((sentTo = SERVER ∧ k ≠ SAY) ∨ (sentTo = CLIENT ∧ k ≠ MSG)) → ':' ∉ r)) ∨
       (∃ n, fields = [t, n] ∧ n ≠ [] ∧ ':' ∉ n ∧ maxCmdLengths sentTo k = 3 ∧
         cmd.getLast? = some ':') ∨
       (∃ n p, fields = [t, n, p] ∧ n ≠ [] ∧ ':' ∉ n ∧ p ≠ [] ∧
         maxCmdLengths sentTo k = 3)) := by
  have hcmd : cmd ≠ [] := by
    intro hnil
    subst hnil
    simp [cmd_to_lines] at h
  rcases get_cmd_args_shape cmd sentTo with hnil | ⟨t, k, lines, hno, hargs, hshape⟩
  · simp [cmd_to_lines, hnil] at h
  · have hk := (get_cmd_no_word sentTo t k hno).2.2
    have hhead : lines.head? = some t := by
      rcases hshape with h1 | ⟨r, h1, -⟩ | ⟨n, h1, -⟩ | ⟨n, p, h1, -⟩ <;> rw [h1] <;> rfl
    rw [cmd_to_lines_of_args cmd sentTo lines _ t k hargs hhead hno hcmd] at h
    split_ifs at h with hcond
    obtain ⟨hflag, hmin, hguard⟩ := hcond
    have hfields : lines = fields := Option.some.inj h
    subst hfields
    have hflag2 : ¬ lines.length < maxCmdLengths sentTo k ∨ cmd.getLast? = some ':' := by
      by_cases hlt : lines.length < maxCmdLengths sentTo k
      · right
        by_contra hlast
        simp [hlt, hlast] at hflag
      · exact Or.inl hlt
    refine ⟨t, k, hno, hmin, ?_⟩
    rcases hshape with h1 | ⟨r, h1, hr, hmax⟩ | ⟨n, h1, hn, hnc, hmax⟩ | ⟨n, p, h1, hn, hnc, hp, hmax⟩
    · left
      refine ⟨h1, ?_⟩
      rcases hflag2 with hlt | hlast
      · left
        rw [h1] at hlt
        simp only [List.length_singleton] at hlt
        rcases maxCmdLengths_cases sentTo k hk with h | h | ⟨h, -, -⟩ <;> omega
      · exact Or.inr hlast
    · right; left
      refine ⟨r, h1, hr, ?_, ?_⟩
      · by_cases hg : (sentTo = SERVER ∧ k ≠ SAY) ∨ (sentTo = CLIENT ∧ k ≠ MSG)
        · have := (hguard hg).2
          rw [h1] at this
          simp only [List.length_cons, List.length_singleton] at this
          omega
        · rcases not_guard_cases sentTo k hg with ⟨hs, hk2⟩ | ⟨hs, hk2⟩
          · subst hs; subst hk2; rfl
          · subst hs; subst hk2
            exact absurd hmax (by decide)
      · intro hg
        have := (hguard hg).1
        rw [h1] at this
        intro hmem
        have hp := (pattern_match_colon_iff r).mpr hmem
        simp [hp] at this
    · right; right; left
      refine ⟨n, h1, hn, hnc, hmax, ?_⟩
      rcases hflag2 with hlt | hlast
      · rw [h1, hmax] at hlt
        simp at hlt
      · exact hlast
    · right; right; right
      exact ⟨n, p, h1, hn, hnc, hp, hmax⟩

/-- A line is accepted when what `get_cmd_args` returns for it passes the
checks of `cmd_to_lines`. -/
theorem cmd_to_lines_accept (cmd : CString) (sentTo : CmdSentTo) (lines : LineList)
    (flag : Bool) (t : CString) (k : Nat) (hargs : get_cmd_args cmd sentTo = (lines, flag))
    (hhead : lines.head? = some t) (hno : get_cmd_no (some t) sentTo = some k) (hcmd : cmd ≠ [])
    (hflag : flag = false) (hmin : minCmdLengths sentTo k ≤ lines.length)
    (hguard : ((sentTo = SERVER ∧ k ≠ SAY) ∨ (sentTo = CLIENT ∧ k ≠ MSG)) →
      pattern_match_string [':'] (lines.getLast?.getD []) = false ∧
      lines.length ≤ maxCmdLengths sentTo k) :
    cmd_to_lines cmd sentTo = some lines := by
  rw [cmd_to_lines_of_args cmd sentTo lines flag t k hargs hhead hno hcmd]
  exact if_pos ⟨hflag, hmin, hguard⟩

/-- A line is rejected when `get_cmd_args` sets the flag for it. -/
theorem cmd_to_lines_reject (cmd : CString) (sentTo : CmdSentTo) (lines : LineList)
    (t : CString) (k : Nat) (hargs : get_cmd_args cmd sentTo = (lines, true))
    (hhead : lines.head? = some t) (hno : get_cmd_no (some t) sentTo = some k) (hcmd : cmd ≠ []) :
    cmd_to_lines cmd sentTo = none := by
  rw [cmd_to_lines_of_args cmd sentTo lines true t k hargs hhead hno hcmd]
  exact if_neg (fun h => by simp at h)

/-- The command word alone, for a command of one entry, is accepted. -/
theorem cmd_to_lines_word (sentTo : CmdSentTo) (t : CString) (k : Nat)
    (hno : get_cmd_no (some t) sentTo = some k) (hmax : maxCmdLengths sentTo k = 1)
    (hmin : minCmdLengths sentTo k ≤ 1) : cmd_to_lines t sentTo = some [t] := by
  obtain ⟨ht, htc, -⟩ := get_cmd_no_word sentTo t k hno
  have hargs := get_cmd_args_small t sentTo t [] k (strtok_r_token_end t ht htc) hno (by omega)
  simp only [if_true] at hargs
  refine cmd_to_lines_accept t sentTo [t] _ t k hargs rfl hno ht ?_ hmin ?_
  · simp [hmax]
  · intro _
    exact ⟨pattern_match_colon_false t htc, by simp [hmax]⟩

/-- The command word alone, for a command of two entries, is rejected, and
with a colon after it it is accepted. -/
theorem cmd_to_lines_word_short (sentTo : CmdSentTo) (t : CString) (k : Nat)
    (hno : get_cmd_no (some t) sentTo = some k) (hmax : maxCmdLengths sentTo k = 2)
    (hmin : minCmdLengths sentTo k ≤ 1) :
    cmd_to_lines t sentTo = none ∧ cmd_to_lines (t ++ [':']) sentTo = some [t] := by
  obtain ⟨ht, htc, -⟩ := get_cmd_no_word sentTo t k hno
  constructor
  · have hargs := get_cmd_args_small t sentTo t [] k (strtok_r_token_end t ht htc) hno (by omega)
    have hlast := getLast?_ne_colon t htc
    simp only [if_true, hmax, List.length_singleton] at hargs
    have hflag : (decide (1 < 2) && (t.getLast? != some ':')) = true := by simp [hlast]
    rw [hflag] at hargs
    exact cmd_to_lines_reject t sentTo [t] t k hargs rfl hno ht
  · have hargs := get_cmd_args_small (t ++ [':']) sentTo t [] k
      (strtok_r_token_colon t [] ht htc) hno (by omega)
    simp only [if_true] at hargs
    refine cmd_to_lines_accept (t ++ [':']) sentTo [t] _ t k hargs rfl hno (by simp) ?_ hmin ?_
    · simp
    · intro _
      exact ⟨pattern_match_colon_false t htc, by simp [hmax]⟩

/-- The command word, a colon and a field, for a command of two entries, is
accepted. -/
theorem cmd_to_lines_word_field (sentTo : CmdSentTo) (t r : CString) (k : Nat)
    (hno : get_cmd_no (some t) sentTo = some k) (hmax : maxCmdLengths sentTo k = 2)
    (hmin : minCmdLengths sentTo k ≤ 2) (hr : r ≠ [])
    (hrc : ((sentTo = SERVER ∧ k ≠ SAY) ∨ (sentTo = CLIENT ∧ k ≠ MSG)) → ':' ∉ r) :
    cmd_to_lines (t ++ ':' :: r) sentTo = some [t, r] := by
  obtain ⟨ht, htc, -⟩ := get_cmd_no_word sentTo t k hno
  have hargs := get_cmd_args_small (t ++ ':' :: r) sentTo t r k
    (strtok_r_token_colon t r ht htc) hno (by omega)
  simp only [if_neg hr] at hargs
  refine cmd_to_lines_accept (t ++ ':' :: r) sentTo [t, r] _ t k hargs rfl hno (by simp) ?_
    hmin ?_
  · simp [hmax]
  · intro hg
    exact ⟨pattern_match_colon_false r (hrc hg), by simp [hmax]⟩

/-- For `MSG`: the word, a name and a payload are accepted. -/
theorem cmd_to_lines_word_name_payload (sentTo : CmdSentTo) (t n p : CString) (k : Nat)
    (hno : get_cmd_no (some t) sentTo = some k) (hmax : maxCmdLengths sentTo k = 3)
    (hmin : minCmdLengths sentTo k ≤ 3) (hn : n ≠ []) (hnc : ':' ∉ n) (hp : p ≠ []) :
    cmd_to_lines (t ++ ':' :: (n ++ ':' :: p)) sentTo = some [t, n, p] := by
  obtain ⟨ht, htc, hk⟩ := get_cmd_no_word sentTo t k hno
  have hmsg : sentTo = CLIENT ∧ k = MSG := by
    rcases maxCmdLengths_cases sentTo k hk with h | h | ⟨-, h⟩
    · omega
    · omega
    · exact h
  have hargs := get_cmd_args_msg (t ++ ':' :: (n ++ ':' :: p)) sentTo t (n ++ ':' :: p) n p k
    (strtok_r_token_colon t _ ht htc) hno hmax (strtok_r_token_colon n p hn hnc)
  simp only [if_neg hp] at hargs
  refine cmd_to_lines_accept _ sentTo [t, n, p] _ t k hargs rfl hno (by simp) ?_ hmin ?_
  · simp [hmax]
  · intro hg
    rcases hg with ⟨hs, -⟩ | ⟨-, hk2⟩
    · rw [hmsg.1] at hs
      exact absurd hs (by decide)
    · exact absurd hmsg.2 hk2

/-- For `MSG`: the word and a name are rejected, and with a colon after the
name they are accepted. -/
theorem cmd_to_lines_word_name_short (sentTo : CmdSentTo) (t n : CString) (k : Nat)
    (hno : get_cmd_no (some t) sentTo = some k) (hmax : maxCmdLengths sentTo k = 3)
    (hmin : minCmdLengths sentTo k ≤ 2) (hn : n ≠ []) (hnc : ':' ∉ n) :
    cmd_to_lines (t ++ ':' :: n) sentTo = none ∧
    cmd_to_lines (t ++ ':' :: (n ++ [':'])) sentTo = some [t, n] := by
  obtain ⟨ht, htc, hk⟩ := get_cmd_no_word sentTo t k hno
  have hmsg : sentTo = CLIENT ∧ k = MSG := by
    rcases maxCmdLengths_cases sentTo k hk with h | h | ⟨-, h⟩
    · omega
    · omega
    · exact h
  constructor
  · have hargs := get_cmd_args_msg (t ++ ':' :: n) sentTo t n n [] k
      (strtok_r_token_colon t _ ht htc) hno hmax (strtok_r_token_end n hn hnc)
    have hlast : (t ++ ':' :: n).getLast? ≠ some ':' := by
      intro h
      rw [show t ++ ':' :: n = (t ++ [':']) ++ n from by simp,
        List.getLast?_append_of_ne_nil _ hn] at h
      exact hnc (List.mem_of_getLast?_eq_some h)
    simp only [if_true, hmax, List.length_cons, List.length_singleton, List.length_nil] at hargs
    have hflag : (decide (0 + 1 + 1 < 3) && ((t ++ ':' :: n).getLast? != some ':')) = true := by
      rw [Bool.and_eq_true]
      exact ⟨by decide, by simpa using hlast⟩
    rw [hflag] at hargs
    exact cmd_to_lines_reject _ sentTo [t, n] t k hargs rfl hno (by simp)
  · have hargs := get_cmd_args_msg (t ++ ':' :: (n ++ [':'])) sentTo t (n ++ [':']) n [] k
      (strtok_r_token_colon t _ ht htc) hno hmax (strtok_r_token_colon n [] hn hnc)
    simp only [if_true] at hargs
    refine cmd_to_lines_accept _ sentTo [t, n] _ t k hargs rfl hno (by simp) ?_ hmin ?_
    · have hlast : (t ++ ':' :: (n ++ [':'])).getLast? = some ':' := by
        rw [show t ++ ':' :: (n ++ [':']) = (t ++ ':' :: n) ++ [':'] from by simp,
          List.getLast?_append_of_ne_nil _ (by simp)]
        rfl
      rw [hlast]
      simp
    · intro hg
      rcases hg with ⟨hs, -⟩ | ⟨-, hk2⟩
      · rw [hmsg.1] at hs
        exact absurd hs (by decide)
      · exact absurd hmsg.2 hk2

/-- C20, as stated, fails: the line `SAY:` is accepted for the server with
the single field `SAY`; joined again the fields are the line `SAY`, which is
rejected. The same holds for `NAME:` and, for the client, for `MSG:bob:`. -/
theorem cmd_to_lines_rejoin_rejected :
    cmd_to_lines "SAY:".toList SERVER = some ["SAY".toList] ∧
    join_fields ["SAY".toList] = "SAY".toList ∧
    cmd_to_lines (join_fields ["SAY".toList]) SERVER = none ∧
    cmd_to_lines "NAME:".toList SERVER = some ["NAME".toList] ∧
    cmd_to_lines (join_fields ["NAME".toList]) SERVER = none ∧
    cmd_to_lines "MSG:bob:".toList CLIENT = some ["MSG".toList, "bob".toList] ∧
    cmd_to_lines (join_fields ["MSG".toList, "bob".toList]) CLIENT = none := by
  decide

/-- C20 (amended): for either role and every line `L` that `cmd_to_lines`
accepts, the parsed fields are a command word followed by at most as many
fields as the command can have. When the command has its greatest number of
fields, joining the fields with colons and parsing the result again for the
same role yields the same fields. When it has fewer (then `L` ends in a
colon), the joined fields are rejected, and the joined fields followed by a
colon yield the same fields. -/
theorem cmd_to_lines_rejoin (sentTo : CmdSentTo) (L : CString) (fields : LineList)
    (h : cmd_to_lines L sentTo = some fields) :
    ∃ tag k, fields.head? = some tag ∧ get_cmd_no (some tag) sentTo = some k ∧
      fields.length ≤ maxCmdLengths sentTo k ∧
      (fields.length = maxCmdLengths sentTo k →
        cmd_to_lines (join_fields fields) sentTo = some fields) ∧
      (fields.length < maxCmdLengths sentTo k →
        L.getLast? = some ':' ∧ cmd_to_lines (join_fields fields) sentTo = none ∧
        cmd_to_lines (join_fields fields ++ ":".toList) sentTo = some fields) := by
  obtain ⟨t, k, hno, hmin, hshape⟩ := cmd_to_lines_shape L sentTo fields h
  have hk := (get_cmd_no_word sentTo t k hno).2.2
  refine ⟨t, k, ?_, hno, ?_⟩
  · rcases hshape with ⟨h1, -⟩ | ⟨r, h1, -⟩ | ⟨n, h1, -⟩ | ⟨n, p, h1, -⟩ <;> rw [h1] <;> rfl
  rcases hshape with ⟨h1, hone⟩ | ⟨r, h1, hr, hmax, hrc⟩ | ⟨n, h1, hn, hnc, hmax, hlast⟩ |
    ⟨n, p, h1, hn, hnc, hp, hmax⟩
  · subst h1
    have hj : join_fields [t] = t := by simp [join_fields, List.intercalate]
    simp only [List.length_singleton] at hmin ⊢
    rw [hj]
    rcases maxCmdLengths_cases sentTo k hk with hm | hm | ⟨hm, hs, hk2⟩
    · refine ⟨by omega, fun _ => cmd_to_lines_word sentTo t k hno hm hmin, fun hlt => by omega⟩
    · have hlast : L.getLast? = some ':' := by
        rcases hone with h1 | hl
        · omega
        · exact hl
      obtain ⟨hnone, hsome⟩ := cmd_to_lines_word_short sentTo t k hno hm hmin
      exact ⟨by omega, fun heq => by omega, fun _ => ⟨hlast, hnone, hsome⟩⟩
    · subst hs; subst hk2
      exact absurd hmin (by decide)
  · subst h1
    have hj : join_fields [t, r] = t ++ ':' :: r := by simp [join_fields, List.intercalate]
    simp only [List.length_cons, List.length_singleton, List.length_nil] at hmin ⊢
    rw [hj]
    refine ⟨by omega, fun _ => cmd_to_lines_word_field sentTo t r k hno hmax (by omega) hr hrc,
      fun hlt => by omega⟩
  · subst h1
    have hj : join_fields [t, n] = t ++ ':' :: n := by simp [join_fields, List.intercalate]
    have hj2 : t ++ ':' :: n ++ ":".toList = t ++ ':' :: (n ++ [':']) := by simp [String.toList]
    simp only [List.length_cons, List.length_singleton, List.length_nil] at hmin ⊢
    rw [hj, hj2]
    obtain ⟨hnone, hsome⟩ := cmd_to_lines_word_name_short sentTo t n k hno hmax (by omega) hn hnc
    exact ⟨by omega, fun heq => by omega, fun _ => ⟨hlast, hnone, hsome⟩⟩
  · subst h1
    have hj : join_fields [t, n, p] = t ++ ':' :: (n ++ ':' :: p) := by
      simp [join_fields, List.intercalate]
    simp only [List.length_cons, List.length_singleton, List.length_nil] at hmin ⊢
    rw [hj]
    refine ⟨by omega,
      fun _ => cmd_to_lines_word_name_payload sentTo t n p k hno hmax (by omega) hn hnc hp,
      fun hlt => by omega⟩

/-- C20 (amended), for the line `MSG:bob:hi` of the client, accepted with the
greatest number of fields, and for the line `SAY:` of the server, accepted
with fewer. -/
theorem cmd_to_lines_rejoin_witness :
    cmd_to_lines "MSG:bob:hi".toList CLIENT
      = some ["MSG".toList, "bob".toList, "hi".toList] ∧
    cmd_to_lines (join_fields ["MSG".toList, "bob".toList, "hi".toList]) CLIENT
      = some ["MSG".toList, "bob".toList, "hi".toList] ∧
    cmd_to_lines (join_fields ["SAY".toList] ++ ":".toList) SERVER = some ["SAY".toList] := by
  have h1 : cmd_to_lines "MSG:bob:hi".toList CLIENT
      = some ["MSG".toList, "bob".toList, "hi".toList] := by decide
  have h2 : cmd_to_lines "SAY:".toList SERVER = some ["SAY".toList] := by decide
  obtain ⟨tag, k, htag, hno, -, hfull, -⟩ := cmd_to_lines_rejoin CLIENT _ _ h1
  obtain ⟨tag2, k2, htag2, hno2, -, -, hshort⟩ := cmd_to_lines_rejoin SERVER _ _ h2
  have ht : tag = "MSG".toList := by
    simp only [List.head?_cons, Option.some.injEq] at htag
    exact htag.symm
  have ht2 : tag2 = "SAY".toList := by
    simp only [List.head?_cons, Option.some.injEq] at htag2
    exact htag2.symm
  subst ht
  subst ht2
  have hk : k = 6 := Option.some.inj (hno.symm.trans (by decide))
  have hk2 : k2 = 2 := Option.some.inj (hno2.symm.trans (by decide))
  subst hk
  subst hk2
  exact ⟨h1, hfull (by decide), (hshort (by decide)).2.2⟩

/-! ## The loop of `client_thread_handler` ends -/

theorem keeps_client_id : keeps_client id :=
  fun _ => ⟨rfl, rfl, rfl, fun h => h⟩

theorem keeps_client_comp (g1 g2 : ClientThread → ClientThread) (h1 : keeps_client g1)
    (h2 : keeps_client g2) : keeps_client (g2 ∘ g1) := by
  intro d
  obtain ⟨a1, b1, c1, d1⟩ := h1 d
  obtain ⟨a2, b2, c2, d2⟩ := h2 (g1 d)
  exact ⟨a2.trans a1, b2.trans b1, c2.trans c1, fun h => d1 (d2 h)⟩

theorem keeps_client_at (client : Nat) (f : ClientThread → ClientThread) (hf : keeps_client f) :
    keeps_client (fun c => if c.id = client then f c else c) := by
  intro d
  obtain ⟨a, b, c, e⟩ := hf d
  by_cases hd : d.id = client
  · simp only [if_pos hd]
    exact ⟨a, b, c, e⟩
  · simp [hd]

theorem keeps_client_write (line : CString) :
    keeps_client (fun client =>
      if client.isActive && client.name.isSome then
        { client with writeTo := client.writeTo ++ line ++ ['\n'] }
      else client) := by
  intro d
  dsimp only
  split_ifs <;> exact ⟨rfl, rfl, rfl, fun h => h⟩

theorem keeps_client_stats (f : ClientStats → ClientStats) :
    keeps_client (fun c => { c with stats := f c.stats }) :=
  fun _ => ⟨rfl, rfl, rfl, fun h => h⟩

theorem keeps_client_send (line : CString) : keeps_client (fun c => send_client c line) :=
  fun _ => ⟨rfl, rfl, rfl, fun h => h⟩

theorem keeps_client_disable : keeps_client disable_client :=
  fun _ => ⟨rfl, rfl, rfl, fun h => by simp [disable_client] at h⟩

theorem roster_keeps_refl (a : ClientList) : roster_keeps a a :=
  ⟨id, keeps_client_id, by simp, rfl⟩

theorem roster_keeps_trans (a b c : ClientList) (h1 : roster_keeps a b)
    (h2 : roster_keeps b c) : roster_keeps a c := by
  obtain ⟨g1, k1, e1, p1⟩ := h1
  obtain ⟨g2, k2, e2, p2⟩ := h2
  exact ⟨g2 ∘ g1, keeps_client_comp g1 g2 k1 k2, by rw [e2, e1, List.map_map], p2.trans p1⟩

theorem roster_keeps_stats (a : ClientList) (stats : ServerStats) :
    roster_keeps a { a with stats := stats } :=
  ⟨id, keeps_client_id, by simp, rfl⟩

theorem roster_keeps_modify (a : ClientList) (client : Nat) (f : ClientThread → ClientThread)
    (hf : keeps_client f) : roster_keeps a (modify_client a client f) :=
  ⟨_, keeps_client_at client f hf, rfl, rfl⟩

theorem roster_keeps_send_all (a : ClientList) (line : CString) :
    roster_keeps a (send_all_clients a line) :=
  ⟨_, keeps_client_write line, rfl, rfl⟩

/-- What `handle_cmd` does to the roster: it changes each client by one
function that keeps the address, the stream to read and the name, and makes
no inactive client active; the password stays. -/
theorem handle_cmd_keeps (signedChar : Bool) (s s2 : Server) (client : Nat) (cmd : CString)
    (h : handle_cmd signedChar s client cmd = some s2) :
    roster_keeps s.clients s2.clients := by
  have hid : ∀ r : Server, some s = some r → roster_keeps s.clients r.clients := by
    intro r hr
    cases hr
    exact roster_keeps_refl _
  unfold handle_cmd at h
  split at h
  · exact hid s2 h
  · rename_i cmdArgs _
    split at h
    · exact hid s2 h
    · rename_i cmdNo _
      split_ifs at h with hgt
      · unfold handlers at h
        split at h
        · -- handle_say
          unfold handle_say at h
          simp only at h
          split at h
          · simp at h
          · split at h <;>
            · cases h
              exact roster_keeps_trans _ _ _
                (roster_keeps_trans _ _ _ (roster_keeps_stats _ _)
                  (roster_keeps_modify _ client _
                    (keeps_client_stats fun st => { st with say := st.say + 1 })))
                (roster_keeps_send_all _ _)
        · -- handle_kick
          unfold handle_kick at h
          split at h
          · simp only at h
            split at h
            · rename_i target _
              cases h
              exact roster_keeps_trans _ _ _
                (roster_keeps_trans _ _ _ (roster_keeps_stats _ _)
                  (roster_keeps_modify _ client _
                    (keeps_client_stats fun st => { st with kick := st.kick + 1 })))
                (roster_keeps_modify _ target.id _ (keeps_client_send _))
            · cases h
              exact roster_keeps_trans _ _ _ (roster_keeps_stats _ _)
                  (roster_keeps_modify _ client _
                    (keeps_client_stats fun st => { st with kick := st.kick + 1 }))
          · simp at h
        · -- handle_list
          unfold handle_list at h
          simp only at h
          split at h
          · simp at h
          · cases h
            exact roster_keeps_trans _ _ _
              (roster_keeps_trans _ _ _ (roster_keeps_stats _ _)
                (roster_keeps_modify _ client _
                  (keeps_client_stats fun st => { st with list := st.list + 1 })))
              (roster_keeps_send_all _ _)
        · -- handle_leave
          unfold handle_leave at h
          cases h
          exact roster_keeps_trans _ _ _ (roster_keeps_stats _ _)
            (roster_keeps_modify _ client _ keeps_client_disable)
        · simp at h
      · exact hid s2 h

/-- The struct at an address of a roster whose clients were changed by a
function that keeps addresses. -/
theorem client_at_of_head_map (a b : ClientList) (g : ClientThread → ClientThread)
    (hg : ∀ d, (g d).id = d.id) (hhead : b.head = a.head.map g) (id : Nat) :
    client_at b id = (client_at a id).map g := by
  have h := client_at_map a g hg id
  simp only [client_at] at h ⊢
  rw [hhead]
  exact h

/-- A change of the roster that `roster_keeps` leaves the loop no more rounds
than it had. -/
theorem rounds_left_of_keeps (s s2 : Server) (client : Nat)
    (h : roster_keeps s.clients s2.clients) : rounds_left s2 client ≤ rounds_left s client := by
  obtain ⟨g, hg, hhead, _⟩ := h
  have hat := client_at_of_head_map s.clients s2.clients g (fun d => (hg d).1) hhead client
  unfold rounds_left
  rw [hat]
  cases hc : client_at s.clients client with
  | none => simp
  | some c =>
    obtain ⟨_, hread, _, hact⟩ := hg c
    simp only [Option.map_some']
    by_cases h2 : (g c).isActive = true
    · rw [if_pos h2, if_pos (hact h2), hread]
    · rw [if_neg h2]
      exact Nat.zero_le _

/-- The rounds left for a client after a change of its own struct. -/
theorem rounds_left_modify (s : Server) (client : Nat) (c : ClientThread)
    (f : ClientThread → ClientThread) (hf : ∀ d, (f d).id = d.id)
    (hc : client_at s.clients client = some c) :
    rounds_left { s with clients := modify_client s.clients client f } client
      = if (f c).isActive then (f c).readFrom.length + 1 else 0 := by
  have hat := client_at_map s.clients (fun d => if d.id = client then f d else d)
    (fun d => by dsimp only; split_ifs <;> simp [hf]) client
  have hcid : c.id = client := by
    have := List.find?_some hc
    simpa using this
  rw [hc] at hat
  simp only [Option.map_some', if_pos hcid] at hat
  unfold rounds_left
  simp only [modify_client]
  rw [hat]

/-- The bound on the rounds of the loop of `client_thread_handler` is never
what ends it: with any two bounds above the rounds left for the client, the
loop gives the same result. -/
theorem client_thread_handler_loop_fuel (signedChar : Bool) (fuel1 fuel2 : Nat) (s : Server)
    (client : Nat) (h1 : rounds_left s client < fuel1) (h2 : rounds_left s client < fuel2) :
    client_thread_handler_loop signedChar fuel1 s client
      = client_thread_handler_loop signedChar fuel2 s client := by
  induction fuel1 generalizing fuel2 s with
  | zero => omega
  | succ f ih =>
    cases fuel2 with
    | zero => omega
    | succ g =>
      unfold client_thread_handler_loop
      cases hc : client_at s.clients client with
      | none => rfl
      | some c =>
        simp only [get_active_status]
        by_cases hact : c.isActive = true
        · simp only [if_pos hact]
          have hrl : rounds_left s client = c.readFrom.length + 1 := by
            simp [rounds_left, hc, hact]
          have hs1 := rounds_left_modify s client c
            (fun d => { d with readFrom := (read_client_line c).2.2.readFrom }) (fun _ => rfl) hc
          simp only [hact, if_true] at hs1
          by_cases heof : (read_client_line c).2.1 = true
          · simp only [if_pos heof]
            have hc1 : client_at (modify_client s.clients client fun d =>
                { d with readFrom := (read_client_line c).2.2.readFrom }) client
                = some { c with readFrom := (read_client_line c).2.2.readFrom } := by
              have hat := client_at_map s.clients (fun d => if d.id = client then
                  { d with readFrom := (read_client_line c).2.2.readFrom } else d)
                (fun d => by dsimp only; split_ifs <;> rfl) client
              have hcid : c.id = client := by
                have := List.find?_some hc
                simpa using this
              rw [hc] at hat
              simpa [modify_client, hcid] using hat
            have hs2 := rounds_left_modify
              { s with clients := modify_client s.clients client fun d =>
                  { d with readFrom := (read_client_line c).2.2.readFrom } }
              client _ disable_client (fun _ => rfl) hc1
            simp only [disable_client] at hs2
            apply ih
            · rw [hs2]
              simp
              omega
            · rw [hs2]
              simp
              omega
          · simp only [if_neg heof]
            have hlen : (read_client_line c).2.2.readFrom.length < c.readFrom.length := by
              have := read_file_line_length c.readFrom (by simpa [read_client_line] using heof)
              simpa [read_client_line] using this
            cases hcmd : handle_cmd signedChar
                { s with clients := modify_client s.clients client fun d =>
                    { d with readFrom := (read_client_line c).2.2.readFrom } }
                client (read_client_line c).1 with
            | none => rfl
            | some s2 =>
              have hk := rounds_left_of_keeps _ s2 client (handle_cmd_keeps _ _ _ _ _ hcmd)
              simp only
              apply ih <;> omega
        · simp only [if_neg hact]

/-! ## Claim C21: the candidate names of the client -/

/-- Calls of `disable_client` on a client that is inactive and has an exit
code change nothing. -/
theorem disable_client_recorded (data : Client.ClientData) (cs : List Int)
    (hactive : data.isActive = false) (hcode : 0 ≤ data.exitCode) :
    cs.foldl Client.disable_client data = data := by
  induction cs with
  | nil => rfl
  | cons c cs ih =>
    have hnot : ¬ data.exitCode < 0 := by omega
    have hone : Client.disable_client data c = data := by
      cases data
      simp only [Client.disable_client] at *
      simp [hactive, hnot]
    rw [List.foldl_cons, hone, ih]

/-- C22: after the calls `disable_client(data, c1)`, ..., `disable_client(data,
ck)` on a client just made by `init_client_data`, with `c1` not negative, the
exit code is `c1`, the client is inactive and nothing else has changed,
whatever the later codes are. -/
theorem disable_client_first_code (name : CString) (password : Option CString)
    (readFrom : List Char) (c1 : Int) (cs : List Int) (h : 0 ≤ c1) :
    (c1 :: cs).foldl Client.disable_client (Client.init_client_data name password readFrom)
      = { Client.init_client_data name password readFrom with
          isActive := false, exitCode := c1 } := by
  have hfirst : Client.disable_client (Client.init_client_data name password readFrom) c1
      = { Client.init_client_data name password readFrom with
          isActive := false, exitCode := c1 } := by
    simp [Client.disable_client, Client.init_client_data]
  rw [List.foldl_cons, hfirst]
  exact disable_client_recorded _ cs rfl h

/-- C22, for a client that is kicked (3) and then meets the end of the
server's stream (2) and the end of its input (0): the exit code is 3. -/
theorem disable_client_first_code_witness :
    [Client.KICKED, Client.COMMS, Client.NORMAL].foldl Client.disable_client
        (Client.init_client_data "bob".toList (some "pw".toList) [])
      = { isActive := false, authenticated := false, name := "bob".toList,
          password := some "pw".toList, exitCode := 3, clientNo := -1, writeTo := [],
          readFrom := [] } :=
  disable_client_first_code "bob".toList (some "pw".toList) [] Client.KICKED
    [Client.COMMS, Client.NORMAL] (by decide)

/-! ## Claim C23: a line typed by the user -/

/-- A format without a `%` is written as it is. -/
theorem vfprintf_no_args_of_no_percent (l : CString) (h : '%' ∉ l) :
    vfprintf_no_args l false = some l := by
  induction l with
  | nil => rfl
  | cons c l ih =>
    have hc : c ≠ '%' := fun hc => h (by simp [hc])
    have hl : '%' ∉ l := fun hl => h (by simp [hl])
    simp [vfprintf_no_args, hc, ih hl]

/-- A line of the user that does not begin with `*`: `SAY:` and the line are
sent, whatever its bytes, and nothing else happens. -/
theorem send_user_msg_say (p : Client.ClientProcess) (l : CString) (h : l.head? ≠ some '*') :
    Client.send_user_msg p l = some
      { p with data := { p.data with writeTo := p.data.writeTo ++ "SAY:".toList ++ l ++ "\n".toList } } := by
  have hne : l ≠ "*LEAVE:".toList := by
    intro hl
    rw [hl] at h
    exact h rfl
  have hcmp : ¬ strcmp l "*LEAVE:".toList = 0 := fun hz => hne ((strcmp_eq_zero_iff _ _).1 hz)
  simp only [Client.send_user_msg, if_neg h, if_neg hcmp, Client.send_to_server]
  simp [String.toList]

/-- A line of the user that begins with `*` and has no `%`: the rest of the
line is sent; for `*LEAVE:` the client also prints its leaving message with
its base name, becomes inactive and records the exit code 0 if it has none. -/
theorem send_user_msg_command (p : Client.ClientProcess) (r : CString) (h : '%' ∉ r) :
    Client.send_user_msg p ('*' :: r) = some
      (if r = "LEAVE:".toList then
        { data := Client.disable_client
            { p.data with writeTo := p.data.writeTo ++ r ++ "\n".toList } Client.NORMAL,
          stdout := p.stdout ++ ("(".toList ++ p.data.name ++ " has left the chat)\n".toList) }
      else { p with data := { p.data with writeTo := p.data.writeTo ++ r ++ "\n".toList } }) := by
  have hfmt := vfprintf_no_args_of_no_percent r h
  by_cases hr : r = "LEAVE:".toList
  · have hcmp : strcmp ('*' :: r) "*LEAVE:".toList = 0 :=
      (strcmp_eq_zero_iff _ _).2 (by rw [hr]; rfl)
    simp only [Client.send_user_msg, List.head?_cons, if_true, List.tail_cons, hfmt,
      Option.map_some', hcmp, if_pos hr, Client.send_to_server]
    simp [String.toList]
  · have hcmp : ¬ strcmp ('*' :: r) "*LEAVE:".toList = 0 := by
      intro hz
      have := (strcmp_eq_zero_iff _ _).1 hz
      apply hr
      have h2 : "*LEAVE:".toList = '*' :: "LEAVE:".toList := rfl
      rw [h2] at this
      exact (List.cons.inj this).2
    simp only [Client.send_user_msg, List.head?_cons, if_true, List.tail_cons, hfmt,
      Option.map_some', hcmp, if_neg hr, if_false, Client.send_to_server]
    simp [String.toList]

/-- C23: what `send_user_msg` does with a line that begins with `*` and has
a `%`: the rest of the line is handed to `vfprintf` as its format, so for the
line `*SAY:100%%` the client sends `SAY:100%` (one `%`), not the line without
its first character, and for `*SAY:100%` or `*SAY:%s` the behaviour is
undefined. The same bytes after no `*` are sent as they are, behind `SAY:`. -/
theorem send_user_msg_format_from_user :
    Client.send_user_msg ⟨Client.init_client_data "bob".toList none [], []⟩ "*SAY:100%%".toList
      = some ⟨{ Client.init_client_data "bob".toList none [] with
                writeTo := "SAY:100%\n".toList }, []⟩ ∧
    Client.send_user_msg ⟨Client.init_client_data "bob".toList none [], []⟩ "*SAY:100%".toList
      = none ∧
    Client.send_user_msg ⟨Client.init_client_data "bob".toList none [], []⟩ "*SAY:%s".toList
      = none ∧
    Client.send_user_msg ⟨Client.init_client_data "bob".toList none [], []⟩ "100%%".toList
      = some ⟨{ Client.init_client_data "bob".toList none [] with
                writeTo := "SAY:100%%\n".toList }, []⟩ := by
  decide

/-! ## Claim C24: the end of the server's stream before the client is authenticated -/

/-- The client's `authenticate_client` loop at the end of the stream. -/
theorem authenticate_client_loop_eof (fuel : Nat) (data : Client.ClientData)
    (h : data.readFrom = []) :
    Client.authenticate_client_loop (fuel + 1) data
      = some (Client.disable_client data Client.COMMS) := by
  obtain ⟨isActive, authenticated, name, password, exitCode, clientNo, writeTo, readFrom⟩ := data
  simp only at h
  subst h
  simp [Client.authenticate_client_loop, Client.read_server_line, read_file_line, get_line]

/-- The client's `authenticate_client` loop skips a line that is not an
`AUTH` command. -/
theorem authenticate_client_loop_skip (fuel : Nat) (data : Client.ClientData)
    (l rest : List Char) (hnl : '\n' ∉ l) (hnul : Char.ofNat 0 ∉ l)
    (hl : is_auth_line l = false) :
    Client.authenticate_client_loop (fuel + 1) { data with readFrom := l ++ '\n' :: rest }
      = Client.authenticate_client_loop fuel { data with readFrom := rest } := by
  have hread := read_file_line_of_line l rest hnl hnul
  rw [Client.authenticate_client_loop]
  simp only [Client.read_server_line, hread]
  unfold is_auth_line at hl
  cases hparse : cmd_to_lines l CLIENT with
  | none => simp
  | some cmdArgs =>
    rw [hparse] at hl
    have hno : get_cmd_no cmdArgs.head? CLIENT ≠ some Client.AUTH := by
      intro hno
      simp [hno] at hl
    simp [hno]

/-- The client's `authenticate_client` loop skips the lines before the first
`AUTH` command. -/
theorem authenticate_client_loop_skip_lines (fuel : Nat) (data : Client.ClientData)
    (pre : List CString) (rest : List Char)
    (hpre : ∀ l ∈ pre, '\n' ∉ l ∧ Char.ofNat 0 ∉ l ∧ is_auth_line l = false) :
    Client.authenticate_client_loop (fuel + pre.length)
        { data with readFrom := stream_of_lines pre ++ rest }
      = Client.authenticate_client_loop fuel { data with readFrom := rest } := by
  induction pre with
  | nil => simp [stream_of_lines]
  | cons l pre ih =>
    obtain ⟨hnl, hnul, hl⟩ := hpre l (by simp)
    have hstream : stream_of_lines (l :: pre) ++ rest
        = l ++ '\n' :: (stream_of_lines pre ++ rest) := by
      simp [stream_of_lines]
    have hfuel : fuel + (l :: pre).length = fuel + pre.length + 1 := by simp; omega
    rw [hstream, hfuel, authenticate_client_loop_skip _ _ l _ hnl hnul hl]
    exact ih fun x hx => hpre x (by simp [hx])

theorem stream_of_lines_length (pre : List CString) :
    pre.length ≤ (stream_of_lines pre).length := by
  induction pre with
  | nil => simp [stream_of_lines]
  | cons l pre ih =>
    simp only [stream_of_lines, List.flatMap_cons, List.length_append, List.length_cons] at ih ⊢
    omega

/-- The client's `authenticate_client` loop at an `AUTH` command: the
password is sent and the next line decides. -/
theorem authenticate_client_loop_challenge (fuel : Nat) (data : Client.ClientData)
    (pw a : CString) (rest : List Char) (hpw : data.password = some pw)
    (hnl : '\n' ∉ a) (hnul : Char.ofNat 0 ∉ a) (ha : is_auth_line a = true) :
    Client.authenticate_client_loop (fuel + 1) { data with readFrom := a ++ '\n' :: rest }
      = some
        (if strcmp (read_file_line rest).1 "OK:".toList ≠ 0 ∨ (read_file_line rest).2.1 = true then
          Client.disable_client
            { data with
              writeTo := data.writeTo ++ ("AUTH:".toList ++ pw) ++ ['\n'],
              readFrom := (read_file_line rest).2.2 } Client.FAILED_AUTH
        else
          { data with
            writeTo := data.writeTo ++ ("AUTH:".toList ++ pw) ++ ['\n'],
            readFrom := (read_file_line rest).2.2 }) := by
  have hread := read_file_line_of_line a rest hnl hnul
  rw [Client.authenticate_client_loop]
  simp only [Client.read_server_line, hread]
  unfold is_auth_line at ha
  cases hparse : cmd_to_lines a CLIENT with
  | none => simp [hparse] at ha
  | some cmdArgs =>
    rw [hparse] at ha
    have hno : get_cmd_no cmdArgs.head? CLIENT = some Client.AUTH := by simpa using ha
    simp only [hno, hpw, Client.send_to_server]
    simp only [ne_eq, not_true_eq_false, if_false, Bool.false_eq_true, Bool.false_or]
    split_ifs <;> rfl

/-- A read sets the flag only at the end of the stream. -/
theorem read_file_line_flag (doc : List Char) (h : (read_file_line doc).2.1 = true) :
    doc = [] := by
  cases doc with
  | nil => rfl
  | cons c doc1 => simp [read_file_line, get_line] at h

theorem read_file_line_nil : read_file_line [] = ([], true, []) := by
  simp [read_file_line, get_line, c_str]

/-- A read leaves no more bytes than there were. -/
theorem read_file_line_length_le (doc : List Char) :
    (read_file_line doc).2.2.length ≤ doc.length := by
  cases hflag : (read_file_line doc).2.1 with
  | true =>
    have := read_file_line_flag doc hflag
    subst this
    simp [read_file_line_nil]
  | false => exact Nat.le_of_lt (read_file_line_length doc hflag)

theorem name_negotiate_loop_flag (fuel : Nat) (data : Client.ClientData) :
    Client.name_negotiate_loop fuel data true = (data, true) := by
  cases fuel with
  | zero => rfl
  | succ fuel => simp [Client.name_negotiate_loop]

theorem name_negotiate_loop_authenticated (fuel : Nat) (data : Client.ClientData) (e : Bool)
    (h : data.authenticated = true) :
    Client.name_negotiate_loop fuel data e = (data, e) := by
  cases fuel with
  | zero => rfl
  | succ fuel => simp [Client.name_negotiate_loop, h]

/-- One round of the client's `name_negotiate` loop: the loop goes on with a
client that has the same active flag and exit code, and either the flag
`isLineEmpty` is set, at the end of the stream, or bytes were read. -/
theorem name_negotiate_loop_round (fuel : Nat) (data : Client.ClientData)
    (hauth : data.authenticated = false) :
    ∃ data1 e1,
      Client.name_negotiate_loop (fuel + 1) data false
        = Client.name_negotiate_loop fuel data1 e1 ∧
      data1.isActive = data.isActive ∧ data1.exitCode = data.exitCode ∧
      (e1 = true → data1.readFrom = [] ∧ data1.authenticated = false) ∧
      (e1 = false → data1.readFrom.length < data.readFrom.length) := by
  obtain ⟨isActive, authenticated, name, password, exitCode, clientNo, writeTo, readFrom⟩ := data
  simp only at hauth
  subst hauth
  rw [Client.name_negotiate_loop]
  simp only [Bool.not_false, Bool.and_self, if_true, Bool.false_or,
    Client.read_server_line, Client.send_to_server]
  have hA : ∀ doc : List Char, (read_file_line doc).2.1 = true →
      (read_file_line doc).2.2 = [] := by
    intro doc h
    have := read_file_line_flag _ h
    rw [this, read_file_line_nil]
  have hC : ∀ (doc : List Char) (args : LineList),
      cmd_to_lines (read_file_line doc).1 CLIENT = some args →
      (read_file_line doc).2.1 = false := by
    intro doc args hparse
    cases hf : (read_file_line doc).2.1 with
    | false => rfl
    | true =>
      have hd := read_file_line_flag _ hf
      rw [hd, read_file_line_nil] at hparse
      simp [cmd_to_lines] at hparse
  cases hparse : cmd_to_lines (read_file_line readFrom).1 CLIENT with
  | none =>
    exact ⟨_, _, rfl, rfl, rfl, fun h => ⟨hA _ h, rfl⟩, read_file_line_length _⟩
  | some cmdArgs =>
    have hflag1 := hC _ _ hparse
    have hlen1 := read_file_line_length _ hflag1
    simp only [hflag1, Bool.false_or]
    by_cases hwho : get_cmd_no cmdArgs.head? CLIENT = some Client.WHO
    · simp only [if_pos hwho]
      have hlen2 := read_file_line_length_le (read_file_line readFrom).2.2
      cases hparse2 : cmd_to_lines (read_file_line (read_file_line readFrom).2.2).1 CLIENT with
      | none =>
        exact ⟨_, _, rfl, rfl, rfl, fun h => ⟨hA _ h, rfl⟩, fun _ => Nat.lt_of_le_of_lt hlen2 hlen1⟩
      | some cmdArgs2 =>
        have hflag2 := hC _ _ hparse2
        simp only [hflag2]
        by_cases hok : get_cmd_no cmdArgs2.head? CLIENT = some Client.OK
        · simp only [if_pos hok]
          exact ⟨_, _, rfl, rfl, rfl, (fun h => Bool.noConfusion h), fun _ => Nat.lt_of_le_of_lt hlen2 hlen1⟩
        · simp only [if_neg hok]
          by_cases htaken : get_cmd_no cmdArgs2.head? CLIENT = some Client.NAME_TAKEN
          · simp only [if_pos htaken]
            exact ⟨_, _, rfl, rfl, rfl, (fun h => Bool.noConfusion h),
              fun _ => Nat.lt_of_le_of_lt hlen2 hlen1⟩
          · simp only [if_neg htaken]
            exact ⟨_, _, rfl, rfl, rfl, (fun h => Bool.noConfusion h),
              fun _ => Nat.lt_of_le_of_lt hlen2 hlen1⟩
    · simp only [if_neg hwho]
      exact ⟨_, _, rfl, rfl, rfl, (fun h => Bool.noConfusion h), fun _ => hlen1⟩

/-- The client's `name_negotiate` loop ends, with the bound `name_negotiate`
passes, either authenticated or with the flag `isLineEmpty` set at the end of
the stream; the active flag and the exit code are as they were. -/
theorem name_negotiate_loop_ends (fuel : Nat) (data : Client.ClientData)
    (hfuel : data.readFrom.length + 2 ≤ fuel) (hauth : data.authenticated = false) :
    (Client.name_negotiate_loop fuel data false).1.isActive = data.isActive ∧
    (Client.name_negotiate_loop fuel data false).1.exitCode = data.exitCode ∧
    (((Client.name_negotiate_loop fuel data false).2 = false ∧
        (Client.name_negotiate_loop fuel data false).1.authenticated = true) ∨
      ((Client.name_negotiate_loop fuel data false).2 = true ∧
        (Client.name_negotiate_loop fuel data false).1.authenticated = false ∧
        (Client.name_negotiate_loop fuel data false).1.readFrom = [])) := by
  induction fuel generalizing data with
  | zero => omega
  | succ fuel ih =>
    obtain ⟨data1, e1, hstep, hact, hcode, htrue, hfalse⟩ :=
      name_negotiate_loop_round fuel data hauth
    rw [hstep]
    cases e1 with
    | true =>
      obtain ⟨hread, hauth1⟩ := htrue rfl
      rw [name_negotiate_loop_flag]
      exact ⟨hact, hcode, Or.inr ⟨rfl, hauth1, hread⟩⟩
    | false =>
      have hlen := hfalse rfl
      cases hauth1 : data1.authenticated with
      | true =>
        rw [name_negotiate_loop_authenticated fuel data1 false hauth1]
        exact ⟨hact, hcode, Or.inl ⟨rfl, hauth1⟩⟩
      | false =>
        obtain ⟨h1, h2, h3⟩ := ih data1 (by omega) hauth1
        exact ⟨h1.trans hact, h2.trans hcode, h3⟩

/-- The client's `name_negotiate` ends either authenticated, with the active
flag and the exit code as they were, or at the end of the server's stream,
inactive and with the exit code `COMMS` if it had none. -/
theorem name_negotiate_ends (data : Client.ClientData) (hauth : data.authenticated = false) :
    ((Client.name_negotiate data).authenticated = true ∧
      (Client.name_negotiate data).isActive = data.isActive ∧
      (Client.name_negotiate data).exitCode = data.exitCode) ∨
    ((Client.name_negotiate data).authenticated = false ∧
      (Client.name_negotiate data).readFrom = [] ∧
      (Client.name_negotiate data).isActive = false ∧
      (Client.name_negotiate data).exitCode
        = if data.exitCode < 0 then Client.COMMS else data.exitCode) := by
  obtain ⟨h1, h2, h3⟩ :=
    name_negotiate_loop_ends (data.readFrom.length + 2) data (Nat.le_refl _) hauth
  unfold Client.name_negotiate
  rcases h3 with ⟨hflag, hdone⟩ | ⟨hflag, hnot, hread⟩
  · left
    simp only [hflag, Bool.false_eq_true, if_false]
    exact ⟨hdone, h1, h2⟩
  · right
    have hres : (let r := Client.name_negotiate_loop (data.readFrom.length + 2) data false
        if r.2 = true then Client.disable_client r.1 Client.COMMS else r.1)
        = Client.disable_client
          (Client.name_negotiate_loop (data.readFrom.length + 2) data false).1 Client.COMMS := by
      simp only [hflag, if_true]
    rw [hres]
    exact ⟨hnot, hread, rfl, by simp only [Client.disable_client, h2]⟩

theorem stream_of_lines_append (pre post : List CString) :
    stream_of_lines (pre ++ post) = stream_of_lines pre ++ stream_of_lines post := by
  simp [stream_of_lines, List.flatMap_append]

/-- The client's `authenticate_client` on a stream that begins with lines
that are no `AUTH` command is its loop on the rest of the stream. -/
theorem authenticate_client_skip_lines (data : Client.ClientData) (pre : List CString)
    (rest : List Char)
    (hpre : ∀ l ∈ pre, '\n' ∉ l ∧ Char.ofNat 0 ∉ l ∧ is_auth_line l = false) :
    ∃ m, Client.authenticate_client { data with readFrom := stream_of_lines pre ++ rest }
      = Client.authenticate_client_loop (m + 1) { data with readFrom := rest } := by
  have hlen := stream_of_lines_length pre
  refine ⟨(stream_of_lines pre).length - pre.length + rest.length, ?_⟩
  have hfuel : (stream_of_lines pre ++ rest).length + 1
      = ((stream_of_lines pre).length - pre.length + rest.length + 1) + pre.length := by
    simp only [List.length_append]
    omega
  unfold Client.authenticate_client
  simp only [hfuel]
  exact authenticate_client_loop_skip_lines _ data pre rest hpre

/-- C24, as stated, fails: the server sends `AUTH:` and its stream then
reaches its end (as when the server closes a peer that sent a wrong
password). The client is still in authentication, and the exit code it
records is `FAILED_AUTH` (4), not `COMMS` (2), although the server answered
with no line at all. -/
theorem authenticate_client_eof_after_challenge :
    Client.authenticate_client
        (Client.init_client_data "bob".toList (some "pw".toList) "AUTH:\n".toList)
      = some
        { isActive := false, authenticated := false, name := "bob".toList,
          password := some "pw".toList, exitCode := 4, clientNo := -1,
          writeTo := "AUTH:pw\n".toList, readFrom := [] } := by
  decide

/-- C24 (amended): for a client with a password, and a server stream that
begins with lines `pre` that are no `AUTH` command. If the stream ends
before an `AUTH` command, the client becomes inactive with the exit code
`COMMS` (2) and has sent nothing. If the stream ends right after the `AUTH`
command `a`, the client has sent `AUTH:` and its password and becomes
inactive with the exit code `FAILED_AUTH` (4). If a line `reply` follows, the
client goes on unchanged (but for what it sent and read) when `reply` is
`OK:` and becomes inactive with the exit code `FAILED_AUTH` otherwise. An exit
code is recorded only if none was recorded before. The client's
`name_negotiate` ends either authenticated, with the active flag and the exit
code as they were, or at the end of the stream, inactive with the exit code
`COMMS`. -/
theorem authenticate_client_exit_code (data : Client.ClientData) (pw : CString)
    (pre : List CString) (a : CString) (hpw : data.password = some pw)
    (hpre : ∀ l ∈ pre, '\n' ∉ l ∧ Char.ofNat 0 ∉ l ∧ is_auth_line l = false)
    (ha : '\n' ∉ a ∧ Char.ofNat 0 ∉ a ∧ is_auth_line a = true) :
    Client.authenticate_client { data with readFrom := stream_of_lines pre }
      = some (Client.disable_client { data with readFrom := [] } Client.COMMS) ∧
    Client.authenticate_client { data with readFrom := stream_of_lines (pre ++ [a]) }
      = some (Client.disable_client
          { data with
            writeTo := data.writeTo ++ ("AUTH:".toList ++ pw) ++ "\n".toList,
            readFrom := [] } Client.FAILED_AUTH) ∧
    (∀ (reply : CString) (rest : List Char), '\n' ∉ reply → Char.ofNat 0 ∉ reply →
      Client.authenticate_client
          { data with readFrom := stream_of_lines (pre ++ [a, reply]) ++ rest }
        = some
          (if reply = "OK:".toList then
            { data with
              writeTo := data.writeTo ++ ("AUTH:".toList ++ pw) ++ "\n".toList,
              readFrom := rest }
          else
            Client.disable_client
              { data with
                writeTo := data.writeTo ++ ("AUTH:".toList ++ pw) ++ "\n".toList,
                readFrom := rest } Client.FAILED_AUTH)) ∧
    (data.authenticated = false →
      ((Client.name_negotiate data).authenticated = true ∧
        (Client.name_negotiate data).isActive = data.isActive ∧
        (Client.name_negotiate data).exitCode = data.exitCode) ∨
      ((Client.name_negotiate data).authenticated = false ∧
        (Client.name_negotiate data).readFrom = [] ∧
        (Client.name_negotiate data).isActive = false ∧
        (Client.name_negotiate data).exitCode
          = if data.exitCode < 0 then Client.COMMS else data.exitCode)) := by
  obtain ⟨hnl, hnul, hauth⟩ := ha
  refine ⟨?_, ?_, ?_, name_negotiate_ends data⟩
  · obtain ⟨m, hm⟩ := authenticate_client_skip_lines data pre [] hpre
    rw [List.append_nil] at hm
    rw [hm]
    exact authenticate_client_loop_eof m _ rfl
  · obtain ⟨m, hm⟩ := authenticate_client_skip_lines data pre (a ++ '\n' :: []) hpre
    have hstream : stream_of_lines (pre ++ [a]) = stream_of_lines pre ++ (a ++ '\n' :: []) := by
      rw [stream_of_lines_append]
      simp [stream_of_lines]
    rw [hstream, hm, authenticate_client_loop_challenge m data pw a [] hpw hnl hnul hauth]
    simp [read_file_line_nil]
  · intro reply rest hrnl hrnul
    obtain ⟨m, hm⟩ := authenticate_client_skip_lines data pre
      (a ++ '\n' :: (reply ++ '\n' :: rest)) hpre
    have hstream : stream_of_lines (pre ++ [a, reply]) ++ rest
        = stream_of_lines pre ++ (a ++ '\n' :: (reply ++ '\n' :: rest)) := by
      rw [stream_of_lines_append]
      simp [stream_of_lines]
    rw [hstream, hm, authenticate_client_loop_challenge m data pw a _ hpw hnl hnul hauth,
      read_file_line_of_line reply rest hrnl hrnul]
    by_cases hok : reply = "OK:".toList
    · have hcmp : strcmp reply "OK:".toList = 0 := (strcmp_eq_zero_iff _ _).2 hok
      have hcond : ¬ (strcmp reply "OK:".toList ≠ 0 ∨ false = true) := by
        intro h
        rcases h with h | h
        · exact h hcmp
        · cases h
      simp only [if_neg hcond, if_pos hok]
      rfl
    · have hcmp : strcmp reply "OK:".toList ≠ 0 := fun hz => hok ((strcmp_eq_zero_iff _ _).1 hz)
      have hcond : strcmp reply "OK:".toList ≠ 0 ∨ false = true := Or.inl hcmp
      simp only [if_pos hcond, if_neg hok]
      rfl

/-- C24 (amended), for `bob` with the password `pw` and a server that sends
`WHO:` first: the end of the stream after it gives the exit code 2, the end
of the stream after `AUTH:` gives 4, and `OK:` after `AUTH:` leaves the client
active without an exit code. -/
theorem authenticate_client_exit_code_witness :
    Client.authenticate_client
        (Client.init_client_data "bob".toList (some "pw".toList) "WHO:\n".toList)
      = some
        { isActive := false, authenticated := false, name := "bob".toList,
          password := some "pw".toList, exitCode := 2, clientNo := -1, writeTo := [],
          readFrom := [] } ∧
    Client.authenticate_client
        (Client.init_client_data "bob".toList (some "pw".toList) "WHO:\nAUTH:\n".toList)
      = some
        { isActive := false, authenticated := false, name := "bob".toList,
          password := some "pw".toList, exitCode := 4, clientNo := -1,
          writeTo := "AUTH:pw\n".toList, readFrom := [] } ∧
    Client.authenticate_client
        (Client.init_client_data "bob".toList (some "pw".toList) "WHO:\nAUTH:\nOK:\nWHO:\n".toList)
      = some
        { isActive := true, authenticated := false, name := "bob".toList,
          password := some "pw".toList, exitCode := -1, clientNo := -1,
          writeTo := "AUTH:pw\n".toList, readFrom := "WHO:\n".toList } :=
  ⟨(authenticate_client_exit_code (Client.init_client_data "bob".toList (some "pw".toList) [])
      "pw".toList ["WHO:".toList] "AUTH:".toList rfl (by decide) (by decide)).1.trans (by decide),
   (authenticate_client_exit_code (Client.init_client_data "bob".toList (some "pw".toList) [])
      "pw".toList ["WHO:".toList] "AUTH:".toList rfl (by decide) (by decide)).2.1.trans (by decide),
   ((authenticate_client_exit_code (Client.init_client_data "bob".toList (some "pw".toList) [])
      "pw".toList ["WHO:".toList] "AUTH:".toList rfl (by decide) (by decide)).2.2.1
      "OK:".toList "WHO:\n".toList (by decide) (by decide)).trans (by decide)⟩

/-! ## Claim C25: the authfile -/

/-- `get_password` never sets the flag for a file that could be opened. -/
theorem get_password_opened (signedChar : Bool) (doc : List Char) :
    (get_password signedChar (some doc)).2 = false := by
  simp only [get_password]
  cases h : file_to_lines signedChar doc <;> rfl

/-- `get_line` on a stream that begins with a line without a newline,
followed by a newline. -/
theorem get_line_of_line (l rest : List Char) (hnl : '\n' ∉ l) :
    get_line (l ++ '\n' :: rest) = (l, false, false, rest) := by
  have hall : ∀ x ∈ l, (fun d : Char => d != '\n') x = true := by
    intro x hx
    have : x ≠ '\n' := fun h => hnl (h ▸ hx)
    simp [this]
  have htake := takeWhile_append_stop (fun d => d != '\n') l '\n' rest hall (by simp)
  have hdrop := dropWhile_append_stop (fun d => d != '\n') l '\n' rest hall (by simp)
  cases l with
  | nil => simp [get_line, get_line_loop_eq]
  | cons c l =>
    rw [List.cons_append] at htake hdrop
    simp only [List.cons_append, get_line, get_line_loop_eq, htake, hdrop, List.tail_cons]
    simp

/-- A file that holds one line and its newline: `get_password` returns the
line and does not set the flag. -/
theorem get_password_one_line (signedChar : Bool) (l : CString)
    (hnl : '\n' ∉ l) (hnul : Char.ofNat 0 ∉ l) :
    get_password signedChar (some (l ++ "\n".toList)) = (some l, false) := by
  have hget : get_line (l ++ '\n' :: []) = (l, false, false, []) := get_line_of_line l [] hnl
  have hstr : c_str l = l := c_str_of_no_nul l hnul
  have hdoc : l ++ "\n".toList = l ++ '\n' :: [] := rfl
  have hlines : file_to_lines signedChar (l ++ '\n' :: []) = [l] := by
    unfold file_to_lines
    simp only [List.length_append, List.length_cons, List.length_nil]
    rw [file_to_lines_loop, hget]
    simp only [hstr, List.nil_append, Bool.false_eq_true, if_false]
    rw [file_to_lines_loop]
    simp [get_line, c_str]
  rw [hdoc]
  simp [get_password, hlines]

/-- C25: what `get_password` does with an authfile of two non-empty lines:
it returns the first line as the password and does not set the flag; the flag
is set only for a file that cannot be opened. An empty file gives no password
and no flag, and a file of one line gives that line. -/
theorem get_password_two_lines :
    get_password true (some "hunter2\nextra\n".toList) = (some "hunter2".toList, false) ∧
    get_password false (some "hunter2\nextra\n".toList) = (some "hunter2".toList, false) ∧
    get_password true (some "hunter2\nextra".toList) = (some "hunter2".toList, false) ∧
    get_password true (some []) = (none, false) ∧
    get_password true (some "hunter2\n".toList) = (some "hunter2".toList, false) ∧
    get_password true none = (none, true) := by
  decide

/-! ## Claim C28: leading colons -/

/-- `strtok_r` skips a leading delimiter. -/
theorem strtok_r_leading_colon (s : CString) : strtok_r (':' :: s) [':'] = strtok_r s [':'] := by
  simp [strtok_r, List.dropWhile]

/-- `get_cmd_args` gives the same for a non-empty command with a colon put
before it. -/
theorem get_cmd_args_leading_colon (c : Char) (L : CString) (sentTo : CmdSentTo) :
    get_cmd_args (':' :: c :: L) sentTo = get_cmd_args (c :: L) sentTo := by
  simp only [get_cmd_args, strtok_r_leading_colon, List.getLast?_cons_cons]

/-- C28: for every line `L` and either role, `cmd_to_lines` gives for `L`
with a colon put before it what it gives for `L` (both `NULL`, or the same
fields), and so for any number of colons put before it; the line `:::SAY:hi`
is accepted for the server as `SAY` with the payload `hi`. -/
theorem cmd_to_lines_leading_colon (L : CString) (sentTo : CmdSentTo) :
    cmd_to_lines (':' :: L) sentTo = cmd_to_lines L sentTo ∧
    (∀ n : Nat, cmd_to_lines (List.replicate n ':' ++ L) sentTo = cmd_to_lines L sentTo) ∧
    cmd_to_lines ":::SAY:hi".toList SERVER = some ["SAY".toList, "hi".toList] := by
  have hone : ∀ M : CString, cmd_to_lines (':' :: M) sentTo = cmd_to_lines M sentTo := by
    intro M
    cases M with
    | nil => cases sentTo <;> decide
    | cons c M =>
      simp only [cmd_to_lines, get_cmd_args_leading_colon, List.length_cons]
      have h1 : ¬ (M.length + 1 + 1 < 1) := by omega
      have h2 : ¬ (M.length + 1 < 1) := by omega
      simp only [if_neg h1, if_neg h2]
  refine ⟨hone L, ?_, by decide⟩
  intro n
  induction n with
  | zero => rfl
  | succ n ih =>
    rw [List.replicate_succ, List.cons_append, hone, ih]

/-! ## Claim C30: the fields read by the handlers of the client -/

/-- The accepted lines on which the client's `handle_cmd` reads a field that
is not there: those that parse as `LIST` alone, or as `MSG` and a name. -/
theorem client_handle_cmd_fault (p : Client.ClientProcess) (L : CString) (fields : LineList)
    (h : cmd_to_lines L CLIENT = some fields) :
    Client.handle_cmd p L = none ↔
      (fields = ["LIST".toList] ∨ ∃ n, fields = ["MSG".toList, n]) := by
  obtain ⟨t, k, hno, hmin, hshape⟩ := cmd_to_lines_shape L CLIENT fields h
  obtain ⟨hx, hk⟩ := get_cmd_no_lookup CLIENT t k hno
  simp only [cmdCount] at hk
  have hhead : fields.head? = some t := by
    rcases hshape with ⟨hf, -⟩ | ⟨r, hf, -⟩ | ⟨n, hf, -⟩ | ⟨n, q, hf, -⟩ <;> rw [hf] <;> rfl
  simp only [Client.handle_cmd, h, hhead, hno]
  interval_cases k <;>
    simp only [cmdWords, clientCmdWords, List.getElem?_cons_zero, List.getElem?_cons_succ,
      Option.some.injEq] at hx <;>
    subst hx <;>
    rcases hshape with ⟨hf, hmax⟩ | ⟨r, hf, -, hmax, -⟩ | ⟨n, hf, -, -, hmax, -⟩ |
      ⟨n, q, hf, -, -, -, hmax⟩ <;>
    subst hf <;>
    simp [Client.handlers, Client.handle_unused, Client.handle_kick, Client.handle_list,
      Client.handle_msg, Client.handle_enter, Client.handle_leave, maxCmdLengths,
      minCmdLengths, maxClientCmdLengths, minClientCmdLengths, String.toList] at hmin hmax ⊢

/-- C30: what the client's `handle_cmd` does for the accepted lines `MSG:n:`
and `LIST:`. The line `MSG:bob:` is accepted with the two fields `MSG` and
`bob`, and `handle_msg` then reads field 2; the line `LIST:` is accepted with
the one field `LIST`, and `handle_list` then reads field 1. Both reads are past
the end of the fields. -/
theorem client_handle_cmd_reads_past_fields :
    cmd_to_lines "MSG:bob:".toList CLIENT = some ["MSG".toList, "bob".toList] ∧
    Client.handle_msg ⟨Client.init_client_data "amy".toList none [], []⟩
        ["MSG".toList, "bob".toList] = none ∧
    Client.handle_cmd ⟨Client.init_client_data "amy".toList none [], []⟩ "MSG:bob:".toList
      = none ∧
    cmd_to_lines "LIST:".toList CLIENT = some ["LIST".toList] ∧
    Client.handle_list ⟨Client.init_client_data "amy".toList none [], []⟩ ["LIST".toList]
      = none ∧
    Client.handle_cmd ⟨Client.init_client_data "amy".toList none [], []⟩ "LIST:".toList
      = none ∧
    Client.handle_cmd ⟨Client.init_client_data "amy".toList none [], []⟩ "MSG:bob:hi".toList
      = some ⟨Client.init_client_data "amy".toList none [], "bob: hi\n".toList⟩ := by
  decide

/-! ## Claim C27: `remove_client` -/

theorem strcmp_cons_lt (x y : Char) (s t : CString) :
    strcmp (x :: s) (y :: t) < 0 ↔ (x = y ∧ strcmp s t < 0) ∨ (x ≠ y ∧ x.toNat < y.toNat) := by
  by_cases hxy : x = y
  · simp [strcmp, hxy]
  · by_cases hlt : x.toNat < y.toNat <;> simp [strcmp, hxy, hlt]

/-- `strcmp` below zero is transitive. -/
theorem strcmp_trans (a b c : CString) (h1 : strcmp a b < 0) (h2 : strcmp b c < 0) :
    strcmp a c < 0 := by
  induction a generalizing b c with
  | nil =>
    cases b with
    | nil => simp [strcmp] at h1
    | cons y t =>
      cases c with
      | nil => simp [strcmp] at h2
      | cons z u => simp [strcmp]
  | cons x s ih =>
    cases b with
    | nil => simp [strcmp] at h1
    | cons y t =>
      cases c with
      | nil => simp [strcmp] at h2
      | cons z u =>
        rw [strcmp_cons_lt] at h1 h2 ⊢
        rcases h1 with ⟨hxy, hst⟩ | ⟨hxy, hlt1⟩
        · subst hxy
          rcases h2 with ⟨hyz, htu⟩ | ⟨hyz, hlt2⟩
          · exact Or.inl ⟨hyz, ih t u hst htu⟩
          · exact Or.inr ⟨hyz, hlt2⟩
        · rcases h2 with ⟨hyz, htu⟩ | ⟨hyz, hlt2⟩
          · subst hyz
            exact Or.inr ⟨hxy, hlt1⟩
          · refine Or.inr ⟨?_, by omega⟩
            intro hxz
            subst hxz
            omega

theorem name_lt_trans (a b c : ClientNode) (h1 : name_lt a b = true) (h2 : name_lt b c = true) :
    name_lt a c = true := by
  unfold name_lt at *
  cases ha : a.name with
  | none => simp [ha] at h1
  | some x =>
    cases hb : b.name with
    | none => simp [ha, hb] at h1
    | some y =>
      cases hc : c.name with
      | none => simp [hb, hc] at h2
      | some z =>
        simp only [ha, hb, hc, decide_eq_true_eq] at h1 h2 ⊢
        exact strcmp_trans x y z h1 h2

/-- An ascending list has names everywhere and each name is below every
later one. -/
theorem ascending_pairwise (l : List ClientNode) (h : ascending l = true) :
    (∀ c ∈ l, c.name.isSome = true) ∧ l.Pairwise (fun a b => name_lt a b = true) := by
  induction l with
  | nil => exact ⟨by simp, List.Pairwise.nil⟩
  | cons a rest ih =>
    cases rest with
    | nil =>
      refine ⟨?_, List.pairwise_singleton _ _⟩
      intro c hc
      simp only [List.mem_singleton] at hc
      subst hc
      simpa [ascending] using h
    | cons b rest =>
      rw [ascending_cons_cons, Bool.and_eq_true] at h
      obtain ⟨hab, hrest⟩ := h
      obtain ⟨hnamed, hpair⟩ := ih hrest
      have ha : a.name.isSome = true := by
        unfold name_lt at hab
        cases hn : a.name with
        | none => simp [hn] at hab
        | some x => rfl
      refine ⟨?_, ?_⟩
      · intro c hc
        rcases List.mem_cons.mp hc with hc | hc
        · rw [hc]; exact ha
        · exact hnamed c hc
      · refine List.Pairwise.cons ?_ hpair
        intro c hc
        rcases List.mem_cons.mp hc with hc | hc
        · rw [hc]; exact hab
        · exact name_lt_trans a b c hab ((List.pairwise_cons.mp hpair).1 c hc)

/-- A list with names everywhere and each name below every later one is
ascending. -/
theorem ascending_of_pairwise (l : List ClientNode) (hnamed : ∀ c ∈ l, c.name.isSome = true)
    (hpair : l.Pairwise (fun a b => name_lt a b = true)) : ascending l = true := by
  induction l with
  | nil => rfl
  | cons a rest ih =>
    cases rest with
    | nil => simpa [ascending] using hnamed a (by simp)
    | cons b rest =>
      rw [ascending_cons_cons, Bool.and_eq_true]
      obtain ⟨hhead, htail⟩ := List.pairwise_cons.mp hpair
      exact ⟨hhead b (by simp), ih (fun c hc => hnamed c (by simp [hc])) htail⟩

/-- A sublist of an ascending list is ascending. -/
theorem ascending_sublist (l l2 : List ClientNode) (hsub : l2.Sublist l)
    (h : ascending l = true) : ascending l2 = true := by
  obtain ⟨hnamed, hpair⟩ := ascending_pairwise l h
  exact ascending_of_pairwise l2 (fun c hc => hnamed c (hsub.subset hc)) (hpair.sublist hsub)

/-- The loop of `remove_client` takes out the first node at the address. -/
theorem remove_client_loop_split (client : Nat) (pre : List ClientNode) (c : ClientNode)
    (post : List ClientNode) (hc : c.id = client) (hpre : ∀ d ∈ pre, d.id ≠ client) :
    remove_client_loop client (pre ++ c :: post) = pre ++ post := by
  induction pre with
  | nil => simp [remove_client_loop, hc]
  | cons d pre ih =>
    have hd : d.id ≠ client := hpre d (by simp)
    have ih1 := ih fun x hx => hpre x (by simp [hx])
    rw [List.cons_append, remove_client_loop, if_neg hd, ih1]
    rfl

/-- The loop of `remove_client` changes nothing when no node is at the
address. -/
theorem remove_client_loop_absent (client : Nat) (l : List ClientNode)
    (h : ∀ d ∈ l, d.id ≠ client) : remove_client_loop client l = l := by
  induction l with
  | nil => rfl
  | cons d l ih =>
    have hd : d.id ≠ client := h d (by simp)
    simp only [remove_client_loop, if_neg hd]
    rw [ih fun x hx => h x (by simp [hx])]

/-! ### The nodes in memory -/

theorem node_at_set_ne (mem : Nodes.Memory) (a b : Nat) (v : Option Nodes.ClientNode)
    (h : a ≠ b) : Nodes.node_at (mem.set a v) b = Nodes.node_at mem b := by
  simp only [Nodes.node_at, List.getElem?_set_ne h]

theorem node_at_set_self (mem : Nodes.Memory) (a : Nat) (node : Nodes.ClientNode)
    (h : a < mem.length) : Nodes.node_at (mem.set a (some node)) a = some node := by
  simp only [Nodes.node_at, List.getElem?_set_self h]

theorem node_at_free_self (mem : Nodes.Memory) (a : Nat) :
    Nodes.node_at (Nodes.free_node mem a) a = none := by
  simp only [Nodes.node_at, Nodes.free_node, List.getElem?_set]
  split_ifs <;> rfl

theorem node_at_lt (mem : Nodes.Memory) (a : Nat) (node : Nodes.ClientNode)
    (h : Nodes.node_at mem a = some node) : a < mem.length := by
  unfold Nodes.node_at at h
  cases hget : mem[a]? with
  | none => simp [hget] at h
  | some v => exact (List.getElem?_eq_some_iff.mp hget).1

/-- A change of the memory at an address that is not of the list leaves the
list as it is. -/
theorem linked_frame (mem : Nodes.Memory) (prev cur : Option Nat) (l : List (Nat × Nat))
    (a : Nat) (v : Option Nodes.ClientNode) (h : Linked mem prev cur l)
    (ha : a ∉ l.map Prod.fst) : Linked (mem.set a v) prev cur l := by
  induction l generalizing prev cur with
  | nil => exact h
  | cons x rest ih =>
    obtain ⟨b, c⟩ := x
    obtain ⟨hcur, node, hnode, hclient, hprev, hrest⟩ := h
    have hab : a ≠ b := fun hab => ha (by simp [hab])
    have harest : a ∉ rest.map Prod.fst := fun hin => ha (by simp at hin ⊢; exact Or.inr hin)
    exact ⟨hcur, node, by rw [node_at_set_ne mem a b v hab]; exact hnode, hclient, hprev,
      ih (some b) node.next hrest harest⟩

/-- The first node of a list may be taken as the head. -/
theorem linked_weaken (mem : Nodes.Memory) (prev cur : Option Nat) (l : List (Nat × Nat))
    (h : Linked mem prev cur l) : Linked mem none cur l := by
  cases l with
  | nil => exact h
  | cons x rest =>
    obtain ⟨b, c⟩ := x
    obtain ⟨hcur, node, hnode, hclient, -, hrest⟩ := h
    exact ⟨hcur, node, hnode, hclient, (fun p hp => Option.noConfusion hp), hrest⟩

/-- The loop of `remove_client` in memory stops at the first node of the
list with the client, and calls `remove_node` on it; without such a node it
changes nothing. -/
theorem remove_client_loop_find (clients : Nodes.ClientList) (prev cur : Option Nat)
    (rem : List (Nat × Nat)) (client fuel : Nat) (hl : Linked clients.mem prev cur rem)
    (hfuel : rem.length < fuel) :
    Nodes.remove_client_loop fuel clients cur client =
      match rem.find? (fun x => x.2 == client) with
      | none => some clients
      | some x => Nodes.remove_node clients x.1 := by
  induction rem generalizing prev cur fuel with
  | nil =>
    have hcur : cur = none := hl
    subst hcur
    cases fuel with
    | zero => simp at hfuel
    | succ fuel => rfl
  | cons x rest ih =>
    obtain ⟨b, c⟩ := x
    obtain ⟨hcur, node, hnode, hclient, -, hrest⟩ := hl
    subst hcur
    cases fuel with
    | zero => simp at hfuel
    | succ fuel =>
      simp only [Nodes.remove_client_loop, hnode, hclient, List.find?_cons]
      by_cases hc : c = client
      · simp [hc]
      · have hb : (c == client) = false := by simp [hc]
        simp only [if_neg hc, hb]
        exact ih (some b) node.next fuel hrest (by simpa using hfuel)

/-- The nodes around a node of the list that is not the first. -/
theorem linked_lookup (mem : Nodes.Memory) (prev cur : Option Nat) (pre : List (Nat × Nat))
    (p pc a c : Nat) (post : List (Nat × Nat))
    (h : Linked mem prev cur (pre ++ (p, pc) :: (a, c) :: post)) :
    ∃ nodep nodea, Nodes.node_at mem p = some nodep ∧ nodep.next = some a ∧
      Nodes.node_at mem a = some nodea ∧ nodea.prev = some p ∧
      Linked mem (some a) nodea.next post := by
  induction pre generalizing prev cur with
  | nil =>
    obtain ⟨-, nodep, hp, -, -, hrest⟩ := h
    obtain ⟨hnext, nodea, ha, -, hprev, hpost⟩ := hrest
    exact ⟨nodep, nodea, hp, hnext, ha, hprev p rfl, hpost⟩
  | cons x pre ih =>
    obtain ⟨b, bc⟩ := x
    obtain ⟨-, node, -, -, -, hrest⟩ := h
    exact ih (some b) node.next hrest

/-- The list after a node that is not the first was taken out: the memory
has the new `next` at the node before, the nodes further before as they were,
and the nodes after linked behind the node before. -/
theorem linked_unlink (mem mem2 : Nodes.Memory) (prev cur : Option Nat)
    (pre : List (Nat × Nat)) (p pc a c : Nat) (post : List (Nat × Nat))
    (nodep nodea : Nodes.ClientNode)
    (h : Linked mem prev cur (pre ++ (p, pc) :: (a, c) :: post))
    (hp : Nodes.node_at mem p = some nodep)
    (hp2 : Nodes.node_at mem2 p = some { nodep with next := nodea.next })
    (hpost : Linked mem2 (some p) nodea.next post)
    (hother : ∀ b ∈ pre.map Prod.fst, Nodes.node_at mem2 b = Nodes.node_at mem b) :
    Linked mem2 prev cur (pre ++ (p, pc) :: post) := by
  induction pre generalizing prev cur with
  | nil =>
    obtain ⟨hcur, node, hnode, hclient, hprev, -⟩ := h
    have hnp : node = nodep := Option.some.inj (hnode.symm.trans hp)
    subst hnp
    exact ⟨hcur, _, hp2, hclient, hprev, hpost⟩
  | cons x pre ih =>
    obtain ⟨b, bc⟩ := x
    obtain ⟨hcur, node, hnode, hclient, hprev, hrest⟩ := h
    refine ⟨hcur, node, ?_, hclient, hprev, ?_⟩
    · rw [hother b (by simp)]
      exact hnode
    · exact ih (some b) node.next hrest fun d hd => hother d (by simp at hd ⊢; exact Or.inr hd)

/-- The addresses of the nodes of a list are places of the memory. -/
theorem linked_lt (mem : Nodes.Memory) (prev cur : Option Nat) (l : List (Nat × Nat))
    (h : Linked mem prev cur l) : ∀ a ∈ l.map Prod.fst, a < mem.length := by
  induction l generalizing prev cur with
  | nil => simp
  | cons x rest ih =>
    obtain ⟨b, c⟩ := x
    obtain ⟨-, node, hnode, -, -, hrest⟩ := h
    intro a ha
    simp only [List.map_cons, List.mem_cons] at ha
    rcases ha with ha | ha
    · rw [ha]
      exact node_at_lt mem b node hnode
    · exact ih (some b) node.next hrest a ha

/-- `remove_node` on the first node of a list in memory. -/
theorem remove_node_first (clients : Nodes.ClientList) (a c : Nat) (post : List (Nat × Nat))
    (h : Linked clients.mem none clients.head ((a, c) :: post))
    (hnodup : (((a, c) :: post).map Prod.fst).Nodup) :
    ∃ r, Nodes.remove_node clients a = some r ∧ Linked r.mem none r.head post ∧
      Nodes.node_at r.mem a = none := by
  obtain ⟨hhead, nodea, ha, -, -, hpost⟩ := h
  simp only [List.map_cons, List.nodup_cons] at hnodup
  refine ⟨{ head := nodea.next, mem := Nodes.free_node clients.mem a }, ?_, ?_, ?_⟩
  · simp only [Nodes.remove_node, ha, hhead, if_true]
  · exact linked_frame _ _ _ _ a none (linked_weaken _ _ _ _ hpost) hnodup.1
  · exact node_at_free_self _ a

/-- `remove_node` on the last node of a list in memory that has a node before
it. -/
theorem remove_node_last (clients : Nodes.ClientList) (pre : List (Nat × Nat))
    (p pc a c : Nat)
    (h : Linked clients.mem none clients.head (pre ++ (p, pc) :: (a, c) :: []))
    (hnodup : ((pre ++ (p, pc) :: (a, c) :: []).map Prod.fst).Nodup) :
    ∃ r, Nodes.remove_node clients a = some r ∧
      Linked r.mem none r.head (pre ++ (p, pc) :: []) ∧ Nodes.node_at r.mem a = none := by
  obtain ⟨nodep, nodea, hp, -, ha, hprev, hpost⟩ := linked_lookup _ _ _ pre p pc a c [] h
  have hnext : nodea.next = none := hpost
  rw [List.map_append, List.nodup_append] at hnodup
  simp only [List.map_cons, List.map_nil, List.nodup_cons, List.mem_cons, List.mem_singleton,
    not_or, List.disjoint_cons_right, List.not_mem_nil, not_false_eq_true, List.nodup_nil,
    and_true, true_and] at hnodup
  obtain ⟨-, hpa, hpP, haP, -⟩ := hnodup
  have hhead : clients.head ≠ some a := by
    intro hh
    cases pre with
    | nil =>
      obtain ⟨hcur, -⟩ := h
      rw [hh] at hcur
      exact hpa (Option.some.inj hcur).symm
    | cons x pre =>
      obtain ⟨b, bc⟩ := x
      obtain ⟨hcur, -⟩ := h
      rw [hh] at hcur
      exact haP (by simp [Option.some.inj hcur])
  have hplt := node_at_lt _ p nodep hp
  refine ⟨{ clients with
    mem := Nodes.free_node (clients.mem.set p (some { nodep with next := nodea.next })) a },
    ?_, ?_, ?_⟩
  · simp only [Nodes.remove_node, ha, if_neg hhead, hprev, hp, hnext]
  · refine linked_unlink clients.mem _ none clients.head pre p pc a c [] nodep nodea h hp ?_ ?_ ?_
    · rw [Nodes.free_node, node_at_set_ne _ a p none (fun hap => hpa hap.symm)]
      exact node_at_set_self _ p _ hplt
    · exact hnext
    · intro b hb
      have hba : a ≠ b := fun hab => haP (hab ▸ hb)
      have hbp : p ≠ b := fun hpb => hpP (hpb ▸ hb)
      rw [Nodes.free_node, node_at_set_ne _ a b none hba, node_at_set_ne _ p b _ hbp]
  · exact node_at_free_self _ a

/-- `remove_node` on a node of a list in memory that has a node before it and
a node after it. -/
theorem remove_node_middle (clients : Nodes.ClientList) (pre : List (Nat × Nat))
    (p pc a c q qc : Nat) (post : List (Nat × Nat))
    (h : Linked clients.mem none clients.head (pre ++ (p, pc) :: (a, c) :: (q, qc) :: post))
    (hnodup : ((pre ++ (p, pc) :: (a, c) :: (q, qc) :: post).map Prod.fst).Nodup) :
    ∃ r, Nodes.remove_node clients a = some r ∧
      Linked r.mem none r.head (pre ++ (p, pc) :: (q, qc) :: post) ∧
      Nodes.node_at r.mem a = none := by
  obtain ⟨nodep, nodea, hp, -, ha, hprev, hpost⟩ :=
    linked_lookup _ _ _ pre p pc a c ((q, qc) :: post) h
  obtain ⟨hnext, nodeq, hq, hqclient, -, hqrest⟩ := hpost
  rw [List.map_append, List.nodup_append] at hnodup
  simp only [List.map_cons, List.nodup_cons, List.mem_cons, not_or,
    List.disjoint_cons_right] at hnodup
  obtain ⟨-, ⟨⟨hpa, hpq, hpB⟩, ⟨haq, haB⟩, hqB, -⟩, hpP, haP, hqP, -⟩ := hnodup
  have hhead : clients.head ≠ some a := by
    intro hh
    cases pre with
    | nil =>
      obtain ⟨hcur, -⟩ := h
      rw [hh] at hcur
      exact hpa (Option.some.inj hcur).symm
    | cons x pre =>
      obtain ⟨b, bc⟩ := x
      obtain ⟨hcur, -⟩ := h
      rw [hh] at hcur
      exact haP (by simp [Option.some.inj hcur])
  have hplt := node_at_lt _ p nodep hp
  have hqlt := node_at_lt _ q nodeq hq
  have hq1 : Nodes.node_at (clients.mem.set p (some { nodep with next := nodea.next })) q
      = some nodeq := by
    rw [node_at_set_ne _ p q _ hpq]
    exact hq
  refine ⟨{ clients with
    mem := Nodes.free_node
      ((clients.mem.set p (some { nodep with next := nodea.next })).set q
        (some { nodeq with prev := nodea.prev })) a },
    ?_, ?_, ?_⟩
  · simp only [Nodes.remove_node, ha, if_neg hhead, hprev, hp]
    simp only [hnext, hprev] at hq1 ⊢
    simp only [hq1]
  · refine linked_unlink clients.mem _ none clients.head pre p pc a c ((q, qc) :: post)
      nodep nodea h hp ?_ ?_ ?_
    · rw [Nodes.free_node, node_at_set_ne _ a p none (fun hap => hpa hap.symm),
        node_at_set_ne _ q p _ (fun hqp => hpq hqp.symm)]
      exact node_at_set_self _ p _ hplt
    · refine ⟨hnext, { nodeq with prev := nodea.prev }, ?_, hqclient, ?_, ?_⟩
      · rw [Nodes.free_node, node_at_set_ne _ a q none haq]
        exact node_at_set_self _ q _ (by rw [List.length_set]; exact hqlt)
      · intro p2 hp2
        rw [← hp2]
        exact hprev
      · exact linked_frame _ _ _ _ a none
          (linked_frame _ _ _ _ q _ (linked_frame _ _ _ _ p _ hqrest hpB) hqB) haB
    · intro b hb
      have hba : a ≠ b := fun hab => haP (hab ▸ hb)
      have hbq : q ≠ b := fun hqb => hqP (hqb ▸ hb)
      have hbp : p ≠ b := fun hpb => hpP (hpb ▸ hb)
      rw [Nodes.free_node, node_at_set_ne _ a b none hba, node_at_set_ne _ q b _ hbq,
        node_at_set_ne _ p b _ hbp]
  · exact node_at_free_self _ a

/-- `remove_node` on any node of a list in memory: no fault, the node is
freed, and the memory holds the list without it, the other nodes in their
order. -/
theorem remove_node_linked (clients : Nodes.ClientList) (pre : List (Nat × Nat)) (a c : Nat)
    (post : List (Nat × Nat))
    (h : Linked clients.mem none clients.head (pre ++ (a, c) :: post))
    (hnodup : ((pre ++ (a, c) :: post).map Prod.fst).Nodup) :
    ∃ r, Nodes.remove_node clients a = some r ∧ Linked r.mem none r.head (pre ++ post) ∧
      Nodes.node_at r.mem a = none := by
  rcases List.eq_nil_or_concat pre with hpre | ⟨pre1, x, hpre⟩
  · subst hpre
    exact remove_node_first clients a c post h hnodup
  · obtain ⟨p, pc⟩ := x
    subst hpre
    rw [List.concat_eq_append, List.append_assoc, List.singleton_append] at h hnodup ⊢
    cases post with
    | nil => exact remove_node_last clients pre1 p pc a c h hnodup
    | cons y post =>
      obtain ⟨q, qc⟩ := y
      exact remove_node_middle clients pre1 p pc a c q qc post h hnodup

theorem find?_split (p : Nat × Nat → Bool) (l : List (Nat × Nat)) (x : Nat × Nat)
    (h : l.find? p = some x) :
    ∃ pre post, l = pre ++ x :: post ∧ p x = true ∧ ∀ y ∈ pre, ¬ p y = true := by
  induction l with
  | nil => simp at h
  | cons y l ih =>
    rw [List.find?_cons] at h
    cases hy : p y with
    | true =>
      rw [hy] at h
      cases h
      exact ⟨[], l, rfl, hy, by simp⟩
    | false =>
      rw [hy] at h
      obtain ⟨pre, post, hl, hx, hpre⟩ := ih h
      refine ⟨y :: pre, post, by rw [hl]; rfl, hx, ?_⟩
      intro z hz
      rcases List.mem_cons.mp hz with hz | hz
      · rw [hz, hy]; simp
      · exact hpre z hz

/-- A list of distinct numbers below `n` has at most `n` entries. -/
theorem nodup_length_le (l : List Nat) (n : Nat) (hn : l.Nodup) (hlt : ∀ a ∈ l, a < n) :
    l.length ≤ n := by
  have h1 : l.toFinset.card = l.length := List.toFinset_card_of_nodup hn
  have h2 : l.toFinset ⊆ Finset.range n := by
    intro a ha
    simp only [List.mem_toFinset] at ha
    simp only [Finset.mem_range]
    exact hlt a ha
  have h3 := Finset.card_le_card h2
  rw [Finset.card_range] at h3
  omega

/-- `remove_client` on a list in memory (nodes at distinct addresses): no
fault, and the memory then holds the list without the first node with the
client, the other nodes in their order; without such a node nothing
changes. -/
theorem remove_client_linked (clients : Nodes.ClientList) (l : List (Nat × Nat)) (client : Nat)
    (h : Linked clients.mem none clients.head l) (hnodup : (l.map Prod.fst).Nodup) :
    ∃ r, Nodes.remove_client clients client = some r ∧
      Linked r.mem none r.head (l.eraseP fun x => x.2 == client) ∧
      ((∀ x ∈ l, x.2 ≠ client) → r = clients) := by
  have hlen : l.length < clients.mem.length + 1 := by
    have := nodup_length_le (l.map Prod.fst) clients.mem.length hnodup (linked_lt _ _ _ l h)
    simp only [List.length_map] at this
    omega
  unfold Nodes.remove_client
  rw [remove_client_loop_find clients none clients.head l client _ h hlen]
  cases hfind : l.find? (fun x => x.2 == client) with
  | none =>
    have hnone := List.find?_eq_none.mp hfind
    refine ⟨clients, rfl, ?_, fun _ => rfl⟩
    rw [List.eraseP_of_forall_not hnone]
    exact h
  | some x =>
    obtain ⟨pre, post, hl, hx, hpre⟩ := find?_split _ l x hfind
    obtain ⟨a, c⟩ := x
    subst hl
    obtain ⟨r, hr, hlinked, -⟩ := remove_node_linked clients pre a c post h hnodup
    refine ⟨r, hr, ?_, ?_⟩
    · have herase : List.eraseP (fun x : Nat × Nat => x.2 == client) ((a, c) :: post) = post :=
        List.eraseP_cons_of_pos hx
      rw [List.eraseP_append_right _ hpre, herase]
      exact hlinked
    · intro hall
      have := hall (a, c) (by simp)
      simp only [beq_iff_eq] at hx
      exact absurd hx this

/-- The clients of the list `remove_client_loop` leaves are those of the
roster without the first at the address. -/
theorem remove_client_loop_ids (client : Nat) (roster : List ClientNode) :
    (remove_client_loop client roster).map (fun c => c.id)
      = (roster.map fun c => c.id).eraseP (fun i => i == client) := by
  induction roster with
  | nil => rfl
  | cons c roster ih =>
    by_cases hc : c.id = client
    · simp [remove_client_loop, hc]
    · have hb : (c.id == client) = false := by simp [hc]
      simp only [remove_client_loop, if_neg hc, List.map_cons, ih]
      rw [List.eraseP_cons_of_neg (by simp [hc])]

theorem eraseP_snd (client : Nat) (l : List (Nat × Nat)) :
    (l.eraseP fun x => x.2 == client).map Prod.snd
      = (l.map Prod.snd).eraseP (fun i => i == client) := by
  induction l with
  | nil => rfl
  | cons x l ih =>
    by_cases hx : x.2 = client
    · simp [hx]
    · rw [List.eraseP_cons_of_neg (by simp [hx]), List.map_cons, List.map_cons,
        List.eraseP_cons_of_neg (by simp [hx]), ih]

/-- C27: `remove_client` keeps the password and the counters. If no peer of
the roster is at the address, the roster is unchanged. If the roster is `pre`,
then the peer `c` at the address, then `post` (no peer of `pre` at the
address), then the roster becomes `pre` followed by `post`: exactly `c` is
removed, and the other peers keep their order, whether `c` was the first peer
(`pre` empty), in the middle or the last (`post` empty). An ascending roster
stays ascending and a roster without two peers of the same name stays so.
With the pointers as they are in memory: when the memory holds the nodes of
the roster (at distinct addresses, linked by `next` from `head`, `prev` of
each node but the first being the node before), `remove_client` with
`remove_node` does not fault, and the memory then holds, linked in the same
way, a sublist of the nodes whose clients are those of the roster that is
left. -/
theorem remove_client_frame (clients : ClientList) (client : Nat) :
    (remove_client clients client).password = clients.password ∧
    (remove_client clients client).stats = clients.stats ∧
    ((∀ d ∈ clients.head, d.id ≠ client) → remove_client clients client = clients) ∧
    (∀ (pre : List ClientNode) (c : ClientNode) (post : List ClientNode),
      clients.head = pre ++ c :: post → c.id = client → (∀ d ∈ pre, d.id ≠ client) →
      (remove_client clients client).head = pre ++ post) ∧
    (ascending clients.head = true → ascending (remove_client clients client).head = true) ∧
    (clients.head.Pairwise (fun a b => a.name ≠ b.name) →
      (remove_client clients client).head.Pairwise (fun a b => a.name ≠ b.name)) ∧
    (∀ (nodes : Nodes.ClientList) (l : List (Nat × Nat)),
      Linked nodes.mem none nodes.head l → (l.map Prod.fst).Nodup →
      l.map Prod.snd = clients.head.map (fun c => c.id) →
      ∃ r l2, Nodes.remove_client nodes client = some r ∧ Linked r.mem none r.head l2 ∧
        l2.Sublist l ∧
        l2.map Prod.snd = (remove_client clients client).head.map (fun c => c.id)) := by
  refine ⟨rfl, rfl, ?_, ?_, ?_, ?_, ?_⟩
  · intro h
    obtain ⟨password, stats, head⟩ := clients
    simp only [remove_client, remove_client_loop_absent client head h]
  · intro pre c post hhead hc hpre
    simp only [remove_client, hhead]
    exact remove_client_loop_split client pre c post hc hpre
  · intro h
    exact ascending_sublist _ _ (remove_client_loop_sublist client clients.head) h
  · intro h
    exact h.sublist (remove_client_loop_sublist client clients.head)
  · intro nodes l hlinked hnodup hl
    obtain ⟨r, hr, hres, -⟩ := remove_client_linked nodes l client hlinked hnodup
    refine ⟨r, _, hr, hres, List.eraseP_sublist l, ?_⟩
    rw [eraseP_snd, hl]
    exact (remove_client_loop_ids client clients.head).symm

/-- C27, for the roster of `alice`, `bob` and `carol`: the first, the middle
and the last peer removed, a peer that is not there removed, and the order
kept; and the same three removals on the three nodes in memory (at the
addresses 0, 1 and 2). -/
theorem remove_client_frame_witness :
    (remove_client
        ⟨none, ⟨0, 0, 0, 0, 3, 0⟩,
          [⟨1, true, some "alice".toList, ⟨0, 0, 0⟩, [], []⟩,
           ⟨2, true, some "bob".toList, ⟨0, 0, 0⟩, [], []⟩,
           ⟨3, true, some "carol".toList, ⟨0, 0, 0⟩, [], []⟩]⟩ 1).head
      = [⟨2, true, some "bob".toList, ⟨0, 0, 0⟩, [], []⟩,
         ⟨3, true, some "carol".toList, ⟨0, 0, 0⟩, [], []⟩] ∧
    (remove_client
        ⟨none, ⟨0, 0, 0, 0, 3, 0⟩,
          [⟨1, true, some "alice".toList, ⟨0, 0, 0⟩, [], []⟩,
           ⟨2, true, some "bob".toList, ⟨0, 0, 0⟩, [], []⟩,
           ⟨3, true, some "carol".toList, ⟨0, 0, 0⟩, [], []⟩]⟩ 2).head
      = [⟨1, true, some "alice".toList, ⟨0, 0, 0⟩, [], []⟩,
         ⟨3, true, some "carol".toList, ⟨0, 0, 0⟩, [], []⟩] ∧
    (remove_client
        ⟨none, ⟨0, 0, 0, 0, 3, 0⟩,
          [⟨1, true, some "alice".toList, ⟨0, 0, 0⟩, [], []⟩,
           ⟨2, true, some "bob".toList, ⟨0, 0, 0⟩, [], []⟩,
           ⟨3, true, some "carol".toList, ⟨0, 0, 0⟩, [], []⟩]⟩ 3).head
      = [⟨1, true, some "alice".toList, ⟨0, 0, 0⟩, [], []⟩,
         ⟨2, true, some "bob".toList, ⟨0, 0, 0⟩, [], []⟩] ∧
    remove_client
        ⟨none, ⟨0, 0, 0, 0, 3, 0⟩,
          [⟨1, true, some "alice".toList, ⟨0, 0, 0⟩, [], []⟩,
           ⟨2, true, some "bob".toList, ⟨0, 0, 0⟩, [], []⟩,
           ⟨3, true, some "carol".toList, ⟨0, 0, 0⟩, [], []⟩]⟩ 4
      = ⟨none, ⟨0, 0, 0, 0, 3, 0⟩,
          [⟨1, true, some "alice".toList, ⟨0, 0, 0⟩, [], []⟩,
           ⟨2, true, some "bob".toList, ⟨0, 0, 0⟩, [], []⟩,
           ⟨3, true, some "carol".toList, ⟨0, 0, 0⟩, [], []⟩]⟩ ∧
    ascending (remove_client
        ⟨none, ⟨0, 0, 0, 0, 3, 0⟩,
          [⟨1, true, some "alice".toList, ⟨0, 0, 0⟩, [], []⟩,
           ⟨2, true, some "bob".toList, ⟨0, 0, 0⟩, [], []⟩,
           ⟨3, true, some "carol".toList, ⟨0, 0, 0⟩, [], []⟩]⟩ 2).head = true ∧
    Nodes.remove_client
        ⟨some 0, [some ⟨1, none, some 1⟩, some ⟨2, some 0, some 2⟩, some ⟨3, some 1, none⟩]⟩ 1
      = some ⟨some 1, [none, some ⟨2, some 0, some 2⟩, some ⟨3, some 1, none⟩]⟩ ∧
    Nodes.remove_client
        ⟨some 0, [some ⟨1, none, some 1⟩, some ⟨2, some 0, some 2⟩, some ⟨3, some 1, none⟩]⟩ 2
      = some ⟨some 0, [some ⟨1, none, some 2⟩, none, some ⟨3, some 0, none⟩]⟩ ∧
    Nodes.remove_client
        ⟨some 0, [some ⟨1, none, some 1⟩, some ⟨2, some 0, some 2⟩, some ⟨3, some 1, none⟩]⟩ 3
      = some ⟨some 0, [some ⟨1, none, some 1⟩, some ⟨2, some 0, none⟩, none]⟩ :=
  ⟨(remove_client_frame _ 1).2.2.2.1 [] ⟨1, true, some "alice".toList, ⟨0, 0, 0⟩, [], []⟩
      [⟨2, true, some "bob".toList, ⟨0, 0, 0⟩, [], []⟩,
       ⟨3, true, some "carol".toList, ⟨0, 0, 0⟩, [], []⟩] rfl rfl (by decide),
   (remove_client_frame _ 2).2.2.2.1 [⟨1, true, some "alice".toList, ⟨0, 0, 0⟩, [], []⟩]
      ⟨2, true, some "bob".toList, ⟨0, 0, 0⟩, [], []⟩
      [⟨3, true, some "carol".toList, ⟨0, 0, 0⟩, [], []⟩] rfl rfl (by decide),
   (remove_client_frame _ 3).2.2.2.1
      [⟨1, true, some "alice".toList, ⟨0, 0, 0⟩, [], []⟩,
       ⟨2, true, some "bob".toList, ⟨0, 0, 0⟩, [], []⟩]
      ⟨3, true, some "carol".toList, ⟨0, 0, 0⟩, [], []⟩ [] rfl rfl (by decide),
   (remove_client_frame _ 4).2.2.1 (by decide),
   (remove_client_frame _ 2).2.2.2.2.1 (by decide), by decide, by decide, by decide⟩

/-! ## Claim C29: the names the server assigns -/

/-- The field of an accepted `NAME` command is not empty and has no colon. -/
theorem cmd_to_lines_name_field (reply cmd name : CString) (rest : LineList)
    (hparse : cmd_to_lines reply SERVER = some (cmd :: name :: rest))
    (hno : get_cmd_no (some cmd) SERVER = some NAME) : name ≠ [] ∧ ':' ∉ name := by
  obtain ⟨t, k, hk, -, hshape⟩ := cmd_to_lines_shape reply SERVER _ hparse
  rcases hshape with ⟨hf, -⟩ | ⟨r, hf, hr, -, hcolon⟩ | ⟨n, hf, hn, hnc, -⟩ |
    ⟨n, q, hf, hn, hnc, -⟩
  · simp at hf
  · simp only [List.cons.injEq] at hf
    obtain ⟨hcmd, hname, -⟩ := hf
    subst hcmd hname
    have hk0 : k = NAME := Option.some.inj (hk.symm.trans hno)
    exact ⟨hr, hcolon (Or.inl ⟨rfl, by rw [hk0]; decide⟩)⟩
  · simp only [List.cons.injEq] at hf
    obtain ⟨-, hname, -⟩ := hf
    subst hname
    exact ⟨hn, hnc⟩
  · simp only [List.cons.injEq] at hf
    obtain ⟨-, hname, -⟩ := hf
    subst hname
    exact ⟨hn, hnc⟩

/-- The loop of the server's `name_negotiate` gives a client without a name
only a name that is not empty and has no colon. -/
theorem name_negotiate_loop_assigned (fuel : Nat) (clients : ClientList) (client : ClientThread)
    (hnew : client.name = none) (n : CString)
    (h : (name_negotiate_loop fuel clients client).2.name = some n) : n ≠ [] ∧ ':' ∉ n := by
  induction fuel generalizing clients client with
  | zero =>
    simp only [name_negotiate_loop, hnew] at h
    cases h
  | succ fuel ih =>
    simp only [name_negotiate_loop] at h
    by_cases hempty : (read_client_line (send_client client "WHO:".toList)).2.1 = true
    · rw [if_pos hempty] at h
      simp only [disable_client, read_client_line, send_client, hnew] at h
      cases h
    · rw [if_neg hempty] at h
      cases hparse : cmd_to_lines (read_client_line (send_client client "WHO:".toList)).1 SERVER with
      | none =>
        rw [hparse] at h
        simp only [disable_client, read_client_line, send_client, hnew] at h
        cases h
      | some cmdArgs =>
        rw [hparse] at h
        simp only [] at h
        by_cases hno : get_cmd_no cmdArgs.head? SERVER = some NAME
        · rw [if_pos hno] at h
          rcases cmdArgs with _ | ⟨cmd, _ | ⟨name, rest⟩⟩
          · simp only [read_client_line, send_client, hnew] at h
            cases h
          · simp only [read_client_line, send_client, hnew] at h
            cases h
          · simp only [] at h
            split_ifs at h with hfree
            · simp only [send_client, set_client_name, Option.some.injEq] at h
              subst h
              exact cmd_to_lines_name_field _ cmd name rest hparse hno
            · exact ih _ _ (by exact hnew) h
        · rw [if_neg hno] at h
          simp only [disable_client, read_client_line, send_client, hnew] at h
          cases h

/-- A `NAME` line whose field has a colon is rejected. -/
theorem cmd_to_lines_name_colon (x : CString) (hx : ':' ∈ x) :
    cmd_to_lines ("NAME:".toList ++ x) SERVER = none := by
  have hne : x ≠ [] := by
    intro h
    rw [h] at hx
    simp at hx
  have hline : "NAME:".toList ++ x = "NAME".toList ++ ':' :: x := by simp [String.toList]
  have hno : get_cmd_no (some "NAME".toList) SERVER = some 0 := by decide
  have htok := strtok_r_token_colon "NAME".toList x (by decide) (by decide)
  have hargs := get_cmd_args_small ("NAME".toList ++ ':' :: x) SERVER "NAME".toList x 0 htok hno
    (by decide)
  simp only [if_neg hne] at hargs
  rw [hline, cmd_to_lines_of_args _ SERVER _ _ "NAME".toList 0 hargs rfl hno (by simp)]
  have hmatch : pattern_match_string [':'] x = true := (pattern_match_colon_iff x).mpr hx
  apply if_neg
  rintro ⟨-, -, hguard⟩
  have := (hguard (Or.inl ⟨rfl, by decide⟩)).1
  simp [hmatch] at this

/-- `get_printable` puts no colon into a string that has none, and keeps a
non-empty string non-empty. -/
theorem get_printable_no_colon (signedChar : Bool) (n : CString) (hn : n ≠ []) (hnc : ':' ∉ n) :
    get_printable signedChar n ≠ [] ∧ ':' ∉ get_printable signedChar n := by
  constructor
  · intro h
    have := get_printable_length signedChar n
    rw [h] at this
    exact hn (List.length_eq_zero.mp this.symm)
  · intro h
    simp only [get_printable, List.mem_map] at h
    obtain ⟨c, hc, hcolon⟩ := h
    split_ifs at hcolon
    · exact absurd hcolon (by decide)
    · exact hnc (hcolon ▸ hc)

/-- A peer that answers `WHO:` with a `NAME` line whose field has a colon is
disabled by the server's `name_negotiate`, without a name. -/
theorem name_negotiate_colon_name (clients : ClientList) (client : ClientThread)
    (x : CString) (rest : List Char) (hx : ':' ∈ x) (hnl : '\n' ∉ x) (hnul : Char.ofNat 0 ∉ x)
    (hread : client.readFrom = "NAME:".toList ++ x ++ '\n' :: rest) :
    name_negotiate clients client
      = ⟨clients, disable_client { send_client client "WHO:".toList with readFrom := rest },
          false⟩ := by
  have hnl2 : '\n' ∉ "NAME:".toList ++ x := by
    intro h
    rcases List.mem_append.mp h with h | h
    · exact absurd h (by decide)
    · exact hnl h
  have hnul2 : Char.ofNat 0 ∉ "NAME:".toList ++ x := by
    intro h
    rcases List.mem_append.mp h with h | h
    · exact absurd h (by decide)
    · exact hnul h
  have hline := read_file_line_of_line ("NAME:".toList ++ x) rest hnl2 hnul2
  have hparse := cmd_to_lines_name_colon x hx
  unfold name_negotiate
  rw [name_negotiate_loop]
  simp only [read_client_line, send_client, hread, hline, hparse]
  simp

/-- C29: the server's `name_negotiate` gives a peer only a name that is not
empty and has no colon; a `NAME` line whose field has a colon is rejected by
`cmd_to_lines`, and the peer that sent it is disabled without a name. So in
every roster the server reaches, the name of each named peer is not empty and
has no colon, and the lines `ENTER:`, `LEAVE:` and `MSG:` the server builds
from the printable name split, in the parser of the client, into the tag, the
printable name and (for `MSG`) the payload. -/
theorem name_negotiate_names (signedChar : Bool) (clients : ClientList)
    (h : Reachable clients) :
    (∀ (cl : ClientList) (client : ClientThread) (n : CString), client.name = none →
      (name_negotiate cl client).2.name = some n → n ≠ [] ∧ ':' ∉ n) ∧
    (∀ (cl : ClientList) (client : ClientThread) (x : CString) (rest : List Char),
      ':' ∈ x → '\n' ∉ x → Char.ofNat 0 ∉ x →
      client.readFrom = "NAME:".toList ++ x ++ '\n' :: rest →
      cmd_to_lines ("NAME:".toList ++ x) SERVER = none ∧
      name_negotiate cl client
        = ⟨cl, disable_client { send_client client "WHO:".toList with readFrom := rest },
            false⟩) ∧
    (∀ c ∈ clients.head, ∀ n : CString, c.name = some n →
      n ≠ [] ∧ ':' ∉ n ∧
      cmd_to_lines ("ENTER:".toList ++ get_printable signedChar n) CLIENT
        = some ["ENTER".toList, get_printable signedChar n] ∧
      cmd_to_lines ("LEAVE:".toList ++ get_printable signedChar n) CLIENT
        = some ["LEAVE".toList, get_printable signedChar n] ∧
      ∀ p : CString, p ≠ [] →
        cmd_to_lines ("MSG:".toList ++ get_printable signedChar n ++ ':' :: p) CLIENT
          = some ["MSG".toList, get_printable signedChar n, p]) := by
  refine ⟨?_, ?_, ?_⟩
  · intro cl client n hnew hn
    exact name_negotiate_loop_assigned _ cl client hnew n hn
  · intro cl client x rest hx hnl hnul hread
    exact ⟨cmd_to_lines_name_colon x hx, name_negotiate_colon_name cl client x rest hx hnl hnul hread⟩
  · have hinv : ∀ c ∈ clients.head, ∀ n : CString, c.name = some n → n ≠ [] ∧ ':' ∉ n := by
      induction h with
      | empty clients h =>
        intro c hc
        rw [h] at hc
        simp at hc
      | join clients client joined _ hnew hadd ih =>
        intro c hc n hn
        obtain ⟨hhead, -, -⟩ :=
          name_negotiate_loop_name (client.readFrom.length + 1) clients client hnew
        change (name_negotiate clients client).1.head = clients.head at hhead
        obtain ⟨hperm, -⟩ := add_node_perm _ joined _ hadd
        have hmem := hperm.mem_iff.mp hc
        rw [hhead] at hmem
        rcases List.mem_cons.mp hmem with hself | hold
        · rw [hself, init_node] at hn
          exact name_negotiate_loop_assigned _ clients client hnew n hn
        · exact ih c hold n hn
      | leave clients client _ ih =>
        intro c hc n hn
        exact ih c ((remove_client_loop_sublist client clients.head).subset hc) n hn
      | counters clients stats _ ih => exact ih
      | serve clients served _ hnames ih =>
        intro c hc n hn
        have hmem : some n ∈ served.head.map fun d => d.name :=
          List.mem_map.mpr ⟨c, hc, hn⟩
        rw [hnames] at hmem
        obtain ⟨d, hd, hdn⟩ := List.mem_map.mp hmem
        exact ih d hd n hdn
    intro c hc n hn
    obtain ⟨hne, hnc⟩ := hinv c hc n hn
    obtain ⟨hpne, hpnc⟩ := get_printable_no_colon signedChar n hne hnc
    have henter : "ENTER:".toList ++ get_printable signedChar n
        = "ENTER".toList ++ ':' :: get_printable signedChar n := by simp [String.toList]
    have hleave : "LEAVE:".toList ++ get_printable signedChar n
        = "LEAVE".toList ++ ':' :: get_printable signedChar n := by simp [String.toList]
    refine ⟨hne, hnc, ?_, ?_, ?_⟩
    · rw [henter]
      exact cmd_to_lines_word_field CLIENT "ENTER".toList _ 7 (by decide) rfl (by decide) hpne
        (fun _ => hpnc)
    · rw [hleave]
      exact cmd_to_lines_word_field CLIENT "LEAVE".toList _ 8 (by decide) rfl (by decide) hpne
        (fun _ => hpnc)
    · intro p hp
      have hmsg : "MSG:".toList ++ get_printable signedChar n ++ ':' :: p
          = "MSG".toList ++ ':' :: (get_printable signedChar n ++ ':' :: p) := by
        simp [String.toList]
      rw [hmsg]
      exact cmd_to_lines_client_msg _ p hpne hpnc hp

/-- C29, for the roster reached when `alice` joins the empty roster: her
name is not empty and has no colon, and the lines built from it split at the
name. -/
theorem name_negotiate_names_witness :
    Reachable ⟨none, ⟨0, 0, 0, 0, 1, 0⟩,
      [⟨1, true, some "alice".toList, ⟨0, 0, 0⟩, [], "WHO:\nOK:\n".toList⟩]⟩ ∧
    "alice".toList ≠ [] ∧ ':' ∉ "alice".toList ∧
    cmd_to_lines ("ENTER:".toList ++ "alice".toList) CLIENT
      = some ["ENTER".toList, "alice".toList] ∧
    cmd_to_lines ("LEAVE:".toList ++ "alice".toList) CLIENT
      = some ["LEAVE".toList, "alice".toList] ∧
    cmd_to_lines ("MSG:".toList ++ "alice".toList ++ ':' :: "a:b".toList) CLIENT
      = some ["MSG".toList, "alice".toList, "a:b".toList] := by
  have hR : Reachable ⟨none, ⟨0, 0, 0, 0, 1, 0⟩,
      [⟨1, true, some "alice".toList, ⟨0, 0, 0⟩, [], "WHO:\nOK:\n".toList⟩]⟩ :=
    Reachable.join ⟨none, ⟨0, 0, 0, 0, 0, 0⟩, []⟩ (init_client_thread 1 "NAME:alice\n".toList) _
      (Reachable.empty _ rfl) rfl (by decide)
  have h := (name_negotiate_names false _ hR).2.2
    ⟨1, true, some "alice".toList, ⟨0, 0, 0⟩, [], "WHO:\nOK:\n".toList⟩ (by simp)
    "alice".toList rfl
  have hp : get_printable false "alice".toList = "alice".toList := by decide
  rw [hp] at h
  exact ⟨hR, h.1, h.2.1, h.2.2.1, h.2.2.2.1, h.2.2.2.2 "a:b".toList (by decide)⟩

/-! ## Claim C26: lines written to one peer by two threads -/

theorem sum_length_set (l : List (List Call)) (t : Nat) (call : Call) (rest : List Call)
    (h : l[t]? = some (call :: rest)) :
    ((l.set t rest).map List.length).sum + 1 = (l.map List.length).sum := by
  induction l generalizing t with
  | nil => simp at h
  | cons x l ih =>
    cases t with
    | zero =>
      simp only [List.getElem?_cons_zero, Option.some.injEq] at h
      subst h
      simp only [List.set_cons_zero, List.map_cons, List.sum_cons, List.length_cons]
      omega
    | succ t =>
      simp only [List.getElem?_cons_succ] at h
      have := ih t h
      simp only [List.set_cons_succ, List.map_cons, List.sum_cons]
      omega

/-- A step is taken by a thread that exists, and leaves one call less. -/
theorem step_remaining (st st1 : Sched) (t : Nat) (h : step st t = some st1) :
    t < st.threads.length ∧ remaining st1 + 1 = remaining st := by
  unfold step at h
  cases hth : st.threads[t]? with
  | none => simp [hth] at h
  | some calls =>
    cases calls with
    | nil => simp [hth] at h
    | cons call rest =>
      have hlt : t < st.threads.length := (List.getElem?_eq_some_iff.mp hth).1
      have hsum := sum_length_set st.threads t call rest hth
      refine ⟨hlt, ?_⟩
      simp only [hth] at h
      cases call with
      | lock m =>
        simp only at h
        split_ifs at h
        cases h
        exact hsum
      | unlock m =>
        simp only [Option.some.injEq] at h
        subst h
        exact hsum
      | write client bytes =>
        simp only [Option.some.injEq] at h
        subst h
        exact hsum
      | flush client =>
        simp only [Option.some.injEq] at h
        subst h
        exact hsum

theorem remaining_of_done (st : Sched) (h : st.threads.all List.isEmpty = true) :
    remaining st = 0 := by
  unfold remaining
  obtain ⟨held, written, threads⟩ := st
  simp only at h ⊢
  induction threads with
  | nil => rfl
  | cons x l ih =>
    simp only [List.all_cons, Bool.and_eq_true] at h
    have hx : x = [] := List.isEmpty_iff.mp h.1
    simp [hx, ih h.2]

/-- Every state in which all threads are done, reached by some schedule, is
among `finals`. -/
theorem finals_complete (schedule : List Nat) (st final : Sched) (fuel : Nat)
    (hrun : run schedule st = some final) (hdone : final.threads.all List.isEmpty = true)
    (hfuel : remaining st ≤ fuel) : final ∈ finals fuel st := by
  induction schedule generalizing st fuel with
  | nil =>
    simp only [run, Option.some.injEq] at hrun
    subst hrun
    cases fuel <;> simp [finals, hdone]
  | cons t schedule ih =>
    simp only [run] at hrun
    cases hstep : step st t with
    | none => simp [hstep] at hrun
    | some st1 =>
      simp only [hstep] at hrun
      obtain ⟨hlt, hrem⟩ := step_remaining st st1 t hstep
      have hnot : ¬ st.threads.all List.isEmpty = true := by
        intro hall
        have := remaining_of_done st hall
        omega
      cases fuel with
      | zero => omega
      | succ fuel =>
        have hin := ih st1 fuel hrun (by omega)
        simp only [finals, if_neg hnot, List.mem_flatMap, List.mem_range]
        exact ⟨t, hlt, by rw [hstep]; exact hin⟩

/-- C26: what the code does when `alice` kicks `bob` while `carol` says
`hi`, in a roster of the three. `send_client` takes no mutex, so the thread
of `alice` (in `handle_kick`) can write `KICK:` to `bob` before, or in the
middle of, the three calls by which the thread of `carol` (in
`send_all_clients`, holding the lock of the list and the lock of `bob`)
writes its line to `bob`: `bob` is sent `KICK:MSG:carol:hi` as one line, or
`MSG:carol:hiKICK:` as one line, each followed by an empty line. Two
broadcasts, over all schedules, reach `bob` one after the other. -/
theorem send_client_without_lock :
    (send_client_calls 2 "KICK:".toList).all
      (fun call => match call with
        | Call.lock _ => false
        | _ => true) = true ∧
    (run ([0, 0, 0] ++ List.replicate 17 1 ++ [0, 0])
        ⟨[], [],
          [handle_kick_calls
              ⟨none, ⟨0, 0, 0, 0, 3, 0⟩,
                [⟨1, true, some "alice".toList, ⟨0, 0, 0⟩, [], []⟩,
                 ⟨2, true, some "bob".toList, ⟨0, 0, 0⟩, [], []⟩,
                 ⟨3, true, some "carol".toList, ⟨0, 0, 0⟩, [], []⟩]⟩ "bob".toList,
           send_all_clients_calls
              ⟨none, ⟨0, 0, 0, 0, 3, 0⟩,
                [⟨1, true, some "alice".toList, ⟨0, 0, 0⟩, [], []⟩,
                 ⟨2, true, some "bob".toList, ⟨0, 0, 0⟩, [], []⟩,
                 ⟨3, true, some "carol".toList, ⟨0, 0, 0⟩, [], []⟩]⟩
              "MSG:carol:hi".toList]⟩).map
        (fun st => (st.threads, received st 2))
      = some ([[], []], "KICK:MSG:carol:hi\n\n".toList) ∧
    (run ([0, 0] ++ List.replicate 8 1 ++ [0] ++ List.replicate 9 1 ++ [0, 0])
        ⟨[], [],
          [handle_kick_calls
              ⟨none, ⟨0, 0, 0, 0, 3, 0⟩,
                [⟨1, true, some "alice".toList, ⟨0, 0, 0⟩, [], []⟩,
                 ⟨2, true, some "bob".toList, ⟨0, 0, 0⟩, [], []⟩,
                 ⟨3, true, some "carol".toList, ⟨0, 0, 0⟩, [], []⟩]⟩ "bob".toList,
           send_all_clients_calls
              ⟨none, ⟨0, 0, 0, 0, 3, 0⟩,
                [⟨1, true, some "alice".toList, ⟨0, 0, 0⟩, [], []⟩,
                 ⟨2, true, some "bob".toList, ⟨0, 0, 0⟩, [], []⟩,
                 ⟨3, true, some "carol".toList, ⟨0, 0, 0⟩, [], []⟩]⟩
              "MSG:carol:hi".toList]⟩).map
        (fun st => (st.threads, received st 2))
      = some ([[], []], "MSG:carol:hiKICK:\n\n".toList) ∧
    (finals 34
        ⟨[], [],
          [send_all_clients_calls
              ⟨none, ⟨0, 0, 0, 0, 3, 0⟩,
                [⟨1, true, some "alice".toList, ⟨0, 0, 0⟩, [], []⟩,
                 ⟨2, true, some "bob".toList, ⟨0, 0, 0⟩, [], []⟩,
                 ⟨3, true, some "carol".toList, ⟨0, 0, 0⟩, [], []⟩]⟩
              "MSG:alice:yo".toList,
           send_all_clients_calls
              ⟨none, ⟨0, 0, 0, 0, 3, 0⟩,
                [⟨1, true, some "alice".toList, ⟨0, 0, 0⟩, [], []⟩,
                 ⟨2, true, some "bob".toList, ⟨0, 0, 0⟩, [], []⟩,
                 ⟨3, true, some "carol".toList, ⟨0, 0, 0⟩, [], []⟩]⟩
              "MSG:carol:hi".toList]⟩).map
        (fun st => received st 2)
      = ["MSG:alice:yo\nMSG:carol:hi\n".toList, "MSG:carol:hi\nMSG:alice:yo\n".toList] := by
  decide

/-! ## Claims C1 and C13: names and payloads with a byte of 128 to 255 -/

/-- The closed form of `handle_cmd` on a `SAY` with a payload, with the
sanitisation of the specification: it holds where plain `char` is unsigned,
and everywhere for a name and a payload whose bytes are all below 128. -/
theorem handle_cmd_say_printable (signedChar : Bool) (s : Server) (client : Nat)
    (self : ClientThread) (n p : CString)
    (hself : client_at s.clients client = some self) (hname : self.name = some n)
    (hp : p ≠ [])
    (hsmall : signedChar = false ∨ ∀ c ∈ n ++ p, c.toNat < 128) :
    handle_cmd signedChar s client ("SAY:".toList ++ p) = some
      { clients :=
          { password := s.clients.password,
            stats := { s.clients.stats with say := s.clients.stats.say + 1 },
            head := s.clients.head.map fun c =>
              { c with
                stats := if c.id = client then { c.stats with say := c.stats.say + 1 } else c.stats,
                writeTo :=
                  if c.isActive && c.name.isSome then
                    c.writeTo ++ ("MSG:".toList ++ printable n ++ ":".toList ++ printable p) ++
                      ['\n']
                  else c.writeTo } },
        stdout := s.stdout ++ (printable n ++ ": ".toList ++ printable p ++ "\n".toList) } := by
  have hn : get_printable signedChar n = printable n :=
    get_printable_of_small signedChar n
      (hsmall.imp id fun h c hc => h c (List.mem_append_left p hc))
  have hpp : get_printable signedChar p = printable p :=
    get_printable_of_small signedChar p
      (hsmall.imp id fun h c hc => h c (List.mem_append_right n hc))
  rw [handle_cmd_say_broadcast signedChar s client self n p hself hname hp, hn, hpp]

/-- The closed form of `handle_cmd` on a `SAY`, in scenario 3 of the
specification. -/
theorem handle_cmd_say_printable_witness :
    handle_cmd true
      { clients :=
          { password := none, stats := ⟨0, 0, 0, 0, 2, 0⟩,
            head := [⟨1, true, some "alice".toList, ⟨0, 0, 0⟩, [], []⟩,
                     ⟨2, true, some "bob".toList, ⟨0, 0, 0⟩, [], []⟩] },
        stdout := [] } 1 ("SAY:".toList ++ "hi: there".toList)
      = some
      { clients :=
          { password := none, stats := ⟨1, 0, 0, 0, 2, 0⟩,
            head := [⟨1, true, some "alice".toList, ⟨1, 0, 0⟩, [], "MSG:alice:hi: there\n".toList⟩,
                     ⟨2, true, some "bob".toList, ⟨0, 0, 0⟩, [], "MSG:alice:hi: there\n".toList⟩] },
        stdout := "alice: hi: there\n".toList } :=
  (handle_cmd_say_printable true _ 1 ⟨1, true, some "alice".toList, ⟨0, 0, 0⟩, [], []⟩
    "alice".toList "hi: there".toList (by decide) rfl (by decide)
    (Or.inr (by decide))).trans (by decide)

/-- C1: what `handle_cmd` does, where plain `char` is signed, for a payload
that holds a byte of 128 to 255. `alice` sends `SAY:` followed by the four
bytes `a`, 233, `b`, 7. The line of the specification is `MSG:alice:` followed
by `a`, 233, `b`, `?` (only the byte 7 is below 32). The code sends
`MSG:alice:a?b?` to `alice` and to `bob` and prints `alice: a?b?`: the byte 233
is replaced too. The counters are as claimed, and where plain `char` is
unsigned the line sent is the line of the specification. -/
theorem handle_cmd_say_high_byte :
    printable ['a', Char.ofNat 233, 'b', Char.ofNat 7] = ['a', Char.ofNat 233, 'b', '?'] ∧
    handle_cmd true
      { clients :=
          { password := none, stats := ⟨0, 0, 0, 0, 2, 0⟩,
            head := [⟨1, true, some "alice".toList, ⟨0, 0, 0⟩, [], []⟩,
                     ⟨2, true, some "bob".toList, ⟨0, 0, 0⟩, [], []⟩] },
        stdout := [] } 1 ("SAY:".toList ++ ['a', Char.ofNat 233, 'b', Char.ofNat 7])
      = some
      { clients :=
          { password := none, stats := ⟨1, 0, 0, 0, 2, 0⟩,
            head := [⟨1, true, some "alice".toList, ⟨1, 0, 0⟩, [], "MSG:alice:a?b?\n".toList⟩,
                     ⟨2, true, some "bob".toList, ⟨0, 0, 0⟩, [], "MSG:alice:a?b?\n".toList⟩] },
        stdout := "alice: a?b?\n".toList } ∧
    "MSG:alice:a?b?".toList ≠
      "MSG:".toList ++ printable "alice".toList ++ ":".toList ++
        printable ['a', Char.ofNat 233, 'b', Char.ofNat 7] ∧
    handle_cmd false
      { clients :=
          { password := none, stats := ⟨0, 0, 0, 0, 2, 0⟩,
            head := [⟨1, true, some "alice".toList, ⟨0, 0, 0⟩, [], []⟩,
                     ⟨2, true, some "bob".toList, ⟨0, 0, 0⟩, [], []⟩] },
        stdout := [] } 1 ("SAY:".toList ++ ['a', Char.ofNat 233, 'b', Char.ofNat 7])
      = some
      { clients :=
          { password := none, stats := ⟨1, 0, 0, 0, 2, 0⟩,
            head := [⟨1, true, some "alice".toList, ⟨1, 0, 0⟩, [],
                       "MSG:".toList ++ printable "alice".toList ++ ":".toList ++
                         printable ['a', Char.ofNat 233, 'b', Char.ofNat 7] ++ ['\n']⟩,
                     ⟨2, true, some "bob".toList, ⟨0, 0, 0⟩, [],
                       "MSG:".toList ++ printable "alice".toList ++ ":".toList ++
                         printable ['a', Char.ofNat 233, 'b', Char.ofNat 7] ++ ['\n']⟩] },
        stdout := printable "alice".toList ++ ": ".toList ++
          printable ['a', Char.ofNat 233, 'b', Char.ofNat 7] ++ "\n".toList } := by
  decide

/-- The closed form of `handle_list` with the sanitisation of the
specification: it holds where plain `char` is unsigned, and everywhere for
names whose bytes are all below 128. -/
theorem handle_list_printable (signedChar : Bool) (s : Server) (client : Nat)
    (cmdArgs : LineList) (names : List CString)
    (hnames : s.clients.head.map (fun c => c.name) = names.map some)
    (hsmall : signedChar = false ∨ ∀ n ∈ names, ∀ c ∈ n, c.toNat < 128) :
    handle_list signedChar s client cmdArgs = some
      { clients :=
          { password := s.clients.password,
            stats := { s.clients.stats with list := s.clients.stats.list + 1 },
            head := s.clients.head.map fun c =>
              { c with
                stats := if c.id = client then { c.stats with list := c.stats.list + 1 } else c.stats,
                writeTo :=
                  if c.isActive && c.name.isSome then
                    c.writeTo ++ ("LIST:".toList ++ [','].intercalate (names.map printable)) ++
                      ['\n']
                  else c.writeTo } },
        stdout := s.stdout ++ ("(current chatters: ".toList ++
          [','].intercalate (names.map printable) ++ ")\n".toList) } := by
  have hmap : names.map (get_printable signedChar) = names.map printable :=
    List.map_congr_left fun n hn =>
      get_printable_of_small signedChar n (hsmall.imp id fun h => h n hn)
  rw [handle_list_broadcast signedChar s client cmdArgs names hnames, hmap]

/-- The closed form of `handle_list`, for `bob` asking for the list in a
roster of `alice` and `bob`. -/
theorem handle_list_printable_witness :
    handle_list true
      { clients :=
          { password := none, stats := ⟨0, 0, 0, 0, 2, 0⟩,
            head := [⟨1, true, some "alice".toList, ⟨0, 0, 0⟩, [], []⟩,
                     ⟨2, true, some "bob".toList, ⟨0, 0, 0⟩, [], []⟩] },
        stdout := [] } 2 ["LIST".toList]
      = some
      { clients :=
          { password := none, stats := ⟨0, 0, 1, 0, 2, 0⟩,
            head := [⟨1, true, some "alice".toList, ⟨0, 0, 0⟩, [], "LIST:alice,bob\n".toList⟩,
                     ⟨2, true, some "bob".toList, ⟨0, 0, 1⟩, [], "LIST:alice,bob\n".toList⟩] },
        stdout := "(current chatters: alice,bob)\n".toList } :=
  (handle_list_printable true
      { clients :=
          { password := none, stats := ⟨0, 0, 0, 0, 2, 0⟩,
            head := [⟨1, true, some "alice".toList, ⟨0, 0, 0⟩, [], []⟩,
                     ⟨2, true, some "bob".toList, ⟨0, 0, 0⟩, [], []⟩] },
        stdout := [] } 2 ["LIST".toList] ["alice".toList, "bob".toList] (by decide)
      (Or.inr (by decide))).trans
    (by decide)

/-- C13: what `handle_list` does, where plain `char` is signed, for a roster
with a name that holds a byte of 128 to 255. The roster is `alice` and a peer
whose name is the four bytes `b`, 233, `b`, 7 (a name `name_negotiate`
accepts); `alice` asks for the list. The list of the specification is `alice,` followed by `b`, 233, `b`, `?` (only the
byte 7 is below 32). The code sends `LIST:alice,b?b?` to both peers and
prints `(current chatters: alice,b?b?)`: the byte 233 is replaced too. The
counters are as claimed, and where plain `char` is unsigned the list sent is
the list of the specification. -/
theorem handle_list_high_byte :
    (name_negotiate ⟨none, ⟨0, 0, 0, 0, 0, 0⟩, []⟩
        (init_client_thread 2
          ("NAME:".toList ++ ['b', Char.ofNat 233, 'b', Char.ofNat 7, '\n']))).2.name
      = some ['b', Char.ofNat 233, 'b', Char.ofNat 7] ∧
    [','].intercalate (["alice".toList, ['b', Char.ofNat 233, 'b', Char.ofNat 7]].map printable)
      = "alice,".toList ++ ['b', Char.ofNat 233, 'b', '?'] ∧
    handle_list true
      { clients :=
          { password := none, stats := ⟨0, 0, 0, 0, 2, 0⟩,
            head := [⟨1, true, some "alice".toList, ⟨0, 0, 0⟩, [], []⟩,
                     ⟨2, true, some ['b', Char.ofNat 233, 'b', Char.ofNat 7], ⟨0, 0, 0⟩, [], []⟩] },
        stdout := [] } 1 ["LIST".toList]
      = some
      { clients :=
          { password := none, stats := ⟨0, 0, 1, 0, 2, 0⟩,
            head := [⟨1, true, some "alice".toList, ⟨0, 0, 1⟩, [], "LIST:alice,b?b?\n".toList⟩,
                     ⟨2, true, some ['b', Char.ofNat 233, 'b', Char.ofNat 7], ⟨0, 0, 0⟩, [],
                       "LIST:alice,b?b?\n".toList⟩] },
        stdout := "(current chatters: alice,b?b?)\n".toList } ∧
    "LIST:alice,b?b?".toList ≠
      "LIST:".toList ++
        [','].intercalate
          (["alice".toList, ['b', Char.ofNat 233, 'b', Char.ofNat 7]].map printable) ∧
    handle_list false
      { clients :=
          { password := none, stats := ⟨0, 0, 0, 0, 2, 0⟩,
            head := [⟨1, true, some "alice".toList, ⟨0, 0, 0⟩, [], []⟩,
                     ⟨2, true, some ['b', Char.ofNat 233, 'b', Char.ofNat 7], ⟨0, 0, 0⟩, [], []⟩] },
        stdout := [] } 1 ["LIST".toList]
      = some
      { clients :=
          { password := none, stats := ⟨0, 0, 1, 0, 2, 0⟩,
            head := [⟨1, true, some "alice".toList, ⟨0, 0, 1⟩, [],
                       "LIST:".toList ++
                         [','].intercalate
                           (["alice".toList, ['b', Char.ofNat 233, 'b', Char.ofNat 7]].map
                             printable) ++ ['\n']⟩,
                     ⟨2, true, some ['b', Char.ofNat 233, 'b', Char.ofNat 7], ⟨0, 0, 0⟩, [],
                       "LIST:".toList ++
                         [','].intercalate
                           (["alice".toList, ['b', Char.ofNat 233, 'b', Char.ofNat 7]].map
                             printable) ++ ['\n']⟩] },
        stdout := "(current chatters: ".toList ++
          [','].intercalate
            (["alice".toList, ['b', Char.ofNat 233, 'b', Char.ofNat 7]].map printable) ++
          ")\n".toList } := by
  decide

/-! ## Claim C18: the statistics report -/

/-- The stat line of a peer with a name whose three counters have at most 15
digits between them. -/
theorem client_stat_line_eq (c : ClientThread) (n : CString) (hn : c.name = some n)
    (hd : (sprintf_d c.stats.say).length + (sprintf_d c.stats.kick).length +
      (sprintf_d c.stats.list).length ≤ 15) :
    client_stat_line c = some
      (n ++ ":SAY:".toList ++ sprintf_d c.stats.say ++ ":KICK:".toList ++
        sprintf_d c.stats.kick ++ ":LIST:".toList ++ sprintf_d c.stats.list ++ "\n".toList) := by
  have h1 : ":SAY:".toList.length = 5 := rfl
  have h2 : ":KICK:".toList.length = 6 := rfl
  have h3 : ":LIST:".toList.length = 6 := rfl
  have h4 : "\n".toList.length = 1 := rfl
  have h5 : ":SAY::KICK::LIST:\n".toList.length = 18 := rfl
  simp only [client_stat_line, hn]
  rw [if_pos]
  simp only [List.length_append, MAX_DIGS, h1, h2, h3, h4, h5]
  omega

/-- The stat line of the server when the six counters have at most 30 digits
between them. -/
theorem server_stat_line_eq (clients : ClientList)
    (hd : (sprintf_d clients.stats.auth).length + (sprintf_d clients.stats.name).length +
      (sprintf_d clients.stats.say).length + (sprintf_d clients.stats.kick).length +
      (sprintf_d clients.stats.list).length + (sprintf_d clients.stats.leave).length ≤ 30) :
    server_stat_line clients = some
      ("server:AUTH:".toList ++ sprintf_d clients.stats.auth ++ ":NAME:".toList ++
        sprintf_d clients.stats.name ++ ":SAY:".toList ++ sprintf_d clients.stats.say ++
        ":KICK:".toList ++ sprintf_d clients.stats.kick ++ ":LIST:".toList ++
        sprintf_d clients.stats.list ++ ":LEAVE:".toList ++ sprintf_d clients.stats.leave ++
        "\n".toList) := by
  have h0 : "server:AUTH:".toList.length = 12 := rfl
  have h1 : ":NAME:".toList.length = 6 := rfl
  have h2 : ":SAY:".toList.length = 5 := rfl
  have h3 : ":KICK:".toList.length = 6 := rfl
  have h4 : ":LIST:".toList.length = 6 := rfl
  have h5 : ":LEAVE:".toList.length = 7 := rfl
  have h6 : "\n".toList.length = 1 := rfl
  have h7 : "server:AUTH::NAME::SAY::KICK::LIST::LEAVE:\n".toList.length = 43 := rfl
  simp only [server_stat_line]
  rw [if_pos]
  simp only [List.length_append, MAX_DIGS, h0, h1, h2, h3, h4, h5, h6, h7]
  omega

/-- The loop of `sighup_stats_handler` on peers that all have names, and
counters of at most 15 digits between the three, appends the stat line of each
peer, in roster order. -/
theorem sighup_stats_loop_eq (l : List ClientNode) (names : List CString) (stats : CString)
    (h : l.map (fun c => c.name) = names.map some)
    (hd : ∀ c ∈ l, (sprintf_d c.stats.say).length + (sprintf_d c.stats.kick).length +
      (sprintf_d c.stats.list).length ≤ 15) :
    sighup_stats_loop l stats = some (stats ++
      (names.zip l).flatMap fun nc =>
        nc.1 ++ ":SAY:".toList ++ sprintf_d nc.2.stats.say ++ ":KICK:".toList ++
          sprintf_d nc.2.stats.kick ++ ":LIST:".toList ++ sprintf_d nc.2.stats.list ++
          "\n".toList) := by
  induction l generalizing names stats with
  | nil =>
    cases names with
    | nil => simp [sighup_stats_loop]
    | cons n rest => simp at h
  | cons c l ih =>
    cases names with
    | nil => simp at h
    | cons n rest =>
      simp only [List.map_cons, List.cons.injEq] at h
      have hc := client_stat_line_eq c n h.1 (hd c (List.mem_cons_self c l))
      simp only [sighup_stats_loop, hc,
        ih rest _ h.2 (fun d hmem => hd d (List.mem_cons_of_mem c hmem)), add_to_string,
        List.zip_cons_cons, List.flatMap_cons, List.append_assoc]

/-- The report written on a `SIGHUP` is the report of the specification for
every roster whose peers have the names `names` (in roster order), when the
three counters of each peer have at most 15 digits between them, the six
counters of the server have at most 30 digits between them, and the report has
no `%`: `@CLIENTS@` and a newline, then for each roster peer in roster order
its name followed by `:SAY:`, `:KICK:`, `:LIST:` with its own counters in
decimal and a newline, then `@SERVER@` and a newline, then `server:AUTH:`,
`:NAME:`, `:SAY:`, `:KICK:`, `:LIST:`, `:LEAVE:` with the global counters in
decimal, in that order, and a newline. -/
theorem sighup_stats_report (clients : ClientList) (names : List CString)
    (hnames : clients.head.map (fun c => c.name) = names.map some)
    (hclient : ∀ c ∈ clients.head, (sprintf_d c.stats.say).length +
      (sprintf_d c.stats.kick).length + (sprintf_d c.stats.list).length ≤ 15)
    (hserver : (sprintf_d clients.stats.auth).length + (sprintf_d clients.stats.name).length +
      (sprintf_d clients.stats.say).length + (sprintf_d clients.stats.kick).length +
      (sprintf_d clients.stats.list).length + (sprintf_d clients.stats.leave).length ≤ 30)
    (hfmt : '%' ∉ stats_report names clients) :
    sighup_stats_handler clients = some (stats_report names clients) := by
  have hbuilt : sighup_stats_handler clients
      = vfprintf_no_args (stats_report names clients) false := by
    simp only [sighup_stats_handler, sighup_stats_loop_eq clients.head names _ hnames hclient,
      server_stat_line_eq clients hserver, add_to_string, stats_report, List.nil_append]
  rw [hbuilt, vfprintf_no_args_of_no_percent _ hfmt]

/-- The report in scenario 6 of the specification: `alice` with `SAY` 1,
`KICK` 1, `LIST` 0 and the global counters `AUTH` 2, `NAME` 2, `SAY` 1,
`KICK` 1, `LIST` 0, `LEAVE` 0. -/
theorem sighup_stats_report_witness :
    sighup_stats_handler
        ⟨some "hunter2".toList, ⟨1, 1, 0, 2, 2, 0⟩,
          [⟨1, true, some "alice".toList, ⟨1, 1, 0⟩, [], []⟩]⟩
      = some ("@CLIENTS@\nalice:SAY:1:KICK:1:LIST:0\n@SERVER@\n".toList ++
          "server:AUTH:2:NAME:2:SAY:1:KICK:1:LIST:0:LEAVE:0\n".toList) :=
  (sighup_stats_report
    ⟨some "hunter2".toList, ⟨1, 1, 0, 2, 2, 0⟩,
      [⟨1, true, some "alice".toList, ⟨1, 1, 0⟩, [], []⟩]⟩ ["alice".toList] (by decide)
    (by decide) (by decide) (by decide)).trans
    (by decide)

/-- C18: what `sighup_stats_handler` writes for a name with a `%` and for
counters of many digits. For the one peer `a%%b` (a name `name_negotiate`
accepts) the report of the specification has the line `a%%b:SAY:0:KICK:0:LIST:0`; the code hands the
report to `fprintf` as its format, so the line written is
`a%b:SAY:0:KICK:0:LIST:0`. For the one peer `100%` the format has the
conversion `%:`, which is undefined. For a peer with `SAY` 100000, `KICK`
10000 and `LIST` 10000 (16 digits) `sprintf` writes past the buffer of
`client_stat_line`, which has room for 15 digits, and no report is written;
`server_stat_line` does the same when the six global counters have 31
digits. -/
theorem sighup_stats_handler_format_and_digits :
    (name_negotiate ⟨none, ⟨0, 0, 0, 0, 0, 0⟩, []⟩
        (init_client_thread 1 "NAME:a%%b\n".toList)).2.name = some "a%%b".toList ∧
    stats_report ["a%%b".toList]
        ⟨none, ⟨0, 0, 0, 0, 1, 0⟩, [⟨1, true, some "a%%b".toList, ⟨0, 0, 0⟩, [], []⟩]⟩
      = ("@CLIENTS@\na%%b:SAY:0:KICK:0:LIST:0\n@SERVER@\n".toList ++
          "server:AUTH:0:NAME:1:SAY:0:KICK:0:LIST:0:LEAVE:0\n".toList) ∧
    sighup_stats_handler
        ⟨none, ⟨0, 0, 0, 0, 1, 0⟩, [⟨1, true, some "a%%b".toList, ⟨0, 0, 0⟩, [], []⟩]⟩
      = some ("@CLIENTS@\na%b:SAY:0:KICK:0:LIST:0\n@SERVER@\n".toList ++
          "server:AUTH:0:NAME:1:SAY:0:KICK:0:LIST:0:LEAVE:0\n".toList) ∧
    sighup_stats_handler
        ⟨none, ⟨0, 0, 0, 0, 1, 0⟩, [⟨1, true, some "100%".toList, ⟨0, 0, 0⟩, [], []⟩]⟩
      = none ∧
    client_stat_line ⟨1, true, some "alice".toList, ⟨100000, 10000, 10000⟩, [], []⟩ = none ∧
    sighup_stats_handler
        ⟨none, ⟨100000, 10000, 10000, 0, 1, 0⟩,
          [⟨1, true, some "alice".toList, ⟨100000, 10000, 10000⟩, [], []⟩]⟩
      = none ∧
    server_stat_line ⟨none, ⟨100000, 10000, 10000, 10000, 10000, 10000⟩, []⟩ = none ∧
    sighup_stats_handler ⟨none, ⟨100000, 10000, 10000, 10000, 10000, 10000⟩, []⟩ = none := by
  decide

/-! ## Claim C8: the reply `NAME:` in `name_negotiate` -/

/-- C8: what `name_negotiate` does for the reply `NAME:`. `cmd_to_lines`
accepts the line, with the single field `NAME`. `name_negotiate` then reads
`cmdArgs->lines[1]`, one past the one entry of the array, before it counts
the reply and before it tests `numLines > 1`: the call ends in the fault, with
the `NAME` counter still 1 and nothing written after `WHO:` (no
`NAME_TAKEN:`, no second `WHO:`), and `spawn_client_thread` ends in the fault.
For the reply `NAME:alice` to a roster with `alice`, followed by `NAME:bob`,
the code does what is claimed: the counter goes from 1 to 3, `NAME_TAKEN:` is
sent, `WHO:` is asked again, and `bob` is stored and answered with `OK:`. -/
theorem name_negotiate_empty_name_reads_past_fields :
    cmd_to_lines "NAME:".toList SERVER = some ["NAME".toList] ∧
    name_negotiate
        ⟨none, ⟨0, 0, 0, 0, 1, 0⟩, [⟨1, true, some "alice".toList, ⟨0, 0, 0⟩, [], []⟩]⟩
        ⟨2, true, none, ⟨0, 0, 0⟩, "NAME:\nNAME:bob\n".toList, []⟩
      = ⟨⟨none, ⟨0, 0, 0, 0, 1, 0⟩, [⟨1, true, some "alice".toList, ⟨0, 0, 0⟩, [], []⟩]⟩,
         ⟨2, true, none, ⟨0, 0, 0⟩, "NAME:bob\n".toList, "WHO:\n".toList⟩, true⟩ ∧
    spawn_client_thread false
        ⟨⟨none, ⟨0, 0, 0, 0, 1, 0⟩, [⟨1, true, some "alice".toList, ⟨0, 0, 0⟩, [], []⟩]⟩, []⟩
        2 "NAME:\nNAME:bob\n".toList
      = Outcome.fault
        ⟨⟨none, ⟨0, 0, 0, 0, 1, 0⟩, [⟨1, true, some "alice".toList, ⟨0, 0, 0⟩, [], []⟩]⟩, []⟩ ∧
    name_negotiate
        ⟨none, ⟨0, 0, 0, 0, 1, 0⟩, [⟨1, true, some "alice".toList, ⟨0, 0, 0⟩, [], []⟩]⟩
        ⟨2, true, none, ⟨0, 0, 0⟩, "NAME:alice\nNAME:bob\n".toList, []⟩
      = ⟨⟨none, ⟨0, 0, 0, 0, 3, 0⟩, [⟨1, true, some "alice".toList, ⟨0, 0, 0⟩, [], []⟩]⟩,
         ⟨2, true, some "bob".toList, ⟨0, 0, 0⟩, [],
           "WHO:\nNAME_TAKEN:\nWHO:\nOK:\n".toList⟩, false⟩ := by
  decide

end Chat
